import Mathlib

/-!
# ospec: the test runner of `src/ospec.js`

A shallow embedding of the runner (`o.run`, `runSpec`, `series`, `next`, `done`, `_done`,
`startTimer`, `finalize`) and of the assertion helpers that write into `results`.

Conventions of the embedding.

* A test or hook body is a value of type `Fn`: the statements it executes synchronously
  (`acts`), whether its return value is a thenable, and which completion signal reaches the
  unit first once the body has returned (`later`).
* The closures `next`, `done`, `_done`, `finalize` of the source share the `let` variables of
  one `next` invocation; they are the record `Run`.  A call of `next` made by `finalize`
  (directly or through `nextTickish`) is counted in `Ctx.nexts`; the loop `series` performs it.
* A JavaScript exception that leaves the scheduler is the `Except.error` result; it carries the
  message and the state at the moment of the throw.
-/

namespace Ospec

/-- The four hook kinds of a spec. -/
inductive HookName
  | before | after | beforeEach | afterEach
  deriving DecidableEq, Repr

/-- The name of a hook kind, as in `"o." + task.hookName`. -/
def HookName.text : HookName → String
  | .before => "before"
  | .after => "after"
  | .beforeEach => "beforeEach"
  | .afterEach => "afterEach"

/-- A JavaScript number used as a delay in milliseconds. -/
inductive Delay
  | ms (n : Nat)
  | infinity
  deriving DecidableEq, Repr

/-- A thrown value, or the argument of `done`: an `Error` with its `message`, another value
with its `String(err)`, or a value for which the conversion `String(err)` throws: an object
without `toString` and `valueOf` such as `Object.create(null)`, or one whose `toString`
throws; `raised` is the message of the error the conversion raises. -/
inductive Thrown
  | error (message : String)
  | value (str : String)
  | unprintable (raised : String)
  deriving DecidableEq, Repr

/-- The message `finalize` computes for a thrown value: `err.message` for an `Error`,
`String(err)` otherwise, which throws for an unprintable value. -/
def Thrown.text : Thrown → Except String String
  | .error m => .ok m
  | .value s => .ok s
  | .unprintable raised => .error raised

/-- The second argument of `fail` in `finalize(err, threw, isTimeout)`: `err.message` or
`String(err)`, where `err` is `undefined` when nothing was passed. -/
def errorText (err : Option Thrown) : Except String String :=
  match err with
  | none => .ok "undefined"
  | some e => e.text

/-- Which completion signal reaches an asynchronous unit first, after its body returned. -/
inductive Late
  | timer
  | done (err : Option Thrown)
  | settle (rejection : Option Thrown)
  deriving DecidableEq, Repr

/-- One synchronous statement of a body.
`plain verb success self value userMsg` is an assertion defined with `plainAssertion`: `success`
is `compare(self.value, value)`, `self` and `value` are the operands as printed by `serialize`.
`satisfies r` and `notSatisfies r` carry what `check(self.value)` does: it returns
`(pass, message)` or throws.  `timeout t` is `o.timeout(t)`, with `none` for an argument that
is not a number.  `done err` calls the completion callback. -/
inductive Action
  | plain (verb : String) (success : Bool) (self value userMsg : String)
  | satisfies (res : Except Thrown (Bool × String))
  | notSatisfies (res : Except Thrown (Bool × String))
  | timeout (t : Option Delay)
  | done (err : Option Thrown)
  | throw (e : Thrown)

/-- A function object given to `o`, `o.only` or a hook: `id` is its identity, `length` its
declared parameter count, `arg` what the RegExp of `validateDone` extracts from its text (the
name of its first parameter) and `argOnce` whether that name occurs only once in the text. -/
structure Fn where
  id : Nat
  length : Nat
  acts : List Action
  thenable : Bool
  later : Late
  arg : Option String := none
  argOnce : Bool := false

/-- A `Task` made at definition time (`err != null`): a test (`hookName = none`) or a hook. -/
structure Task where
  fn : Fn
  depth : Nat
  hookName : Option HookName
  doneTwiceError : String

/-- The function `validateDone(fn, error)` for a task with `error != null` when `error` is
true: the message for a second call of the callback, `none` for `undefined`, or the error
it throws when the callback's name occurs only once in the text. -/
def validateDone (fn : Fn) (error : Bool) : Except String (Option String) :=
  if !error || fn.length = 0 then .ok none
  else
    match fn.arg with
    | some arg =>
      if arg = "" then .ok (some "`done()` should only be called once")
      else if fn.argOnce then .error ("'" ++ arg ++ "()' should be called at least once")
      else .ok (some ("`" ++ arg ++ "()` should only be called once"))
    | none => .ok (some "`done()` should only be called once")

/-- The constructor `Task(fn, err, hookName)` for a definition-time task (`err != null`),
called while `isRunning()` and `globalDepth` have the given values. -/
def mkTask (isRunning : Bool) (globalDepth : Nat) (fn : Fn) (hookName : Option HookName) :
    Except String Task :=
  if isRunning then
    .error "Test definitions and hooks shouldn't be nested. To group tests, use 'o.spec()'"
  else
    match validateDone fn true with
    | .error m => .error m
    | .ok r => .ok {
        fn := fn
        depth := globalDepth + (if hookName.isNone then 1 else 0)
        hookName := hookName
        doneTwiceError := r.getD "A thenable should only be resolved once" }

/-- A spec tree: the hook arrays, `specTimeout`, and the `children` object as the list of its
properties in insertion order. -/
inductive Spec
  | mk (before beforeEach after afterEach : List Task) (specTimeout : Option Delay)
      (children : List (String × (Task ⊕ Spec)))

def Spec.before : Spec → List Task
  | .mk b _ _ _ _ _ => b

def Spec.beforeEach : Spec → List Task
  | .mk _ b _ _ _ _ => b

def Spec.after : Spec → List Task
  | .mk _ _ a _ _ _ => a

def Spec.afterEach : Spec → List Task
  | .mk _ _ _ a _ _ => a

def Spec.specTimeout : Spec → Option Delay
  | .mk _ _ _ _ t _ => t

def Spec.children : Spec → List (String × (Task ⊕ Spec))
  | .mk _ _ _ _ _ c => c

/-- The globals of the definition phase: the spec being defined, `globalDepth`, the array
`only`, and whether `o.run` has been called.  `globalContext` is the current value of the
group object the global refers to; `path` lists the group objects that enclose it, the
innermost first, each with the name of the property of `children` under which the next
inner one is stored (`rootSpec` is the last one, or `globalContext` when the path is empty). -/
structure Def where
  globalContext : Spec := .mk [] [] [] [] none []
  globalDepth : Nat := 1
  only : List Nat := []
  isRunning : Bool := false
  path : List (Spec × String) := []

/-- `hasOwn.call(children, subject)`. -/
def hasOwn (children : List (String × (Task ⊕ Spec))) (subject : String) : Bool :=
  children.any (fun kv => kv.1 == subject)

/-- The loop `while (hasOwn.call(globalContext.children, subject)) subject += "*"`, with a
bound on the number of iterations. -/
def uniqueLoop (children : List (String × (Task ⊕ Spec))) : Nat → String → String
  | 0, subject => subject
  | n + 1, subject =>
    if hasOwn children subject then uniqueLoop children n (subject ++ "*") else subject

/-- The function `unique(subject)` in the spec whose children are given; the loop runs at
most once per child. -/
def unique (children : List (String × (Task ⊕ Spec))) (subject : String) : String :=
  uniqueLoop children (children.length + 1) subject

/-- The assignment `children[key] = value`: a new property goes last. -/
def setChild (children : List (String × (Task ⊕ Spec))) (key : String) (value : Task ⊕ Spec) :
    List (String × (Task ⊕ Spec)) :=
  if hasOwn children key then children.map (fun kv => if kv.1 == key then (key, value) else kv)
  else children ++ [(key, value)]

/-- The call `o(subject, predicate)` with a predicate: registers a test in `globalContext`.
An error result carries the globals at the moment of the throw. -/
def o (subject : String) (predicate : Fn) (d : Def) : Except (String × Def) Def :=
  match mkTask d.isRunning d.globalDepth predicate none with
  | .error m => .error (m, d)
  | .ok task =>
    match d.globalContext with
    | .mk b be a ae t children =>
      let spec := Spec.mk b be a ae t (setChild children (unique children subject) (.inl task))
      .ok { d with globalContext := spec }

/-- The registration `o.before(predicate)`, `o.after(predicate)`, `o.beforeEach(predicate)` or
`o.afterEach(predicate)`, made by `hook(name)`. -/
def hook (name : HookName) (predicate : Fn) (d : Def) : Except (String × Def) Def :=
  match d.globalContext with
  | .mk b be a ae t children =>
    let present := match name with
      | .before => b
      | .beforeEach => be
      | .after => a
      | .afterEach => ae
    if present.length > 0 then
      .error ("Attempt to register o." ++ name.text
        ++ "() more than once. A spec can only have one hook of each kind", d)
    else
      match mkTask d.isRunning d.globalDepth predicate (some name) with
      | .error m => .error (m, d)
      | .ok task =>
        let spec := match name with
          | .before => Spec.mk [task] be a ae t children
          | .beforeEach => Spec.mk b [task] a ae t children
          | .after => Spec.mk b be [task] ae t children
          | .afterEach => Spec.mk b be a [task] t children
        .ok { d with globalContext := spec }

/-- The call `o.only(subject, predicate)`: `only.push(predicate)`, then `o(subject, predicate)`. -/
def o.only (subject : String) (predicate : Fn) (d : Def) : Except (String × Def) Def :=
  o subject predicate { d with only := d.only ++ [predicate.id] }

/-- The call `o.specTimeout(t)`; `none` stands for an argument that is not a number. -/
def o.specTimeout (t : Option Delay) (d : Def) : Except (String × Def) Def :=
  if d.isRunning then .error ("o.specTimeout() can only be called before o.run()", d)
  else
    match d.globalContext with
    | .mk b be a ae specTimeout children =>
      if specTimeout.isSome then
        .error ("A default timeout has already been defined in this context", d)
      else
        match t with
        | none => .error ("o.specTimeout() expects a number as argument", d)
        | some t =>
          let spec := Spec.mk b be a ae (some t) children
          .ok { d with globalContext := spec }

/-- The group object `parent` once the group stored in its property `children[name]` has the
value `child`. -/
def plug (parent : Spec) (name : String) (child : Spec) : Spec :=
  match parent with
  | .mk b be a ae t children => .mk b be a ae t (setChild children name (.inr child))

/-- The statement `globalContext = parent` of `o.spec`, where `parent` is the group object
`n` levels up the path: the value of each group left behind is stored in its parent. -/
def leave : Nat → Spec → List (Spec × String) → Spec × List (Spec × String)
  | 0, focus, path => (focus, path)
  | _ + 1, focus, [] => (focus, [])
  | n + 1, focus, (parent, name) :: rest => leave n (plug parent name focus) rest

/-- The value of `rootSpec`. -/
def Def.rootSpec (d : Def) : Spec :=
  (leave d.path.length d.globalContext d.path).1

/-- The `catch` block of `o.spec(subject, predicate)` after `console.error(e)`: the
assignment `globalContext.children[name].children = {"> > BAILED OUT < < <": new Task(...)}`
with the function `function(){ throw e }`, whose identity is `bail`.  The object on the
right is built first; the target, `globalContext.children[name]`, is read from the group
that is current when the error arrives, and storing into `undefined` throws; a task found
there gets a property `children` that nothing reads. -/
def bailOut (name : String) (e : Thrown) (bail : Nat) (d : Def) : Except (String × Def) Def :=
  match mkTask d.isRunning d.globalDepth
      { id := bail, length := 0, acts := [Action.throw e], thenable := false,
        later := Late.timer } none with
  | .error m => .error (m, d)
  | .ok task =>
    match d.globalContext with
    | .mk b be a ae t children =>
      match children.find? (fun kv => kv.1 == name) with
      | none => .error ("TypeError: Cannot set properties of undefined (setting 'children')", d)
      | some (_, .inl _) => .ok d
      | some (_, .inr (.mk b2 be2 a2 ae2 t2 _)) =>
        let spec := Spec.mk b be a ae t (setChild children name
          (.inr (.mk b2 be2 a2 ae2 t2 [("> > BAILED OUT < < <", .inl task)])))
        .ok { d with globalContext := spec }

/-- The call `o.spec(subject, predicate)`.  The definition function `predicate` runs on the
globals with the new group as `globalContext`; it returns the globals it leaves, or the value
it throws with the globals at that moment.  `bail` is the identity of the function object the
`catch` block makes.  The statements after the `catch` block are not reached when that
block throws. -/
def o.spec (subject : String) (predicate : Def → Except (Thrown × Def) Def) (bail : Nat)
    (d : Def) : Except (String × Def) Def :=
  if d.isRunning then
    .error ("`o.spec()` can't only be called at test definition time, not run time", d)
  else
    let name := unique d.globalContext.children subject
    let parent := plug d.globalContext name (.mk [] [] [] [] none [])
    let inner : Def := { d with
      globalContext := .mk [] [] [] [] none []
      path := (parent, name) :: d.path
      globalDepth := d.globalDepth + 1 }
    let caught : Except (String × Def) Def := match predicate inner with
      | .ok d2 => .ok d2
      | .error (e, d2) => bailOut name e bail d2
    match caught with
    | .error x => .error x
    | .ok d2 =>
      let back := leave (d2.path.length - d.path.length) d2.globalContext d2.path
      .ok { d2 with globalDepth := d2.globalDepth - 1, globalContext := back.1, path := back.2 }

/-- The guards and the first assignment of `o.run(reporter)`: `rootSpec !== globalContext`
holds inside a group, `results = []` makes `isRunning()` true.  The run itself starts at the
next tick. -/
def o.run (d : Def) : Except (String × Def) Def :=
  if d.path.length ≠ 0 then .error ("`o.run()` can't be called from within a spec", d)
  else if d.isRunning then .error ("`o.run()` has already been called", d)
  else .ok { d with isRunning := true }

/-- A definition function: the registration calls it makes, in order, and the value it throws
after them, if any.  An error thrown by one of the calls ends the function. -/
def specBody (calls : List (Def → Except (String × Def) Def)) (throws : Option Thrown)
    (d : Def) : Except (Thrown × Def) Def :=
  match calls with
  | [] =>
    match throws with
    | none => .ok d
    | some e => .error (e, d)
  | call :: rest =>
    match call d with
    | .ok d => specBody rest throws d
    | .error (m, d) => .error (Thrown.error m, d)

/-- The tasks a `series` runs: user tasks and the internal ones made by `o.run` and `runSpec`
(`err == null`): the wrapper of a child, `popSubjects`, `restoreStack` and the results
consumer.  `child` carries the variables its closure captures: the key, the child, the number
of the `runSpec` activation whose `bailed` it reads, the chains and the default delay. -/
inductive Job
  | user (t : Task)
  | child (key : String) (c : Task ⊕ Spec) (activation : Nat) (beforeEach afterEach : List Task)
      (defaultDelay : Delay)
  | pop
  | restoreStack (previousBail : Option Nat)
  | report

/-- `task.error != null`. -/
def Job.error : Job → Bool
  | .user _ => true
  | _ => false

/-- `task.depth`: internal tasks are made while `globalDepth` is 1 and have no hook name. -/
def Job.depth : Job → Nat
  | .user t => t.depth
  | _ => 2

/-- `task.hookName`. -/
def Job.hookName : Job → Option HookName
  | .user t => t.hookName
  | _ => none

/-- `task.doneTwiceError`: `validateDone` returns `undefined` for a task without `err`. -/
def Job.doneTwiceError : Job → String
  | .user t => t.doneTwiceError
  | _ => "A thenable should only be resolved once"

/-- The `stats` object. -/
structure Stats where
  asyncSuccesses : Nat
  bailCount : Nat
  deriving DecidableEq, Repr

/-- An entry of `results`; `task` is the identity of `globalTestOrHook` (its function's `id`,
its `hookName`) when the entry was made. -/
structure Result where
  pass : Bool
  message : String
  task : Nat
  hook : Option HookName
  timeoutLimbo : Bool
  context : String
  deriving DecidableEq, Repr

/-- What the run did, in order: the body of a user task was entered (the identity of its
function, its `hookName`, its `context` label), `restoreStack` ran, the results consumer was
called with `results` and `stats`. -/
inductive Ev
  | call (fn : Nat) (hookName : Option HookName) (context : String)
  | restore
  | report (results : List Result) (stats : Stats)
  deriving DecidableEq, Repr

/-- The globals of the runner.  `bailed` holds the variable `bailed` of every `runSpec`
activation, by activation number; `globalBail` names the activation whose closure is
installed (`none`: `undefined`).  `globalTimeout` names the unit whose setter is installed
(`none`: `noTimeoutRightNow`), `units` counts the `next` invocations that started a task. -/
structure State where
  results : List Result := []
  stats : Stats := ⟨0, 0⟩
  subjects : List String := []
  bailed : List Bool := []
  globalBail : Option Nat := none
  globalTestOrHook : Option (Task × String) := none
  globalTimedOutAndPendingResolution : Int := 0
  globalTimeout : Option Nat := none
  units : Nat := 0
  trace : List Ev := []

/-- The variable `bailed` of an activation. -/
def State.isBailed (g : State) (activation : Nat) : Bool :=
  g.bailed.getD activation false

/-- The `let` variables of one `next` invocation; `timeout` is the armed timer with its
duration. -/
structure Run where
  serial : Nat
  delay : Delay
  isAsync : Bool := false
  isDone : Bool := false
  isFinalized : Bool := false
  timeout : Option Nat := none
  deriving DecidableEq, Repr

/-- What the closures of one unit see: the globals, the unit's variables, the `cursor` of the
series, and how many times the unit asked for `next`. -/
structure Ctx where
  g : State
  u : Run
  cursor : Nat
  nexts : Nat := 0

/-- The number printed by `"" + delay`. -/
def Delay.text : Delay → String
  | .ms n => toString n
  | .infinity => "Infinity"

/-- `Math.min(delay, 0x7fffffff)`. -/
def Delay.clamp : Delay → Nat
  | .ms n => min n 0x7fffffff
  | .infinity => 0x7fffffff

/-- `new Assertion(value)`: returns `this.i` and pushes the incomplete record; reading
`globalTestOrHook.error` throws when no test or hook has started. -/
def Assertion (g : State) : Except String (Nat × State) :=
  match g.globalTestOrHook with
  | none => .error "TypeError: Cannot read properties of null (reading 'error')"
  | some (t, context) =>
    .ok (g.results.length, { g with results := g.results ++ [{
      pass := true
      message := "Incomplete assertion in the test definition starting at..."
      task := t.fn.id
      hook := t.hookName
      timeoutLimbo := g.globalTimedOutAndPendingResolution == 0
      context := (if g.globalTimedOutAndPendingResolution == 0 then "" else "??? ") ++ context }] })

/-- `succeed(i, message, null)`. -/
def succeed (i : Nat) (message : String) (g : State) : State :=
  { g with results := g.results.modify (fun r => { r with pass := true, message := message }) i }

/-- `fail(i, message, error)`. -/
def fail (i : Nat) (message : String) (g : State) : State :=
  { g with results := g.results.modify (fun r => { r with pass := false, message := message }) i }

/-- A call of `globalBail()`: the closure of `runSpec` sets its `bailed` and counts the bail. -/
def globalBail (g : State) : Except String State :=
  match g.globalBail with
  | none => .error "TypeError: globalBail is not a function"
  | some a => .ok { g with bailed := g.bailed.set a true,
                           stats := { g.stats with bailCount := g.stats.bailCount + 1 } }

/-- The loop `while (tasks[cursor].error != null && tasks[cursor].depth > task.depth) cursor++`
over the tasks from `cursor` on; `none` when it reads past the end of `tasks`. -/
def skipForward (depth : Nat) : List Job → Nat → Option Nat
  | [], _ => none
  | j :: rest, cursor =>
    if j.error && decide (j.depth > depth) then skipForward depth rest (cursor + 1) else some cursor

/-- The common finalization path `finalize(err, threw, isTimeout)` of the unit running `task`
in the series `tasks`.  The arguments of `fail` are evaluated in order: `new Assertion().i`
pushes the incomplete record, then `err.message` or `String(err)` is computed; when that
conversion throws, the exception leaves `finalize` with `isFinalized` set, the record
incomplete, the timer not cleared and no `next` asked for.  The final `next()` or
`nextTickish(next)` is counted in `nexts`. -/
def finalize (tasks : List Job) (task : Job) (err : Option Thrown) (threw isTimeout : Bool)
    (c : Ctx) : Except (String × Ctx) Ctx :=
  if c.u.isFinalized then .error ("Multiple finalization", c)
  else
    let c := { c with u := { c.u with isFinalized := true } }
    if threw then
      match Assertion c.g with
      | .error m => .error (m, c)
      | .ok (i, g) =>
        match errorText err with
        | .error m => .error (m, { c with g := g })
        | .ok text =>
          let c := { c with g := fail i text g }
          if isTimeout then .ok { c with u := { c.u with timeout := none }, nexts := c.nexts + 1 }
          else
            match globalBail c.g with
            | .error m => .error (m, c)
            | .ok g =>
              let c := { c with g := g }
              if task.hookName = some HookName.beforeEach then
                match skipForward task.depth (tasks.drop c.cursor) c.cursor with
                | none =>
                  .error ("TypeError: Cannot read properties of undefined (reading 'error')", c)
                | some k =>
                  .ok { c with cursor := k, u := { c.u with timeout := none }, nexts := c.nexts + 1 }
              else .ok { c with u := { c.u with timeout := none }, nexts := c.nexts + 1 }
    else .ok { c with u := { c.u with timeout := none }, nexts := c.nexts + 1 }

/-- The statements of `_done` between the double-completion check and the call of
`finalize`: `isDone = true`, the late completion of a timed-out unit is taken off the
counter, and a successful completion of a user task is counted in `asyncSuccesses`. -/
def markDone (task : Job) (threw : Bool) (c : Ctx) : Ctx :=
  { c with
    u := { c.u with isDone := true }
    g := { c.g with
      globalTimedOutAndPendingResolution :=
        if c.u.isAsync && c.u.timeout.isNone then c.g.globalTimedOutAndPendingResolution - 1
        else c.g.globalTimedOutAndPendingResolution
      stats := { c.g.stats with asyncSuccesses :=
        if !threw && task.error then c.g.stats.asyncSuccesses + 1
        else c.g.stats.asyncSuccesses } } }

/-- The common abstraction `_done(err, threw)` for callbacks and thenables. -/
def _done (tasks : List Job) (task : Job) (err : Option Thrown) (threw : Bool) (c : Ctx) :
    Except (String × Ctx) Ctx :=
  if c.u.isDone then .error (task.doneTwiceError, c)
  else if c.u.isFinalized then .ok (markDone task threw c)
  else finalize tasks task err threw false (markDone task threw c)

/-- The public callback `done(err)`. -/
def done (tasks : List Job) (task : Job) (err : Option Thrown) (c : Ctx) :
    Except (String × Ctx) Ctx :=
  _done tasks task err err.isSome c

/-- The function `startTimer()`: arms the timer for `Math.min(delay, 0x7fffffff)`. -/
def startTimer (c : Ctx) : Ctx :=
  { c with u := { c.u with timeout := some c.u.delay.clamp } }

/-- The callback given to `setTimeout` by `startTimer`. -/
def timerFires (tasks : List Job) (task : Job) (c : Ctx) : Except (String × Ctx) Ctx :=
  finalize tasks task
    (some (.value ("async test timed out after " ++ c.u.delay.text
      ++ "ms\nWarning: assertions starting with `???` may not be properly labelled")))
    true true
    { c with u := { c.u with timeout := none },
             g := { c.g with
               globalTimedOutAndPendingResolution := c.g.globalTimedOutAndPendingResolution + 1 } }

/-- A call of `o.timeout(t)`, that is `globalTimeout(t)`, made while the unit `c.u` runs. -/
def timeout (t : Option Delay) (c : Ctx) : Except (String × Ctx) Ctx :=
  match c.g.globalTimeout with
  | none => .error
      ("`o.timeout()` must be called synchronously from within a test definition or a hook", c)
  | some serial =>
    match t with
    | none => .error ("timeout() and o.timeout() expect a number as argument", c)
    | some d => if serial = c.u.serial then .ok { c with u := { c.u with delay := d } } else .ok c

/-- One statement of a user body, run by the unit `c.u`; an exception raised into the body is
the error result.  `done` is in scope only for a body that declares a parameter. -/
def exec (tasks : List Job) (task : Job) (fn : Fn) (a : Action) (c : Ctx) :
    Except (Thrown × Ctx) Ctx :=
  match a with
  | .plain verb success self value userMsg =>
    match Assertion c.g with
    | .error m => .error (.error m, c)
    | .ok (i, g) =>
      let message := self ++ "\n  " ++ verb ++ "\n" ++ value
      if success then .ok { c with g := succeed i message g }
      else .error (.error (if userMsg ≠ "" then userMsg else message), { c with g := g })
  | .satisfies res =>
    match Assertion c.g with
    | .error m => .error (.error m, c)
    | .ok (i, g) =>
      match res with
      | .ok (pass, message) =>
        if pass then .ok { c with g := succeed i message g }
        else .ok { c with g := fail i message g }
      | .error e => .error (e, { c with g := { g with results := g.results.dropLast } })
  | .notSatisfies res =>
    match Assertion c.g with
    | .error m => .error (.error m, c)
    | .ok (i, g) =>
      match res with
      | .ok (pass, message) =>
        if !pass then .ok { c with g := succeed i message g }
        else .ok { c with g := fail i message g }
      | .error e => .error (e, { c with g := { g with results := g.results.dropLast } })
  | .timeout t =>
    match timeout t c with
    | .ok c => .ok c
    | .error (m, c) => .error (.error m, c)
  | .done err =>
    if fn.length = 0 then .error (.error "ReferenceError: done is not defined", c)
    else
      match done tasks task err c with
      | .ok c => .ok c
      | .error (m, c) => .error (.error m, c)
  | .throw e => .error (e, c)

/-- A completion event on a unit: a call of its callback, a `then` callback of its thenable,
or its timer. -/
inductive Signal
  | done (err : Option Thrown)
  | settle (rejection : Option Thrown)
  | timer

/-- The handler of a completion event; an exception it raises goes to the caller (the host
for the timer, the `.catch` handler and then the host for a `then` callback).  A timer that
is not armed does not fire. -/
def signal (tasks : List Job) (task : Job) : Signal → Ctx → Except (String × Ctx) Ctx
  | .done err, c => done tasks task err c
  | .settle rejection, c =>
    match _done tasks task rejection rejection.isSome c with
    | .ok c => .ok c
    | .error (m, c) => finalize tasks task (some (.error m)) true false c
  | .timer, c => if c.u.timeout.isSome then timerFires tasks task c else .ok c

/-- The unit after a handler returned or raised. -/
def settled : Except (String × Ctx) Ctx → Ctx
  | .ok c => c
  | .error (_, c) => c

/-- The unit after a sequence of completion events. -/
def signals (tasks : List Job) (task : Job) : List Signal → Ctx → Ctx
  | [], c => c
  | s :: rest, c => signals tasks task rest (settled (signal tasks task s c))

/-- The synchronous part of a body: its statements in order, up to the first exception. -/
def runBody (tasks : List Job) (task : Job) (fn : Fn) : List Action → Ctx →
    Except (Thrown × Ctx) Ctx
  | [], c => .ok c
  | a :: rest, c =>
    match exec tasks task fn a c with
    | .ok c => runBody tasks task fn rest c
    | .error x => .error x

/-- The label `task.context` assigned by `next` before the body starts. -/
def context (subjects : List String) (task : Task) : String :=
  match task.hookName with
  | none => " > ".intercalate subjects
  | some h =>
    "o." ++ h.text ++ String.mk (List.replicate (task.depth - 1) '*')
      ++ "( " ++ " > ".intercalate subjects ++ " )"

/-- What `next` does with the value the body returned: nothing for a body that was given
`done`, nothing but the registration of the `then` callbacks for a thenable, and
`finalize(null, false, false)` otherwise. -/
def returned (tasks : List Job) (t : Task) (c : Ctx) : Except (String × Ctx) Ctx :=
  if t.fn.length > 0 || t.fn.thenable then .ok c
  else finalize tasks (.user t) none false false c

/-- The statement `if (!isFinalized) { isAsync = true; startTimer() }`. -/
def becomeAsync (c : Ctx) : Ctx :=
  if c.u.isFinalized then c else startTimer { c with u := { c.u with isAsync := true } }

/-- The `try` block of `next` for a user task, with its `catch`: the body is called with
`done` when it declares a parameter; otherwise its return value is inspected.  A unit that
is not finalized when the body has returned becomes asynchronous and its timer is armed. -/
def tryBody (tasks : List Job) (t : Task) (c : Ctx) : Except (String × Ctx) Ctx :=
  match runBody tasks (.user t) t.fn t.fn.acts c with
  | .error (e, c) => finalize tasks (.user t) (some e) true false c
  | .ok c =>
    match returned tasks t c with
    | .error (m, c) => finalize tasks (.user t) (some (.error m)) true false c
    | .ok c => .ok (becomeAsync c)

/-- The first signal that reaches an asynchronous unit after its body returned: the callback
`done(err)`, the settlement of the returned thenable (an error raised by `_done` goes to the
`.catch` handler, which calls `finalize`), or the timer. -/
def late (tasks : List Job) (t : Task) (c : Ctx) : Except (String × Ctx) Ctx :=
  match t.fn.later with
  | .timer => timerFires tasks (.user t) c
  | .done err =>
    if t.fn.length > 0 then done tasks (.user t) err c else timerFires tasks (.user t) c
  | .settle rejection =>
    if t.fn.length = 0 && t.fn.thenable then
      match _done tasks (.user t) rejection rejection.isSome c with
      | .ok c => .ok c
      | .error (m, c) => finalize tasks (.user t) (some (.error m)) true false c
    else timerFires tasks (.user t) c

/-- Whether a property key is an array index: a canonical decimal numeral below `2^32 - 1`. -/
def isArrayIndex (key : String) : Bool :=
  key.data ≠ [] && key.data.all Char.isDigit
    && (key.data.head? != some '0' || key.data.length == 1)
    && decide (key.data.foldl (fun n ch => 10 * n + (ch.toNat - 48)) 0 < 2 ^ 32 - 1)

/-- The number an array-index key denotes. -/
def indexOfKey (key : String) : Nat :=
  key.data.foldl (fun n ch => 10 * n + (ch.toNat - 48)) 0

/-- The enumeration order of `Object.keys(children)`, with the values: array-index keys in
ascending numeric order, then the other keys in insertion order. -/
def objectKeys {α : Type} (children : List (String × α)) : List (String × α) :=
  (children.filter (fun kv => isArrayIndex kv.1)).insertionSort
      (fun a b => indexOfKey a.1 ≤ indexOfKey b.1)
    ++ children.filter (fun kv => !isArrayIndex kv.1)

/-- The test of `runSpec` that decides whether a child gets a wrapper task: not in `only`
mode, or a test whose function is in `only`, or a spec. -/
def selected (only : List Nat) (c : Task ⊕ Spec) : Bool :=
  only.length == 0
    || (match c with
        | .inl t => only.contains t.fn.id
        | .inr _ => false)
    || (match c with
        | .inl _ => false
        | .inr _ => true)

/-- The wrapper tasks made by the `reduce` over `Object.keys(spec.children)`: one per selected
child, in the order of the keys. -/
def wrappers (only : List Nat) (spec : Spec) (activation : Nat) (beforeEach afterEach : List Task)
    (defaultDelay : Delay) : List Job :=
  (objectKeys spec.children).filterMap (fun kv =>
    if selected only kv.2
    then some (Job.child kv.1 kv.2 activation beforeEach afterEach defaultDelay) else none)

/-- The task list `runSpec` hands to `series`: `before`, one wrapper per selected child in
`Object.keys` order, `after`, `restoreStack`, and the continuation `finalize`. -/
def runSpecJobs (only : List Nat) (spec : Spec) (activation : Nat) (beforeEach afterEach : List Task)
    (previousBail : Option Nat) (fin : Job) (defaultDelay : Delay) : List Job :=
  spec.before.map Job.user
    ++ wrappers only spec activation beforeEach afterEach defaultDelay
    ++ spec.after.map Job.user
    ++ [Job.restoreStack previousBail, fin]

/-- The statement `if (spec.specTimeout) defaultDelay = spec.specTimeout`. -/
def specDelay (spec : Spec) (defaultDelay : Delay) : Delay :=
  match spec.specTimeout with
  | some (.ms 0) => defaultDelay
  | some d => d
  | none => defaultDelay

/-- The chains of `runSpec`: `beforeEach = [].concat(beforeEach, spec.beforeEach)` and
`afterEach = [].concat(spec.afterEach, afterEach)`. -/
def inherit (chains : List Task × List Task) (spec : Spec) : List Task × List Task :=
  (chains.1 ++ spec.beforeEach, spec.afterEach ++ chains.2)

/-- The chains in the activation of the innermost group of a path of nested groups, the
outermost first, starting from the empty chains given by `o.run`. -/
def chains (path : List Spec) : List Task × List Task :=
  path.foldl inherit ([], [])

/-- The first statements of `runSpec`, up to the call of `series`: a new `bailed`, the new
`globalBail`, the chains, and the task list with its default delay. -/
def enterSpec (only : List Nat) (spec : Spec) (beforeEach afterEach : List Task) (fin : Job)
    (defaultDelay : Delay) (g : State) : List Job × Delay × State :=
  (runSpecJobs only spec g.bailed.length (inherit (beforeEach, afterEach) spec).1
      (inherit (beforeEach, afterEach) spec).2 g.globalBail fin (specDelay spec defaultDelay),
   specDelay spec defaultDelay,
   { g with bailed := g.bailed ++ [false], globalBail := some g.bailed.length })

/-- How a run ends: every scheduled task ran, or an exception left the scheduler, or the
evaluation ran out of fuel. -/
inductive Res
  | done (g : State)
  | escaped (message : String) (g : State)
  | fuel

/-- The final state of a run in which every scheduled task ran. -/
def Res.done? : Res → Option State
  | .done g => some g
  | _ => none

/-- The state a finished or aborted run ends in. -/
def Res.state? : Res → Option State
  | .done g => some g
  | .escaped _ g => some g
  | .fuel => none

/-- The first statements of `next`: the task at `cursor` is taken, the cursor moves on, the
unit gets fresh variables and its setter becomes `globalTimeout`. -/
def start (g : State) (defaultDelay : Delay) (cursor : Nat) : Ctx :=
  { g := { g with units := g.units + 1, globalTimeout := some g.units },
    u := { serial := g.units, delay := defaultDelay },
    cursor := cursor + 1 }

/-- For a task that is not internal: `globalTestOrHook = task`, the `context` label is
assigned, and the body is about to be called. -/
def enter (t : Task) (c : Ctx) : Ctx :=
  { c with g := { c.g with
      globalTestOrHook := some (t, context c.g.subjects t),
      trace := c.g.trace ++ [Ev.call t.fn.id t.hookName (context c.g.subjects t)] } }

/-- One user unit, from the call of its body to the moment it has asked for `next`: the
`try` block, `globalTimeout = noTimeoutRightNow`, and for a unit that is not finalized by
then (an asynchronous one, with its timer armed) the signal that reaches it first. -/
def unit (tasks : List Job) (t : Task) (c : Ctx) : Except (String × Ctx) Ctx :=
  match tryBody tasks t (enter t c) with
  | .error x => .error x
  | .ok c =>
    if c.u.isFinalized then .ok { c with g := { c.g with globalTimeout := none } }
    else late tasks t { c with g := { c.g with globalTimeout := none } }

/-- Whether the unit was completed from the `then` callback of the thenable it returned. -/
def viaThen (t : Task) (c : Ctx) : Bool :=
  c.u.isAsync && t.fn.length == 0 && t.fn.thenable
    && (match t.fn.later with
        | .settle _ => true
        | _ => false)

/-- An exception raised by the rest of the run inside a `then` callback reaches the `.catch`
handler, whose `finalize` raises `Multiple finalization` on the finalized unit. -/
def rethrown (fromThen : Bool) : Res → Res
  | .escaped m g => if fromThen then .escaped "Multiple finalization" g else .escaped m g
  | r => r

/-- The task list `[].concat(beforeEach, spec.children[key], afterEach, popSubjects)` of a
leaf test. -/
def leafJobs (beforeEach : List Task) (t : Task) (afterEach : List Task) : List Job :=
  beforeEach.map Job.user ++ [Job.user t] ++ afterEach.map Job.user ++ [Job.pop]

/-- The function `series(tasks, defaultDelay)` from the call of `next` at `cursor` on, in a
run where `only` holds the identities of the functions given to `o.only`.

Each `next` invocation starts the unit `tasks[cursor++]`; when the unit has asked for `next`
the loop goes on at the cursor it left.  The wrapper of a child starts the nested series (or
`runSpec`) and becomes asynchronous; its `done` is called by the nested `popSubjects`, which
is the last task of the nested list, so the wrapper is completed when the nested series has
run to its end (its timer of `0x7fffffff` ms is taken not to fire first). -/
def series (only : List Nat) : Nat → List Job → Nat → Delay → State → Res
  | 0, _, _, _, _ => .fuel
  | fuel + 1, tasks, cursor, defaultDelay, g =>
    if cursor = tasks.length then .done g
    else
      match tasks[cursor]? with
      | none => .escaped "TypeError: Cannot read properties of undefined (reading 'fn')" g
      | some (.user t) =>
        match unit tasks t (start g defaultDelay cursor) with
        | .error (m, c) => .escaped m c.g
        | .ok c =>
          if c.nexts = 0 then .done c.g
          else rethrown (viaThen t c) (series only fuel tasks c.cursor defaultDelay c.g)
      | some (.child key child activation beforeEach afterEach delay) =>
        if g.isBailed activation then
          match done tasks (.child key child activation beforeEach afterEach delay) none
              (start g defaultDelay cursor) with
          | .error (m, c) => .escaped m c.g
          | .ok c => series only fuel tasks c.cursor defaultDelay { c.g with globalTimeout := none }
        else
          match timeout (some Delay.infinity) (start g defaultDelay cursor) with
          | .error (m, c) => .escaped m c.g
          | .ok c =>
            let g1 := { c.g with subjects := c.g.subjects ++ [key] }
            let nested := match child with
              | .inl t => series only fuel (leafJobs beforeEach t afterEach) 0 delay g1
              | .inr spec =>
                let e := enterSpec only spec beforeEach afterEach Job.pop delay g1
                series only fuel e.1 0 e.2.1 e.2.2
            match nested with
            | .fuel => .fuel
            | .escaped m g => .escaped m g
            | .done g2 =>
              match done tasks (.child key child activation beforeEach afterEach delay) none
                  (startTimer { c with g := { g2 with globalTimeout := none },
                                       u := { c.u with isAsync := true } }) with
              | .error (m, c) => .escaped m c.g
              | .ok c => series only fuel tasks c.cursor defaultDelay c.g
      | some .pop =>
        series only fuel tasks (cursor + 1) defaultDelay
          { g with units := g.units + 1, subjects := g.subjects.dropLast, globalTimeout := none }
      | some (.restoreStack previousBail) =>
        series only fuel tasks (cursor + 1) defaultDelay
          { g with units := g.units + 1, globalBail := previousBail, globalTimeout := none,
                   trace := g.trace ++ [Ev.restore] }
      | some .report =>
        series only fuel tasks (cursor + 1) defaultDelay
          { g with units := g.units + 1, globalTimeout := none,
                   trace := g.trace ++ [Ev.report g.results g.stats] }

/-- The function `runSpec(spec, beforeEach, afterEach, finalize, defaultDelay)`. -/
def runSpec (only : List Nat) (fuel : Nat) (spec : Spec) (beforeEach afterEach : List Task)
    (fin : Job) (defaultDelay : Delay) (g : State) : Res :=
  let e := enterSpec only spec beforeEach afterEach fin defaultDelay g
  series only fuel e.1 0 e.2.1 e.2.2

/-- The function `o.run(reporter)` for an instance without a suite name: `results = []`, the
fresh `stats`, then `runSpec(rootSpec, [], [], finalize, 200)` with the task that calls the
results consumer. -/
def run (only : List Nat) (fuel : Nat) (rootSpec : Spec) : Res :=
  runSpec only fuel rootSpec [] [] Job.report (Delay.ms 200) {}

/-- The run started by `o.run()` at the end of a definition phase. -/
def Def.run (d : Def) (fuel : Nat) : Res :=
  Ospec.run d.only fuel d.globalContext

/-- A definition phase: the registration calls in order, from the initial globals; a call
that throws leaves the globals it had changed before the throw. -/
def define (calls : List (Def → Except (String × Def) Def)) : Def :=
  calls.foldl (fun d call => match call d with
    | .ok d => d
    | .error (_, d) => d) {}

/-- The calls of the bodies in a trace: the identity of the function and the label. -/
def calls (trace : List Ev) : List (Nat × String) :=
  trace.filterMap (fun e => match e with
    | .call fn _ context => some (fn, context)
    | _ => none)

/-- The assertion `o(a).equals(b)` on two integers: `plainAssertion("should equal", ===)`. -/
def equals (a b : Int) (userMsg : String) : Action :=
  Action.plain "should equal" (a == b) (toString a) (toString b) userMsg

/-- A body without parameters that runs the given statements and returns `undefined`. -/
def syncFn (id : Nat) (acts : List Action) : Fn :=
  { id := id, length := 0, acts := acts, thenable := false, later := Late.timer }

/-- A body `function(done) { ... }` that runs the given statements; `later` is the signal
that reaches it first when it returns without being finalized. -/
def callbackFn (id : Nat) (acts : List Action) (later : Late) : Fn :=
  { id := id, length := 1, acts := acts, thenable := false, later := later, arg := some "done" }

/-- Tests "2" and "1", registered in this order. -/
def numericNames : Def :=
  define [o "2" (syncFn 1 []), o "1" (syncFn 2 [])]

/-- The scenario of one group with `before = B0` (10), `beforeEach = B1` (11), the tests `T1`
(`o(1).equals(1)`) and `T2` (`o(1).equals(2)`), `afterEach = A1` (12) and `after = A0` (13). -/
def scenario : Def :=
  define [hook .before (syncFn 10 []), hook .beforeEach (syncFn 11 []),
    o "T1" (syncFn 1 [equals 1 1 ""]), o "T2" (syncFn 2 [equals 1 2 ""]),
    hook .afterEach (syncFn 12 []), hook .after (syncFn 13 [])]

/-- A test whose body calls `done()` twice before it returns, followed by another test. -/
def doneTwice : Def :=
  define [o "twice" (callbackFn 1 [.done none, .done none] Late.timer), o "next" (syncFn 2 [])]

/-- A test `function(done) { ... }` with an empty body, completed later by `done()`. -/
def someTask : Task :=
  { fn := callbackFn 1 [] (Late.done none), depth := 2, hookName := none,
    doneTwiceError := "`done()` should only be called once" }

/-- A test `function(done) { }` whose callback is never called before the timer fires. -/
def slowTask : Task :=
  { fn := callbackFn 2 [] Late.timer, depth := 2, hookName := none,
    doneTwiceError := "`done()` should only be called once" }

/-- The unit of `someTask`, started as the first task of a run with the default delay. -/
def running : Ctx :=
  enter someTask (start {} (Delay.ms 200) 0)

/-- A `beforeEach` hook of the root spec whose body throws. -/
def failingHook : Task :=
  { fn := syncFn 20 [Action.throw (Thrown.error "setup failed")], depth := 1,
    hookName := some HookName.beforeEach,
    doneTwiceError := "A thenable should only be resolved once" }

/-- An `after` hook of the root spec with an empty body. -/
def afterHook : Task :=
  { fn := syncFn 21 [], depth := 1, hookName := some HookName.after,
    doneTwiceError := "A thenable should only be resolved once" }

/-- A test of the root spec with an empty body. -/
def plainTest : Task :=
  { fn := syncFn 22 [], depth := 2, hookName := none,
    doneTwiceError := "A thenable should only be resolved once" }

/-- A `beforeEach` hook with an empty body, registered in a group of the given depth. -/
def quietBefore (id depth : Nat) : Task :=
  { fn := syncFn id [], depth := depth, hookName := some HookName.beforeEach,
    doneTwiceError := "A thenable should only be resolved once" }

/-- An `afterEach` hook with an empty body, registered in a group of the given depth. -/
def quietAfter (id depth : Nat) : Task :=
  { fn := syncFn id [], depth := depth, hookName := some HookName.afterEach,
    doneTwiceError := "A thenable should only be resolved once" }

/-- A path of two nested groups, each with a `beforeEach` and an `afterEach` hook. -/
def nestedPath : List Spec :=
  [Spec.mk [] [quietBefore 30 1] [] [quietAfter 31 1] none [],
   Spec.mk [] [quietBefore 32 2] [] [quietAfter 33 2] none []]

/-- The root spec with `failingHook`, `afterHook` and the tests "a" and "b". -/
def hookedSpec : Spec :=
  Spec.mk [] [failingHook] [afterHook] [] none
    [("a", Sum.inl plainTest), ("b", Sum.inl plainTest)]

/-- The globals while the only activation (number 0) is running, not bailed. -/
def active : State :=
  { bailed := [false], globalBail := some 0 }

/-- The globals while the only activation (number 0) is running, bailed. -/
def bailedOut : State :=
  { bailed := [true], globalBail := some 0 }

/-- The unit of `slowTask` after its timer has fired. -/
def timedOut : Ctx :=
  settled (timerFires [Job.user slowTask] (Job.user slowTask)
    (becomeAsync (enter slowTask (start {} (Delay.ms 200) 0))))

/-- The unit after a statement of its body returned or raised. -/
def raised : Except (Thrown × Ctx) Ctx → Ctx
  | .ok c => c
  | .error (_, c) => c

/-- The bookkeeping invariant of a unit: `next` was asked for at most once, and only by a
finalized unit. -/
def Once (c : Ctx) : Prop :=
  c.nexts ≤ 1 ∧ (c.u.isFinalized = false → c.nexts = 0)

/-- What the handlers of a unit leave alone or only increase: the trace, the path stack, the
installed closures and the current task are kept; `isDone` and `isFinalized` are never
reset; the cursor only moves forward, and only for a `beforeEach` hook, and only together
with a bail; a `bailed` flag is never reset and only the flag of the installed `globalBail`
can be set. -/
structure Frame (task : Job) (c c' : Ctx) : Prop where
  trace : c'.g.trace = c.g.trace
  subjects : c'.g.subjects = c.g.subjects
  globalBail : c'.g.globalBail = c.g.globalBail
  units : c'.g.units = c.g.units
  current : c'.g.globalTestOrHook = c.g.globalTestOrHook
  serial : c'.u.serial = c.u.serial
  isDone : c.u.isDone = true → c'.u.isDone = true
  isFinalized : c.u.isFinalized = true → c'.u.isFinalized = true
  cursor : c.cursor ≤ c'.cursor
  length : c'.g.bailed.length = c.g.bailed.length
  mono : ∀ a, c.g.isBailed a = true → c'.g.isBailed a = true
  other : ∀ a, c.g.globalBail ≠ some a → c'.g.isBailed a = c.g.isBailed a
  bailCount : c.g.stats.bailCount ≤ c'.g.stats.bailCount
  keep : task.hookName ≠ some HookName.beforeEach → c'.cursor = c.cursor
  stay : c'.g.stats.bailCount = c.g.stats.bailCount →
    c'.cursor = c.cursor ∧ c'.g.bailed = c.g.bailed

/-- The state in which the wrapper of `key` starts its nested series. -/
def pushed (g : State) (key : String) : State :=
  { g with units := g.units + 1, globalTimeout := some g.units, subjects := g.subjects ++ [key] }

/-- The nested run started by the wrapper of a child. -/
def nestedRun (only : List Nat) (fuel : Nat) (child : Task ⊕ Spec) (be ae : List Task)
    (d : Delay) (g : State) : Res :=
  match child with
  | .inl t => series only fuel (leafJobs be t ae) 0 d g
  | .inr spec => runSpec only fuel spec be ae Job.pop d g

/-- The events a task can add to the trace when it is run: the call of a user body, the
restoration of `globalBail`, the call of the consumer. -/
def Emits : Job → Ev → Prop
  | .user u, .call fn hookName _ => fn = u.fn.id ∧ hookName = u.hookName
  | .restoreStack _, .restore => True
  | .report, .report _ _ => True
  | _, _ => False

/-- A task that starts no nested series. -/
def Job.flat : Job → Bool
  | .child _ _ _ _ _ _ => false
  | _ => true

/-- The globals two states share when only the unit counter and `globalTimeout` may differ. -/
def Idle (g g2 : State) : Prop :=
  g2.trace = g.trace ∧ g2.results = g.results ∧ g2.stats = g.stats ∧ g2.bailed = g.bailed
    ∧ g2.subjects = g.subjects ∧ g2.globalBail = g.globalBail
    ∧ g2.globalTestOrHook = g.globalTestOrHook

/-- A unit that returns without an exception and without a bail (it may record a timeout),
whatever the task list and the globals it is started in. -/
def Passes (u : Task) : Prop :=
  ∀ (tasks : List Job) (c : Ctx), c.u.isFinalized = false → c.u.isDone = false → c.nexts = 0 →
    c.g.globalTimeout = some c.u.serial →
    ∃ c', unit tasks u c = .ok c' ∧ c'.g.stats.bailCount = c.g.stats.bailCount

/-- The trace event of the call of a task's body under the given path stack. -/
def callOf (subjects : List String) (u : Task) : Ev :=
  Ev.call u.fn.id u.hookName (context subjects u)

/-- A spec tree as the definition calls build it: the tasks in the hook arrays have a
`hookName`, the tests among the children have none, and so on in the sub-specs. -/
inductive WellFormed : Spec → Prop
  | mk (b be a ae : List Task) (t : Option Delay) (children : List (String × (Task ⊕ Spec))) :
      (∀ h ∈ b ++ be ++ a ++ ae, h.hookName ≠ none) →
      (∀ key tk, (key, Sum.inl tk) ∈ children → tk.hookName = none) →
      (∀ key s, (key, Sum.inr s) ∈ children → WellFormed s) →
      WellFormed (Spec.mk b be a ae t children)

/-- What the `only` filter guarantees about a task of a series: a test that runs has its
function in `only`; the test of a wrapper has its function in `only`; chains hold hooks. -/
def Filtered (only : List Nat) : Job → Prop
  | .user t => t.hookName = none → t.fn.id ∈ only
  | .child _ (.inl t) _ be ae _ =>
    t.hookName = none ∧ t.fn.id ∈ only ∧ ∀ h ∈ be ++ ae, h.hookName ≠ none
  | .child _ (.inr s) _ be ae _ => WellFormed s ∧ ∀ h ∈ be ++ ae, h.hookName ≠ none
  | _ => True

/-- Every test body entered so far belongs to a function of `only`. -/
def OnlyRan (only : List Nat) (g : State) : Prop :=
  ∀ fn label, Ev.call fn none label ∈ g.trace → fn ∈ only

/-- The test "a" registered with `o` and the test "b" registered with `o.only`, with the
same function object. -/
def sharedFn : Def :=
  define [o "a" (syncFn 7 []), o.only "b" (syncFn 7 [])]

/-- The root spec with the single test "b". -/
def oneTest : Spec :=
  Spec.mk [] [] [] [] none [("b", Sum.inl plainTest)]

/-- A unit in good standing: when it is finalized it has asked for `next`, and when its
completion signal has arrived it is finalized. -/
def Live (c : Ctx) : Prop :=
  (c.u.isFinalized = true → 1 ≤ c.nexts) ∧ (c.u.isDone = true → c.u.isFinalized = true)

/-- The string of `k` characters `*`. -/
def stars (k : Nat) : String :=
  String.mk (List.replicate k '*')

/-- The array `globalContext[name]` of a group. -/
def Spec.hooks (spec : Spec) : HookName → List Task
  | .before => spec.before
  | .beforeEach => spec.beforeEach
  | .after => spec.after
  | .afterEach => spec.afterEach

/-- The definition function `function() { throw new Error("boom") }`. -/
def boom : Def → Except (Thrown × Def) Def :=
  specBody [] (some (Thrown.error "boom"))

/-- The hook function `function(done) {}`, which declares the callback and never names it
again. -/
def unusedDone : Fn :=
  { id := 40, length := 1, acts := [], thenable := false, later := Late.timer,
    arg := some "done", argOnce := true }

/-- The names of the children of a group, each with the names of its own children when it
is a group. -/
def outline (spec : Spec) : List (String × List String) :=
  spec.children.map (fun kv =>
    (kv.1, match kv.2 with
      | .inl _ => []
      | .inr s => s.children.map Prod.fst))

/-- A single test whose body is `o(1).equals(2)`. -/
def failingTest : Def :=
  define [o "T" (syncFn 1 [equals 1 2 ""])]

/-- A single test whose body is `o(1).equals(1)`. -/
def passingTest : Def :=
  define [o "T" (syncFn 1 [equals 1 1 ""])]

/-- The group "g" with `o.specTimeout(0)` and the test "t", `function(done) {}`, whose
callback is never called. -/
def zeroTimeout : Def :=
  define [o.spec "g" (specBody [o.specTimeout (some (Delay.ms 0)),
    o "t" (callbackFn 1 [] Late.timer)] none) 99]

/-- A caller of `o.timeout` that is not the body of a running unit: its variables are those
of no unit of the run. -/
def outsider (g : State) : Ctx :=
  { g := g, u := { serial := g.units, delay := Delay.ms 200 }, cursor := 0 }

/-- The cursor of a unit stays at or before every internal task it has not passed: the
skip-forward scan stops at a task without `error`. -/
def Below (tasks : List Job) (c c' : Ctx) : Prop :=
  ∀ i j, tasks[i]? = some j → j.error = false → c.cursor ≤ i → c'.cursor ≤ i

/-- The tasks `runSpec` and the wrapper of a leaf put before the closing tasks of a list:
hooks, tests and wrappers. -/
def Job.isBody : Job → Bool
  | .user _ => true
  | .child _ _ _ _ _ _ => true
  | _ => false

/-- The tasks that close a task list, with the `globalBail` that is installed while the
tasks before them run and the one installed once they have run: `popSubjects` alone in the
list of a leaf test, `restoreStack` and the continuation in the list of `runSpec`. -/
inductive Closing : List Job → Option Nat → Option Nat → Prop
  | leaf (inside : Option Nat) : Closing [Job.pop] inside inside
  | spec (inside prev : Option Nat) : Closing [Job.restoreStack prev, Job.pop] inside prev
  | root (inside prev : Option Nat) : Closing [Job.restoreStack prev, Job.report] inside prev

/-- A test, registered in a group of the root spec, whose body throws. -/
def throwingTest : Task :=
  { fn := syncFn 50 [Action.throw (Thrown.error "broken")], depth := 3, hookName := none,
    doneTwiceError := "A thenable should only be resolved once" }

/-- A group whose only child is `throwingTest`. -/
def failingGroup : Spec :=
  Spec.mk [] [] [] [] none [("t", Sum.inl throwingTest)]

/-- The root spec with the group "G" (`failingGroup`) followed by the test "b". -/
def groupThenTest : Spec :=
  Spec.mk [] [] [] [] none [("G", Sum.inr failingGroup), ("b", Sum.inl plainTest)]

/-- The value a statement throws by itself: the operand of `throw`, or what the `check`
function given to `satisfies` or `notSatisfies` throws. -/
def Action.thrown : Action → Option Thrown
  | .satisfies (.error e) => some e
  | .notSatisfies (.error e) => some e
  | .throw e => some e
  | _ => none

/-- A test or hook whose body completes synchronously: the function declares no parameter,
so it is not given `done`, and what it returns is not a thenable; its statements return or
throw, and a value they throw is one for which `err.message` or `String(err)` returns. -/
def Task.sync (t : Task) : Prop :=
  t.fn.length = 0 ∧ t.fn.thenable = false
    ∧ ∀ a ∈ t.fn.acts, ∀ e, a.thrown = some e → ∃ text, e.text = .ok text

/-- A spec tree in which every hook and every test completes synchronously. -/
inductive Synchronous : Spec → Prop
  | mk (b be a ae : List Task) (t : Option Delay) (children : List (String × (Task ⊕ Spec))) :
      (∀ h ∈ b ++ be ++ a ++ ae, h.sync) →
      (∀ key tk, (key, Sum.inl tk) ∈ children → tk.sync) →
      (∀ key s, (key, Sum.inr s) ∈ children → Synchronous s) →
      Synchronous (Spec.mk b be a ae t children)

/-- No call of the results consumer has been recorded. -/
def Quiet (g : State) : Prop :=
  ∀ r s, Ev.report r s ∉ g.trace

/-- What makes a task of a list hand over to the next one: a user task completes
synchronously; the nested run of a wrapper reaches its end, with the `globalBail` it was
started with installed again and without a call of the consumer. -/
def Runs (only : List Nat) : Job → Prop
  | .user t => t.sync
  | .child _ ch _ be ae d => ∀ g : State, g.globalBail.isSome = true → Quiet g →
      ∃ fuel g2, nestedRun only fuel ch be ae d g = .done g2
        ∧ g2.globalBail = g.globalBail ∧ Quiet g2
  | _ => True

/-- A spec tree in which every group holds at most one hook of each kind. -/
inductive OneHook : Spec → Prop
  | mk (b be a ae : List Task) (t : Option Delay) (children : List (String × (Task ⊕ Spec))) :
      b.length ≤ 1 → be.length ≤ 1 → a.length ≤ 1 → ae.length ≤ 1 →
      (∀ key s, (key, Sum.inr s) ∈ children → OneHook s) →
      OneHook (Spec.mk b be a ae t children)

/-- The definition globals in which the current group and the groups that enclose it hold
at most one hook of each kind, in all their sub-groups too. -/
def Def.tidy (d : Def) : Prop :=
  OneHook d.globalContext ∧ ∀ p ∈ d.path, OneHook p.1

/-- The definition globals a call leaves, whether it returns or throws. -/
def left : Except (String × Def) Def → Def
  | .ok d => d
  | .error (_, d) => d

/-- The definition globals a definition function leaves, whether it returns or throws. -/
def leftBy : Except (Thrown × Def) Def → Def
  | .ok d => d
  | .error (_, d) => d

/-- The calls of the definition API: tests, hooks, default timeouts, groups whose definition
function makes such calls and may throw at its end, and `o.run`. -/
inductive Api : (Def → Except (String × Def) Def) → Prop
  | test (subject : String) (predicate : Fn) : Api (o subject predicate)
  | only (subject : String) (predicate : Fn) : Api (o.only subject predicate)
  | hook (name : HookName) (predicate : Fn) : Api (hook name predicate)
  | specTimeout (t : Option Delay) : Api (o.specTimeout t)
  | spec (subject : String) (calls : List (Def → Except (String × Def) Def))
      (throws : Option Thrown) (bail : Nat) :
      (∀ call ∈ calls, Api call) → Api (o.spec subject (specBody calls throws) bail)
  | run : Api o.run

/-- The values `deepEqual` is applied to: `null`, `undefined`, booleans, numbers (without
`NaN`; a number is taken as an integer), strings, arrays (dense, as an array literal makes
them) and plain objects (the own enumerable properties in order, each key once, none of them
`__proto__`).  `host name` is what reading the property `name` through the prototype chain of
a plain object gives: the function `Object.prototype[name]`.  Two arrays or objects that are
compared are distinct objects. -/
inductive Value
  | null
  | undefined
  | bool (b : Bool)
  | num (n : Int)
  | str (s : String)
  | arr (items : List Value)
  | obj (props : List (String × Value))
  | host (name : String)

/-- The names of the properties of `Object.prototype` that a plain object inherits (the
accessor `__proto__` left out). -/
def objectPrototype : List String :=
  ["constructor", "__defineGetter__", "__defineSetter__", "hasOwnProperty",
   "__lookupGetter__", "__lookupSetter__", "isPrototypeOf", "propertyIsEnumerable",
   "toString", "valueOf", "toLocaleString"]

/-- The comparison `a === b`. -/
def strictEq : Value → Value → Bool
  | .null, .null => true
  | .undefined, .undefined => true
  | .bool x, .bool y => x == y
  | .num x, .num y => x == y
  | .str x, .str y => x == y
  | .host x, .host y => x == y
  | _, _ => false

/-- `typeof a === "object"`. -/
def typeofObject : Value → Bool
  | .null => true
  | .arr _ => true
  | .obj _ => true
  | _ => false

/-- `hasOwn.call(a, key)` for a plain object. -/
def ownKey (props : List (String × Value)) (key : String) : Bool :=
  props.any (fun kv => kv.1 == key)

/-- The test `key in a` for an array or a plain object: an own property, or one found on the
prototype chain.  No name asked for here is a property of `Array.prototype`. -/
def keyIn (key : String) : Value → Bool
  | .obj props => ownKey props key || objectPrototype.contains key
  | _ => false

/-- The read `a[key]` where `key in a` holds for the plain object `a`: the own value, or the
inherited function. -/
def getProp (key : String) : Value → Value
  | .obj props =>
    match props.find? (fun kv => kv.1 == key) with
    | some kv => kv.2
    | none => if objectPrototype.contains key then .host key else .undefined
  | _ => .undefined

/-- The function `isArguments(a)`: with `callee` in `a`, true unless the loop `for (var i in a)`
meets `callee`; an own property of a plain object is enumerable. -/
def isArguments (a : Value) : Bool :=
  if keyIn "callee" a then
    match a with
    | .obj props => !ownKey props "callee"
    | _ => true
  else false

/-- The test `a.constructor === Object`: a plain object inherits `constructor` unless it has
an own property of that name, whose value is not `Object`. -/
def constructorIsObject : Value → Bool
  | .obj props => !ownKey props "constructor"
  | _ => false

/-- The read `a.length`. -/
def lengthOf : Value → Value
  | .arr items => .num items.length
  | .obj props =>
    match props.find? (fun kv => kv.1 == "length") with
    | some kv => kv.2
    | none => .undefined
  | _ => .undefined

/-- `Array.isArray(a)`. -/
def isArray : Value → Bool
  | .arr _ => true
  | _ => false

/-- The call `a.valueOf()` (or `b.valueOf()`, by the name of the variable):
`Object.prototype.valueOf` returns the object; an own property `valueOf` holds a value that
is not a function. -/
def valueOf (receiver : String) : Value → Except String Value
  | .obj props =>
    if ownKey props "valueOf" then
      .error ("TypeError: " ++ receiver ++ ".valueOf is not a function")
    else .ok (.obj props)
  | a => .ok a

mutual

/-- The function `deepEqual(a, b)`.  A `TypeError` raised on the way is the error result. -/
def deepEqual : Value → Value → Except String Bool
  | a, b =>
    if strictEq a b then .ok true
    else if (strictEq a .null != strictEq b .null)
        || (strictEq a .undefined != strictEq b .undefined) then .ok false
    else if typeofObject a && typeofObject b then
      if constructorIsObject a && constructorIsObject b && !isArguments a && !isArguments b then
        match a with
        | .obj props =>
          match eachIn props b with
          | .error m => .error m
          | .ok false => .ok false
          | .ok true =>
            match b with
            | .obj others => .ok (others.all (fun kv => keyIn kv.1 (.obj props)))
            | _ => .ok true
        | _ => .ok true
      else if strictEq (lengthOf a) (lengthOf b) && (isArray a && isArray b
          || isArguments a && isArguments b) then
        match a, b with
        | .arr items, .arr others => eachItem items others
        | _, _ => .ok true
      else
        match valueOf "a" a with
        | .error m => .error m
        | .ok x =>
          match valueOf "b" b with
          | .error m => .error m
          | .ok y => if strictEq x y then .ok true else .ok false
    else .ok false

/-- The loop `for (var i in a) { if ((!(i in b)) || !deepEqual(a[i], b[i])) return false }`
over the properties of `a` that are left. -/
def eachIn : List (String × Value) → Value → Except String Bool
  | [], _ => .ok true
  | (i, v) :: rest, b =>
    if !keyIn i b then .ok false
    else
      match deepEqual v (getProp i b) with
      | .error m => .error m
      | .ok false => .ok false
      | .ok true => eachIn rest b

/-- The loop over `Object.getOwnPropertyNames(a)` for two arrays of the same length: the
indices in order (each an own property of `b` too), then `length`. -/
def eachItem : List Value → List Value → Except String Bool
  | [], _ => .ok true
  | _ :: _, [] => .ok false
  | x :: xs, y :: ys =>
    match deepEqual x y with
    | .error m => .error m
    | .ok false => .ok false
    | .ok true => eachItem xs ys

end

/-- The function `o.report(results, stats)`, for the number it returns (what it prints is
left out): `errCount` starts at `-stats.bailCount`, counts the records that do not pass, and
`errCount + stats.bailCount` is returned. -/
def o.report (results : List Result) (stats : Option Stats) : Int :=
  let stats := stats.getD { asyncSuccesses := 0, bailCount := 0 }
  let errCount := results.foldl (fun errCount r => if !r.pass then errCount + 1 else errCount)
    (-(stats.bailCount : Int))
  errCount + stats.bailCount

/-- The body of the task `finalize` made by `o.run(reporter)`: a function given as `reporter`
is called with `results` and `stats`; otherwise `o.report` is, and `process.exit(1)` follows
when there is a process and the number returned is not 0.  The result is the exit code,
`none` when the body returns. -/
def o.run.finalize (hasProcess custom : Bool) (results : List Result) (stats : Stats) :
    Option Nat :=
  if custom then none
  else if hasProcess && o.report results (some stats) != 0 then some 1
  else none

/-- The number of records that do not pass. -/
def failures (results : List Result) : Nat :=
  (results.filter (fun r => !r.pass)).length

/-- Every bail a unit adds to `bailCount` comes with a failing record it adds to `results`,
and no failing record is lost. -/
def Paid (c c' : Ctx) : Prop :=
  failures c.g.results ≤ failures c'.g.results
    ∧ c'.g.stats.bailCount + failures c.g.results
        ≤ c.g.stats.bailCount + failures c'.g.results

/-- A failing record of the test with function 1. -/
def failingRecord : Result :=
  { pass := false, message := "1\n  should equal\n2", task := 1, hook := none,
    timeoutLimbo := true, context := "T" }

/-- The places where `runSpec(spec, beforeEach, afterEach, ...)` calls the body of a task:
the names pushed on the path stack since `runSpec` was called, and the task.  The hooks in
`before` and `after` are called with nothing pushed; the hooks of the chains and the test of
a leaf child with the key of the child pushed; what the `runSpec` of a sub-group calls, with
the key of the group pushed first. -/
inductive Site : Spec → List Task → List Task → List String → Task → Prop
  | before (spec : Spec) (be ae : List Task) (u : Task) :
      u ∈ spec.before → Site spec be ae [] u
  | after (spec : Spec) (be ae : List Task) (u : Task) :
      u ∈ spec.after → Site spec be ae [] u
  | leaf (spec : Spec) (be ae : List Task) (key : String) (t u : Task) :
      (key, Sum.inl t) ∈ spec.children →
      u ∈ (be ++ spec.beforeEach) ++ [t] ++ (spec.afterEach ++ ae) →
      Site spec be ae [key] u
  | group (spec : Spec) (be ae : List Task) (key : String) (s : Spec) (q : List String)
      (u : Task) :
      (key, Sum.inr s) ∈ spec.children →
      Site s (be ++ spec.beforeEach) (spec.afterEach ++ ae) q u →
      Site spec be ae (key :: q) u

/-- The places where a task of a list calls a body, with the names pushed since the list was
started: a user task is called in place; the wrapper of a leaf child pushes the key of the
child and runs the chains around the test; the wrapper of a group pushes its key and calls
`runSpec`. -/
def Job.site (j : Job) (q : List String) (u : Task) : Prop :=
  match j with
  | .user t => q = [] ∧ u = t
  | .child key (.inl t) _ be ae _ => q = [key] ∧ u ∈ be ++ [t] ++ ae
  | .child key (.inr s) _ be ae _ => ∃ q2, q = key :: q2 ∧ Site s be ae q2 u
  | _ => False

/-- An event a list whose tasks before the closing ones are `body` adds to the trace when it
is started with the path stack `p`: the restoration of `globalBail` by a nested `runSpec`,
or the call of a body at one of the places of its tasks, labelled with the path stack of
that place. -/
def Labelled (body : List Job) (p : List String) (e : Ev) : Prop :=
  e = Ev.restore ∨ ∃ j ∈ body, ∃ q u, j.site q u ∧ e = callOf (p ++ q) u

/-- The test found in a spec tree by the names of the groups from the tree down to it,
followed by its own name. -/
inductive TestAt : Spec → List String → Task → Prop
  | here (spec : Spec) (key : String) (t : Task) :
      (key, Sum.inl t) ∈ spec.children → TestAt spec [key] t
  | under (spec : Spec) (key : String) (s : Spec) (q : List String) (t : Task) :
      (key, Sum.inr s) ∈ spec.children → TestAt s q t → TestAt spec (key :: q) t

/-- The root spec with the group "G" that holds the failing test "t" and its sibling "u",
followed by the test "b". -/
def labelledTree : Spec :=
  Spec.mk [] [] [] [] none
    [("G", Sum.inr (Spec.mk [] [] [] [] none
        [("t", Sum.inl throwingTest), ("u", Sum.inl throwingTest)])),
     ("b", Sum.inl plainTest)]

/-- The depths `Task` gives in a group of depth `d` and in the groups nested in it: a hook
has the depth of its group and the name of its kind, a test has one level more and no hook
name, a group holds at most one `beforeEach` and one `afterEach` hook, and a sub-group is one
level deeper. -/
inductive Graded : Nat → Spec → Prop
  | mk (d : Nat) (b be a ae : List Task) (t : Option Delay)
      (children : List (String × (Task ⊕ Spec))) :
      be.length ≤ 1 → ae.length ≤ 1 →
      (∀ h ∈ be, h.depth = d ∧ h.hookName = some HookName.beforeEach) →
      (∀ h ∈ ae, h.depth = d ∧ h.hookName = some HookName.afterEach) →
      (∀ key tk, (key, Sum.inl tk) ∈ children → tk.depth = d + 1 ∧ tk.hookName = none) →
      (∀ key s, (key, Sum.inr s) ∈ children → Graded (d + 1) s) →
      Graded d (Spec.mk b be a ae t children)

/-- A definition phase in which nothing throws: the calls, made in order from the globals
`d`, all return, the definition function of every group makes its calls and returns, and
`d'` are the globals left.  For a group, the calls of its definition function start from the
globals `o.spec` sets before it calls the function: the new group as `globalContext`, one
level deeper. -/
inductive Clean : List (Def → Except (String × Def) Def) → Def → Def → Prop
  | nil (d : Def) : Clean [] d d
  | test (subject : String) (predicate : Fn) (rest : List (Def → Except (String × Def) Def))
      (d d1 d2 : Def) :
      o subject predicate d = .ok d1 → Clean rest d1 d2 → Clean (o subject predicate :: rest) d d2
  | only (subject : String) (predicate : Fn) (rest : List (Def → Except (String × Def) Def))
      (d d1 d2 : Def) :
      o.only subject predicate d = .ok d1 → Clean rest d1 d2 →
      Clean (o.only subject predicate :: rest) d d2
  | hook (name : HookName) (predicate : Fn) (rest : List (Def → Except (String × Def) Def))
      (d d1 d2 : Def) :
      hook name predicate d = .ok d1 → Clean rest d1 d2 → Clean (hook name predicate :: rest) d d2
  | specTimeout (t : Option Delay) (rest : List (Def → Except (String × Def) Def))
      (d d1 d2 : Def) :
      o.specTimeout t d = .ok d1 → Clean rest d1 d2 → Clean (o.specTimeout t :: rest) d d2
  | spec (subject : String) (calls rest : List (Def → Except (String × Def) Def)) (bail : Nat)
      (d d1 d2 d3 : Def) :
      Clean calls { d with
        globalContext := .mk [] [] [] [] none []
        path := (plug d.globalContext (unique d.globalContext.children subject)
          (.mk [] [] [] [] none []), unique d.globalContext.children subject) :: d.path
        globalDepth := d.globalDepth + 1 } d1 →
      o.spec subject (specBody calls none) bail d = .ok d2 → Clean rest d2 d3 →
      Clean (o.spec subject (specBody calls none) bail :: rest) d d3

/-- The chains `runSpec` is called with for a group of depth `d`: the `beforeEach` hooks of
the enclosing groups, each deeper than the one before it, and their `afterEach` hooks, each
less deep than the one before it; none of them is as deep as `d`. -/
def Chained (d : Nat) (be ae : List Task) : Prop :=
  (∀ u ∈ be, u.hookName = some HookName.beforeEach ∧ u.depth < d)
    ∧ be.Pairwise (fun u v => u.depth < v.depth)
    ∧ (∀ u ∈ ae, u.depth < d)
    ∧ ae.Pairwise (fun u v => v.depth < u.depth)

/-- The leaf tests scheduled by `runSpec(spec, beforeEach, afterEach, ...)` and by the
activations nested in it, each with the chains its wrapper holds: the wrapper of a test made
by this activation, or a leaf of the `runSpec` that the wrapper of a sub-group starts with the
chains it holds. -/
inductive Leaf (only : List Nat) : Spec → List Task → List Task → List Task → Task → List Task → Prop
  | here (spec : Spec) (be ae : List Task) (key : String) (t : Task) (a : Nat) (dl : Delay)
      (be1 ae1 : List Task) :
      Job.child key (.inl t) a be1 ae1 dl
        ∈ wrappers only spec a (inherit (be, ae) spec).1 (inherit (be, ae) spec).2 dl →
      Leaf only spec be ae be1 t ae1
  | under (spec : Spec) (be ae : List Task) (key : String) (s : Spec) (a : Nat) (dl : Delay)
      (be1 ae1 be2 ae2 : List Task) (t : Task) :
      Job.child key (.inr s) a be1 ae1 dl
        ∈ wrappers only spec a (inherit (be, ae) spec).1 (inherit (be, ae) spec).2 dl →
      Leaf only s be1 ae1 be2 t ae2 → Leaf only spec be ae be2 t ae2

/-- The definition phase `o("t", f1); o.spec("A", function() { o.spec("B", function() {
o("A", f2); throw new Error("boom") }) }); o.beforeEach(f3)`, where `f3` throws.  The `catch`
block of the group "B" throws a TypeError (the group "B" has no child "B"), which leaves
`globalDepth` at 3 and the group "B" current; the `catch` block of the group "A" then finds
the test "A" of the group "B", returns, and `globalDepth--` leaves 2 in the root group. -/
def skewedCalls : List (Def → Except (String × Def) Def) :=
  [o "t" (syncFn 1 []),
   o.spec "A" (specBody
     [o.spec "B" (specBody [o "A" (syncFn 2 [])] (some (Thrown.error "boom"))) 90] none) 91,
   hook HookName.beforeEach (syncFn 3 [Action.throw (Thrown.error "setup failed")])]

/-- The `beforeEach` hook of the root group of `nestedCalls`; its body throws. -/
def outerBefore : Task :=
  { fn := syncFn 70 [Action.throw (Thrown.error "setup failed")], depth := 1,
    hookName := some HookName.beforeEach,
    doneTwiceError := "A thenable should only be resolved once" }

/-- The `afterEach` hook of the root group of `nestedCalls`. -/
def outerAfter : Task :=
  { fn := syncFn 71 [], depth := 1, hookName := some HookName.afterEach,
    doneTwiceError := "A thenable should only be resolved once" }

/-- The `beforeEach` hook of the group "G" of `nestedCalls`. -/
def innerBefore : Task :=
  { fn := syncFn 72 [], depth := 2, hookName := some HookName.beforeEach,
    doneTwiceError := "A thenable should only be resolved once" }

/-- The `afterEach` hook of the group "G" of `nestedCalls`. -/
def innerAfter : Task :=
  { fn := syncFn 73 [], depth := 2, hookName := some HookName.afterEach,
    doneTwiceError := "A thenable should only be resolved once" }

/-- The test "t" of the group "G" of `nestedCalls`. -/
def nestedTest : Task :=
  { fn := syncFn 74 [], depth := 3, hookName := none,
    doneTwiceError := "A thenable should only be resolved once" }

/-- The calls of the group "G" of `nestedCalls`. -/
def groupCalls : List (Def → Except (String × Def) Def) :=
  [hook HookName.beforeEach (syncFn 72 []), hook HookName.afterEach (syncFn 73 []),
   o "t" (syncFn 74 [])]

/-- The definition phase `o.beforeEach(f70); o.afterEach(f71); o.spec("G", function() {
o.beforeEach(f72); o.afterEach(f73); o("t", f74) })`. -/
def nestedCalls : List (Def → Except (String × Def) Def) :=
  [hook HookName.beforeEach (syncFn 70 [Action.throw (Thrown.error "setup failed")]),
   hook HookName.afterEach (syncFn 71 []),
   o.spec "G" (specBody groupCalls none) 90]

/-- The tree `nestedCalls` defines. -/
def nestedTree : Spec :=
  Spec.mk [] [outerBefore] [] [outerAfter] none
    [("G", Sum.inr (Spec.mk [] [innerBefore] [] [innerAfter] none
        [("t", Sum.inl nestedTest)]))]

/-- A test of the root spec whose body is `throw Object.create(null)`: it declares no
parameter and returns nothing; the value it throws cannot be converted to a string. -/
def bareThrow : Task :=
  { fn := syncFn 60
      [Action.throw (Thrown.unprintable "TypeError: Cannot convert object to primitive value")],
    depth := 2, hookName := none,
    doneTwiceError := "A thenable should only be resolved once" }

/-- The root spec with the test "x" (`bareThrow`) followed by the test "b". -/
def bareTree : Spec :=
  Spec.mk [] [] [] [] none [("x", Sum.inl bareThrow), ("b", Sum.inl plainTest)]

/-! ## Properties -/

/-! ### The handlers of one unit -/

theorem finalize_once (tasks : List Job) (task : Job) (err : Option Thrown) (threw isTimeout : Bool)
    (c : Ctx) (h : Once c) : Once (settled (finalize tasks task err threw isTimeout c)) := by
  obtain ⟨h1, h2⟩ := h
  unfold finalize
  by_cases hf : c.u.isFinalized = true
  · simp [hf, settled, Once, h1]
  · have h0 : c.nexts = 0 := h2 (by simpa using hf)
    simp only [hf]
    split_ifs <;> (repeat' split) <;> simp_all [settled, Once]

theorem _done_once (tasks : List Job) (task : Job) (err : Option Thrown) (threw : Bool)
    (c : Ctx) (h : Once c) : Once (settled (_done tasks task err threw c)) := by
  unfold _done
  split_ifs
  · simpa [settled] using h
  · simpa [settled, Once, markDone] using h
  · apply finalize_once; simpa [Once, markDone] using h

theorem done_once (tasks : List Job) (task : Job) (err : Option Thrown)
    (c : Ctx) (h : Once c) : Once (settled (done tasks task err c)) :=
  _done_once tasks task err _ c h

theorem timerFires_once (tasks : List Job) (task : Job)
    (c : Ctx) (h : Once c) : Once (settled (timerFires tasks task c)) := by
  unfold timerFires
  apply finalize_once
  simpa [Once] using h

theorem timeout_once (t : Option Delay) (c : Ctx) (h : Once c) : Once (settled (timeout t c)) := by
  unfold timeout
  repeat' split
  all_goals simpa [settled, Once] using h

theorem signal_once (tasks : List Job) (task : Job) (s : Signal)
    (c : Ctx) (h : Once c) : Once (settled (signal tasks task s c)) := by
  cases s with
  | done err => exact done_once tasks task err c h
  | settle r =>
    have h1 := _done_once tasks task r r.isSome c h
    simp only [signal]
    split
    · rename_i c' heq; simpa [heq, settled] using h1
    · rename_i m c' heq
      apply finalize_once
      simpa [heq, settled] using h1
  | timer =>
    simp only [signal]
    split_ifs
    · exact timerFires_once tasks task c h
    · simpa [settled] using h

theorem signals_once (tasks : List Job) (task : Job) (sigs : List Signal) :
    ∀ c : Ctx, Once c → Once (signals tasks task sigs c) := by
  induction sigs with
  | nil => intro c h; simpa [signals] using h
  | cons s rest ih => intro c h; exact ih _ (signal_once tasks task s c h)


theorem exec_once (tasks : List Job) (task : Job) (fn : Fn) (a : Action)
    (c : Ctx) (h : Once c) : Once (raised (exec tasks task fn a c)) := by
  cases a with
  | plain verb success self value userMsg =>
    simp only [exec]
    repeat' split
    all_goals simpa [raised, Once] using h
  | satisfies res =>
    simp only [exec]
    repeat' split
    all_goals simpa [raised, Once] using h
  | notSatisfies res =>
    simp only [exec]
    repeat' split
    all_goals simpa [raised, Once] using h
  | timeout t =>
    have h1 := timeout_once t c h
    simp only [exec]
    split <;> rename_i heq <;> simpa [heq, settled, raised] using h1
  | done err =>
    have h1 := done_once tasks task err c h
    simp only [exec]
    split_ifs
    · simpa [raised] using h
    · split <;> rename_i heq <;> simpa [heq, settled, raised] using h1
  | throw e => simpa [exec, raised] using h

theorem runBody_once (tasks : List Job) (task : Job) (fn : Fn) (acts : List Action) :
    ∀ c : Ctx, Once c → Once (raised (runBody tasks task fn acts c)) := by
  induction acts with
  | nil => intro c h; simpa [runBody, raised] using h
  | cons a rest ih =>
    intro c h
    have h1 := exec_once tasks task fn a c h
    simp only [runBody]
    split
    · rename_i c' heq
      exact ih c' (by simpa [heq, raised] using h1)
    · rename_i x heq
      obtain ⟨e, c'⟩ := x
      simpa [heq, raised] using h1

theorem returned_once (tasks : List Job) (t : Task) (c : Ctx) (h : Once c) :
    Once (settled (returned tasks t c)) := by
  unfold returned
  split_ifs
  · simpa [settled] using h
  · exact finalize_once _ _ _ _ _ _ h

theorem becomeAsync_once (c : Ctx) (h : Once c) : Once (becomeAsync c) := by
  unfold becomeAsync
  split_ifs
  · exact h
  · simpa [startTimer, Once] using h

theorem tryBody_once (tasks : List Job) (t : Task) (c : Ctx) (h : Once c) :
    Once (settled (tryBody tasks t c)) := by
  have h1 := runBody_once tasks (.user t) t.fn t.fn.acts c h
  unfold tryBody
  split
  · rename_i e c' heq
    apply finalize_once
    simpa [heq, raised] using h1
  · rename_i c' heq
    have h2 : Once c' := by simpa [heq, raised] using h1
    have h3 := returned_once tasks t c' h2
    split
    · rename_i m c'' heq2
      apply finalize_once
      simpa [heq2, settled] using h3
    · rename_i c'' heq2
      exact becomeAsync_once _ (by simpa [heq2, settled] using h3)

theorem timerFires_finalized (tasks : List Job) (task : Job) (d : Ctx)
    (hd : d.u.isFinalized = false) :
    (settled (timerFires tasks task d)).u.isFinalized = true
      ∧ (settled (timerFires tasks task d)).u.isDone = d.u.isDone
      ∧ (settled (timerFires tasks task d)).u.timeout = none := by
  unfold timerFires finalize
  simp only [hd]
  split_ifs <;> (repeat' split) <;> simp_all [settled]

theorem signal_after_finalized (tasks : List Job) (task : Job) (s : Signal) (c : Ctx)
    (hf : c.u.isFinalized = true) (hd : c.u.isDone = false) (ht : c.u.timeout = none) :
    ∃ c', signal tasks task s c = .ok c' ∧ c'.g.results = c.g.results ∧ c'.nexts = c.nexts
      ∧ c'.cursor = c.cursor ∧ c'.u.isFinalized = true
      ∧ c'.g.stats.bailCount = c.g.stats.bailCount ∧ c'.g.bailed = c.g.bailed := by
  cases s with
  | done err => simp [signal, done, _done, hd, hf, markDone]
  | settle r => simp [signal, _done, hd, hf, markDone]
  | timer => simp [signal, ht, hf]

theorem modify_append_last {α : Type} (f : α → α) (l : List α) (x : α) :
    List.modify f l.length (l ++ [x]) = l ++ [f x] := by
  induction l with
  | nil => simp
  | cons a l ih => simp [ih]

theorem Frame.refl (task : Job) (c : Ctx) : Frame task c c :=
  ⟨rfl, rfl, rfl, rfl, rfl, rfl, id, id, Nat.le_refl _, rfl, fun _ h => h,
    fun _ _ => rfl, Nat.le_refl _, fun _ => rfl, fun _ => ⟨rfl, rfl⟩⟩

theorem Frame.trans {task : Job} {a b c : Ctx} (h1 : Frame task a b) (h2 : Frame task b c) :
    Frame task a c where
  trace := h2.trace.trans h1.trace
  subjects := h2.subjects.trans h1.subjects
  globalBail := h2.globalBail.trans h1.globalBail
  units := h2.units.trans h1.units
  current := h2.current.trans h1.current
  serial := h2.serial.trans h1.serial
  isDone := fun h => h2.isDone (h1.isDone h)
  isFinalized := fun h => h2.isFinalized (h1.isFinalized h)
  cursor := Nat.le_trans h1.cursor h2.cursor
  length := h2.length.trans h1.length
  mono := fun a h => h2.mono a (h1.mono a h)
  other := fun a h => (h2.other a (by rw [h1.globalBail]; exact h)).trans (h1.other a h)
  bailCount := Nat.le_trans h1.bailCount h2.bailCount
  keep := fun h => (h2.keep h).trans (h1.keep h)
  stay := fun h => by
    have e1 : b.g.stats.bailCount = a.g.stats.bailCount :=
      Nat.le_antisymm (h ▸ h2.bailCount) h1.bailCount
    have e2 : c.g.stats.bailCount = b.g.stats.bailCount := h.trans e1.symm
    exact ⟨(h2.stay e2).1.trans (h1.stay e1).1, (h2.stay e2).2.trans (h1.stay e1).2⟩

theorem skipForward_le (depth : Nat) : ∀ (l : List Job) (cursor k : Nat),
    skipForward depth l cursor = some k → cursor ≤ k := by
  intro l
  induction l with
  | nil => intro cursor k h; simp [skipForward] at h
  | cons j rest ih =>
    intro cursor k h
    simp only [skipForward] at h
    split_ifs at h
    · exact Nat.le_trans (Nat.le_succ _) (ih _ _ h)
    · simp at h; omega

theorem getD_set_true (l : List Bool) (a b : Nat) (h : l[b]?.getD false = true) :
    (l.set a true)[b]?.getD false = true := by
  simp only [List.getElem?_set]
  split_ifs with h1 h2
  · simp
  · rw [List.getElem?_eq_none (by omega)] at h; simp at h
  · exact h

theorem getD_set_ne (l : List Bool) (a b : Nat) (v : Bool) (h : a ≠ b) :
    (l.set a v)[b]?.getD false = l[b]?.getD false := by
  simp [List.getElem?_set, h]

theorem Assertion_eq (g g' : State) (i : Nat) (h : Assertion g = .ok (i, g')) :
    ∃ r, g' = { g with results := g.results ++ [r] } ∧ i = g.results.length := by
  unfold Assertion at h
  split at h
  · simp at h
  · simp only [Except.ok.injEq, Prod.mk.injEq] at h
    exact ⟨_, h.2.symm, h.1.symm⟩

theorem finalize_frame (tasks : List Job) (task : Job) (err : Option Thrown) (threw isTimeout : Bool)
    (c : Ctx) : Frame task c (settled (finalize tasks task err threw isTimeout c)) := by
  unfold finalize
  by_cases hf : c.u.isFinalized = true
  · simp only [hf, if_true, settled]; exact Frame.refl _ c
  · simp only [hf]
    cases threw
    · simp only [Bool.false_eq_true, if_false, settled]
      constructor <;> simp
    · simp only [if_true]
      cases hA : Assertion c.g with
      | error m => simp only [settled]; constructor <;> simp
      | ok p =>
        obtain ⟨i, g⟩ := p
        obtain ⟨r, rfl, rfl⟩ := Assertion_eq _ _ _ hA
        simp only
        cases hE : errorText err with
        | error m => simp only [settled]; constructor <;> simp [State.isBailed]
        | ok text =>
        simp only
        cases isTimeout
        · simp only [Bool.false_eq_true, if_false]
          cases hga : c.g.globalBail with
          | none =>
            simp only [globalBail, fail, hga, settled]
            constructor <;> simp [State.isBailed, hga]
          | some a =>
            simp only [globalBail, fail, hga]
            split_ifs with hhook
            · cases hS : skipForward task.depth (List.drop c.cursor tasks) c.cursor with
              | none =>
                constructor <;> simp [State.isBailed, hga, settled] <;>
                  first
                    | exact fun b hb => getD_set_true _ _ _ hb
                    | exact fun b hb => getD_set_ne _ _ _ _ hb
              | some k =>
                have hk := skipForward_le _ _ _ _ hS
                constructor <;> simp [State.isBailed, hga, settled, hk, hhook] <;>
                  first
                    | exact fun b hb => getD_set_true _ _ _ hb
                    | exact fun b hb => getD_set_ne _ _ _ _ hb
            · constructor <;> simp [State.isBailed, hga, settled] <;>
                first
                  | exact fun b hb => getD_set_true _ _ _ hb
                  | exact fun b hb => getD_set_ne _ _ _ _ hb
        · simp only [if_true, settled, fail]; constructor <;> simp [State.isBailed]

theorem markDone_frame (task : Job) (threw : Bool) (c : Ctx) : Frame task c (markDone task threw c) := by
  constructor <;> simp [markDone, State.isBailed]

theorem _done_frame (tasks : List Job) (task : Job) (err : Option Thrown) (threw : Bool)
    (c : Ctx) : Frame task c (settled (_done tasks task err threw c)) := by
  unfold _done
  split_ifs
  · exact Frame.refl _ c
  · exact markDone_frame task threw c
  · exact Frame.trans (markDone_frame task threw c) (finalize_frame _ _ _ _ _ _)

theorem settled_done_isDone (tasks : List Job) (task : Job) (err : Option Thrown) (threw : Bool)
    (c : Ctx) : (settled (_done tasks task err threw c)).u.isDone = true := by
  unfold _done
  split_ifs with h1 h2
  · simpa [settled] using h1
  · simp [settled, markDone]
  · exact (finalize_frame _ _ _ _ _ _).isDone (by simp [markDone])

theorem done_frame (tasks : List Job) (task : Job) (err : Option Thrown) (c : Ctx) :
    Frame task c (settled (done tasks task err c)) :=
  _done_frame tasks task err _ c

theorem timerFires_frame (tasks : List Job) (task : Job) (c : Ctx) :
    Frame task c (settled (timerFires tasks task c)) := by
  unfold timerFires
  refine Frame.trans ?_ (finalize_frame _ _ _ _ _ _)
  constructor <;> simp [State.isBailed]

theorem timeout_frame (task : Job) (t : Option Delay) (c : Ctx) :
    Frame task c (settled (timeout t c)) := by
  unfold timeout
  repeat' split
  all_goals (simp only [settled]; constructor <;> simp [State.isBailed])

theorem signal_frame (tasks : List Job) (task : Job) (s : Signal) (c : Ctx) :
    Frame task c (settled (signal tasks task s c)) := by
  cases s with
  | done err => exact done_frame tasks task err c
  | settle r =>
    have h1 := _done_frame tasks task r r.isSome c
    simp only [signal]
    split
    · rename_i c' heq; simpa [heq, settled] using h1
    · rename_i m c' heq
      refine Frame.trans ?_ (finalize_frame _ _ _ _ _ _)
      simpa [heq, settled] using h1
  | timer =>
    simp only [signal]
    split_ifs
    · exact timerFires_frame tasks task c
    · exact Frame.refl _ c

theorem exec_frame (tasks : List Job) (task : Job) (fn : Fn) (a : Action) (c : Ctx) :
    Frame task c (raised (exec tasks task fn a c)) := by
  cases a with
  | plain verb success self value userMsg =>
    simp only [exec]
    cases hA : Assertion c.g with
    | error m => exact Frame.refl _ c
    | ok p =>
      obtain ⟨i, g⟩ := p
      obtain ⟨r, rfl, rfl⟩ := Assertion_eq _ _ _ hA
      simp only
      split_ifs <;> (simp only [raised, succeed]; constructor <;> simp [State.isBailed])
  | satisfies res =>
    simp only [exec]
    cases hA : Assertion c.g with
    | error m => exact Frame.refl _ c
    | ok p =>
      obtain ⟨i, g⟩ := p
      obtain ⟨r, rfl, rfl⟩ := Assertion_eq _ _ _ hA
      simp only
      repeat' split
      all_goals (simp only [raised, succeed, fail]; constructor <;> simp [State.isBailed])
  | notSatisfies res =>
    simp only [exec]
    cases hA : Assertion c.g with
    | error m => exact Frame.refl _ c
    | ok p =>
      obtain ⟨i, g⟩ := p
      obtain ⟨r, rfl, rfl⟩ := Assertion_eq _ _ _ hA
      simp only
      repeat' split
      all_goals (simp only [raised, succeed, fail]; constructor <;> simp [State.isBailed])
  | timeout t =>
    have h1 := timeout_frame task t c
    simp only [exec]
    split <;> rename_i heq <;> simpa [heq, settled, raised] using h1
  | done err =>
    have h1 := done_frame tasks task err c
    simp only [exec]
    split_ifs
    · exact Frame.refl _ c
    · split <;> rename_i heq <;> simpa [heq, settled, raised] using h1
  | throw e => exact Frame.refl _ c

theorem runBody_frame (tasks : List Job) (task : Job) (fn : Fn) (acts : List Action) :
    ∀ c : Ctx, Frame task c (raised (runBody tasks task fn acts c)) := by
  induction acts with
  | nil => intro c; exact Frame.refl _ c
  | cons a rest ih =>
    intro c
    have h1 := exec_frame tasks task fn a c
    simp only [runBody]
    split
    · rename_i c' heq
      exact Frame.trans (by simpa [heq, raised] using h1) (ih c')
    · rename_i x heq
      obtain ⟨e, c'⟩ := x
      simpa [heq, raised] using h1

theorem returned_frame (tasks : List Job) (t : Task) (c : Ctx) :
    Frame (.user t) c (settled (returned tasks t c)) := by
  unfold returned
  split_ifs
  · exact Frame.refl _ c
  · exact finalize_frame _ _ _ _ _ _

theorem becomeAsync_frame (task : Job) (c : Ctx) : Frame task c (becomeAsync c) := by
  unfold becomeAsync
  split_ifs
  · exact Frame.refl _ c
  · constructor <;> simp [startTimer, State.isBailed]

theorem tryBody_frame (tasks : List Job) (t : Task) (c : Ctx) :
    Frame (.user t) c (settled (tryBody tasks t c)) := by
  have h1 := runBody_frame tasks (.user t) t.fn t.fn.acts c
  unfold tryBody
  split
  · rename_i e c' heq
    exact Frame.trans (by simpa [heq, raised] using h1) (finalize_frame _ _ _ _ _ _)
  · rename_i c' heq
    have h2 : Frame (.user t) c c' := by simpa [heq, raised] using h1
    have h3 := returned_frame tasks t c'
    split
    · rename_i m c'' heq2
      refine Frame.trans (Frame.trans h2 ?_) (finalize_frame _ _ _ _ _ _)
      simpa [heq2, settled] using h3
    · rename_i c'' heq2
      exact Frame.trans (Frame.trans h2 (by simpa [heq2, settled] using h3))
        (becomeAsync_frame _ _)

theorem late_frame (tasks : List Job) (t : Task) (c : Ctx) :
    Frame (.user t) c (settled (late tasks t c)) := by
  unfold late
  split
  · exact timerFires_frame _ _ _
  · split_ifs
    · exact done_frame _ _ _ _
    · exact timerFires_frame _ _ _
  · rename_i r _
    split_ifs
    · exact signal_frame tasks (.user t) (.settle r) c
    · exact timerFires_frame _ _ _

theorem finalize_results (tasks : List Job) (task : Job) (err : Option Thrown)
    (threw isTimeout : Bool) (c : Ctx) (t : Task) (label : String)
    (hfin : c.u.isFinalized = false) (hcur : c.g.globalTestOrHook = some (t, label)) :
    (settled (finalize tasks task err threw isTimeout c)).u.isFinalized = true
    ∧ (threw = false → (settled (finalize tasks task err threw isTimeout c)).g.results = c.g.results)
    ∧ (threw = true → ∀ text, errorText err = .ok text →
        ∃ r, (settled (finalize tasks task err threw isTimeout c)).g.results
          = c.g.results ++ [r] ∧ r.pass = false
          ∧ r.message = text ∧ r.task = t.fn.id) := by
  unfold finalize
  simp only [hfin, Bool.false_eq_true, if_false]
  cases threw
  · simp [settled]
  · simp only [if_true, Assertion, hcur]
    cases hE : errorText err with
    | error m => simp [settled]
    | ok text =>
    simp only [fail, modify_append_last, globalBail]
    cases isTimeout
    · simp only [Bool.false_eq_true, if_false]
      cases hga : c.g.globalBail with
      | none => simp [settled]
      | some a =>
        simp only
        generalize skipForward task.depth (List.drop c.cursor tasks) c.cursor = sk
        cases sk <;> split_ifs <;> simp [settled]
    · simp [settled]

theorem signal_finished (tasks : List Job) (task : Job) (s : Signal) (c : Ctx)
    (hf : c.u.isFinalized = true) (hd : c.u.isDone = true) :
    (settled (signal tasks task s c)).g.results = c.g.results
      ∧ (settled (signal tasks task s c)).u.isFinalized = true
      ∧ (settled (signal tasks task s c)).u.isDone = true := by
  cases s with
  | done err => simp [signal, done, _done, hd, settled, hf]
  | settle r => simp [signal, _done, hd, settled, hf, finalize]
  | timer =>
    simp only [signal]
    split_ifs
    · simp [timerFires, finalize, hf, settled, hd]
    · simp [settled, hf, hd]

theorem signals_finished (tasks : List Job) (task : Job) (sigs : List Signal) :
    ∀ c : Ctx, c.u.isFinalized = true → c.u.isDone = true →
      (signals tasks task sigs c).g.results = c.g.results
        ∧ (signals tasks task sigs c).u.isDone = true := by
  induction sigs with
  | nil => intro c _ hd; simp [signals, hd]
  | cons s rest ih =>
    intro c hf hd
    obtain ⟨h1, h2, h3⟩ := signal_finished tasks task s c hf hd
    obtain ⟨k1, k2⟩ := ih _ h2 h3
    exact ⟨by simp only [signals]; rw [k1, h1], by simpa [signals] using k2⟩

theorem done_first (tasks : List Job) (task : Job) (err : Option Thrown) (c : Ctx) (t : Task)
    (label : String) (hcur : c.g.globalTestOrHook = some (t, label))
    (hdone : c.u.isDone = false) (hfin : c.u.isFinalized = false) :
    (settled (done tasks task err c)).u.isFinalized = true
    ∧ (settled (done tasks task err c)).u.isDone = true
    ∧ (err = none → (settled (done tasks task err c)).g.results = c.g.results)
    ∧ (∀ e text, err = some e → e.text = .ok text →
        ∃ r, (settled (done tasks task err c)).g.results = c.g.results ++ [r]
          ∧ r.pass = false ∧ r.message = text ∧ r.task = t.fn.id) := by
  have hD : (settled (done tasks task err c)).u.isDone = true :=
    settled_done_isDone tasks task err err.isSome c
  obtain ⟨k1, k2, k3⟩ := finalize_results tasks task err err.isSome false
    (markDone task err.isSome c) t label (by simpa [markDone] using hfin)
    (by simpa [markDone] using hcur)
  have he : done tasks task err c
      = finalize tasks task err err.isSome false (markDone task err.isSome c) := by
    simp [done, _done, hdone, hfin]
  rw [he] at hD ⊢
  refine ⟨k1, hD, ?_, ?_⟩
  · intro h; subst h; simpa [markDone] using k2 rfl
  · intro e text h ht; subst h; simpa [markDone] using k3 rfl text (by simpa [errorText] using ht)

theorem mkTask_doneTwiceError (fn : Fn) (depth : Nat) (hookName : Option HookName) (made : Task)
    (hmade : mkTask false depth fn hookName = .ok made) :
    made.doneTwiceError =
      if fn.length = 0 then "A thenable should only be resolved once"
      else "`" ++ (match fn.arg with
                   | some a => if a = "" then "done" else a
                   | none => "done") ++ "()` should only be called once" := by
  unfold mkTask validateDone at hmade
  simp only [Bool.false_eq_true, if_false, Bool.not_true, Bool.false_or, decide_eq_true_eq] at hmade
  by_cases hl : fn.length = 0
  · simp only [hl, if_true] at hmade ⊢
    simp only [Except.ok.injEq] at hmade
    rw [← hmade]; rfl
  · simp only [hl, if_false] at hmade ⊢
    cases harg : fn.arg with
    | none =>
      simp only [harg, Except.ok.injEq] at hmade
      rw [← hmade]; rfl
    | some a =>
      simp only [harg] at hmade
      by_cases ha : a = ""
      · simp only [ha, if_true, Except.ok.injEq] at hmade ⊢
        rw [← hmade]; rfl
      · simp only [ha, if_false] at hmade ⊢
        split_ifs at hmade <;> simp at hmade <;> rw [← hmade]

theorem finalize_ok (tasks : List Job) (task : Job) (err : Option Thrown) (threw isTimeout : Bool)
    (c c' : Ctx) (h : finalize tasks task err threw isTimeout c = .ok c') :
    c'.u.isFinalized = true ∧ 1 ≤ c'.nexts := by
  unfold finalize at h
  by_cases hf : c.u.isFinalized = true
  · simp [hf] at h
  · simp only [hf, if_false] at h
    cases threw
    · simp at h; subst h; simp
    · simp only [if_true] at h
      cases hA : Assertion c.g with
      | error m => simp [hA] at h
      | ok p =>
        obtain ⟨i, g⟩ := p
        simp only [hA] at h
        cases hE : errorText err with
        | error m => simp [hE] at h
        | ok text =>
        simp only [hE] at h
        cases isTimeout
        · simp only [Bool.false_eq_true, if_false] at h
          cases hB : globalBail (fail i text g) with
          | error m => simp [hB] at h
          | ok g' =>
            simp only [hB] at h
            split_ifs at h
            · cases hS : skipForward task.depth (List.drop c.cursor tasks) c.cursor with
              | none => simp [hS] at h
              | some k => simp [hS] at h; subst h; simp
            · simp at h; subst h; simp
        · simp at h; subst h; simp

theorem finalize_live (tasks : List Job) (task : Job) (err : Option Thrown) (threw isTimeout : Bool)
    (c c' : Ctx) (h : finalize tasks task err threw isTimeout c = .ok c') : Live c' := by
  obtain ⟨h1, h2⟩ := finalize_ok _ _ _ _ _ _ _ h
  exact ⟨fun _ => h2, fun _ => h1⟩

theorem _done_ok (tasks : List Job) (task : Job) (err : Option Thrown) (threw : Bool)
    (c c' : Ctx) (hl : Live c) (h : _done tasks task err threw c = .ok c') :
    c'.u.isFinalized = true ∧ 1 ≤ c'.nexts := by
  unfold _done at h
  split_ifs at h with h1 h2
  · simp only [Except.ok.injEq] at h
    subst h
    exact ⟨by simpa [markDone] using h2, by simpa [markDone] using hl.1 h2⟩
  · exact finalize_ok _ _ _ _ _ _ _ h

theorem timeout_live (t : Option Delay) (c c' : Ctx) (hl : Live c) (h : timeout t c = .ok c') :
    Live c' := by
  unfold timeout at h
  repeat' split at h
  all_goals
    first
      | (simp only [Except.ok.injEq] at h; subst h; simpa [Live] using hl)
      | simp at h

theorem exec_live (tasks : List Job) (task : Job) (fn : Fn) (a : Action) (c c' : Ctx)
    (hl : Live c) (h : exec tasks task fn a c = .ok c') : Live c' := by
  cases a with
  | plain verb success self value userMsg =>
    simp only [exec] at h
    repeat' split at h
    all_goals
      first
        | (simp only [Except.ok.injEq] at h; subst h; simpa [Live] using hl)
        | simp at h
  | satisfies res =>
    simp only [exec] at h
    repeat' split at h
    all_goals
      first
        | (simp only [Except.ok.injEq] at h; subst h; simpa [Live] using hl)
        | simp at h
  | notSatisfies res =>
    simp only [exec] at h
    repeat' split at h
    all_goals
      first
        | (simp only [Except.ok.injEq] at h; subst h; simpa [Live] using hl)
        | simp at h
  | timeout t =>
    simp only [exec] at h
    split at h
    · rename_i c1 heq
      simp only [Except.ok.injEq] at h; subst h
      exact timeout_live t c _ hl heq
    · simp at h
  | done err =>
    simp only [exec] at h
    split_ifs at h
    split at h
    · rename_i c1 heq
      simp only [Except.ok.injEq] at h; subst h
      obtain ⟨k1, k2⟩ := _done_ok tasks task err _ c _ hl heq
      exact ⟨fun _ => k2, fun _ => k1⟩
    · simp at h
  | throw e => simp [exec] at h

theorem runBody_live (tasks : List Job) (task : Job) (fn : Fn) (acts : List Action) :
    ∀ c c' : Ctx, Live c → runBody tasks task fn acts c = .ok c' → Live c' := by
  induction acts with
  | nil => intro c c' hl h; simp only [runBody, Except.ok.injEq] at h; subst h; exact hl
  | cons a rest ih =>
    intro c c' hl h
    simp only [runBody] at h
    split at h
    · rename_i c1 heq
      exact ih c1 c' (exec_live tasks task fn a c c1 hl heq) h
    · simp at h

theorem tryBody_live (tasks : List Job) (t : Task) (c c' : Ctx) (hl : Live c)
    (h : tryBody tasks t c = .ok c') : Live c' := by
  unfold tryBody at h
  split at h
  · exact finalize_live _ _ _ _ _ _ _ h
  · rename_i c1 heq
    have h1 := runBody_live tasks (.user t) t.fn t.fn.acts c c1 hl heq
    split at h
    · exact finalize_live _ _ _ _ _ _ _ h
    · rename_i c2 heq2
      have h2 : Live c2 := by
        unfold returned at heq2
        split_ifs at heq2
        · simp only [Except.ok.injEq] at heq2; subst heq2; exact h1
        · exact finalize_live _ _ _ _ _ _ _ heq2
      simp only [Except.ok.injEq] at h; subst h
      unfold becomeAsync
      split_ifs with hfin
      · exact h2
      · refine ⟨fun hf => ?_, fun hdone => ?_⟩
        · simp [startTimer, hfin] at hf
        · have := h2.2 (by simpa [startTimer] using hdone)
          exact absurd this hfin

theorem late_ok (tasks : List Job) (t : Task) (c c' : Ctx) (hl : Live c)
    (h : late tasks t c = .ok c') : c'.u.isFinalized = true ∧ 1 ≤ c'.nexts := by
  unfold late at h
  split at h
  · exact finalize_ok _ _ _ _ _ _ _ h
  · split_ifs at h
    · exact _done_ok _ _ _ _ _ _ hl h
    · exact finalize_ok _ _ _ _ _ _ _ h
  · split_ifs at h
    · split at h
      · rename_i c1 heq
        simp only [Except.ok.injEq] at h; subst h
        exact _done_ok _ _ _ _ _ _ hl heq
      · exact finalize_ok _ _ _ _ _ _ _ h
    · exact finalize_ok _ _ _ _ _ _ _ h

/-- A unit that returns without an exception has asked for `next`. -/
theorem unit_ok (tasks : List Job) (t : Task) (c c' : Ctx) (hl : Live c)
    (h : unit tasks t c = .ok c') : 1 ≤ c'.nexts := by
  unfold unit at h
  split at h
  · simp at h
  · rename_i c1 heq
    have h1 : Live c1 := tryBody_live tasks t _ c1 (by simpa [Live, enter] using hl) heq
    split_ifs at h with ha
    · simp only [Except.ok.injEq] at h; subst h
      exact h1.1 ha
    · exact (late_ok tasks t _ c' (by simpa [Live] using h1) h).2

theorem unit_frame (tasks : List Job) (t : Task) (c : Ctx) :
    Frame (.user t) (enter t c) (settled (unit tasks t c)) := by
  have h1 := tryBody_frame tasks t (enter t c)
  have hreset : ∀ d : Ctx, Frame (.user t) d { d with g := { d.g with globalTimeout := none } } := by
    intro d
    constructor <;> simp [State.isBailed]
  unfold unit
  split
  · rename_i x heq
    obtain ⟨m, c1⟩ := x
    simpa [heq, settled] using h1
  · rename_i c1 heq
    have h2 : Frame (.user t) (enter t c) c1 := by simpa [heq, settled] using h1
    split_ifs
    · exact Frame.trans h2 (hreset c1)
    · exact Frame.trans h2 (Frame.trans (hreset c1) (late_frame _ _ _))

/-! ### One step of `series` -/

theorem lt_of_getElem? {α : Type} (l : List α) (i : Nat) (x : α) (h : l[i]? = some x) :
    i ≠ l.length := by
  have := (List.getElem?_eq_some.1 h).1
  omega

theorem series_end (only : List Nat) (fuel : Nat) (tasks : List Job) (dd : Delay) (g : State) :
    series only (fuel + 1) tasks tasks.length dd g = .done g := by
  simp [series]

theorem series_user (only : List Nat) (fuel : Nat) (tasks : List Job) (cursor : Nat) (dd : Delay)
    (g : State) (t : Task) (h : tasks[cursor]? = some (.user t)) :
    series only (fuel + 1) tasks cursor dd g =
      match unit tasks t (start g dd cursor) with
      | .error (m, c) => .escaped m c.g
      | .ok c =>
        if c.nexts = 0 then .done c.g
        else rethrown (viaThen t c) (series only fuel tasks c.cursor dd c.g) := by
  rw [series]
  simp only [lt_of_getElem? _ _ _ h, if_false, h]

theorem series_pop (only : List Nat) (fuel : Nat) (tasks : List Job) (cursor : Nat) (dd : Delay)
    (g : State) (h : tasks[cursor]? = some .pop) :
    series only (fuel + 1) tasks cursor dd g =
      series only fuel tasks (cursor + 1) dd
        { g with units := g.units + 1, subjects := g.subjects.dropLast, globalTimeout := none } := by
  rw [series]
  simp only [lt_of_getElem? _ _ _ h, if_false, h]

theorem series_restoreStack (only : List Nat) (fuel : Nat) (tasks : List Job) (cursor : Nat)
    (dd : Delay) (g : State) (prev : Option Nat) (h : tasks[cursor]? = some (.restoreStack prev)) :
    series only (fuel + 1) tasks cursor dd g =
      series only fuel tasks (cursor + 1) dd
        { g with units := g.units + 1, globalBail := prev, globalTimeout := none,
                 trace := g.trace ++ [Ev.restore] } := by
  rw [series]
  simp only [lt_of_getElem? _ _ _ h, if_false, h]

theorem series_report (only : List Nat) (fuel : Nat) (tasks : List Job) (cursor : Nat)
    (dd : Delay) (g : State) (h : tasks[cursor]? = some .report) :
    series only (fuel + 1) tasks cursor dd g =
      series only fuel tasks (cursor + 1) dd
        { g with units := g.units + 1, globalTimeout := none,
                 trace := g.trace ++ [Ev.report g.results g.stats] } := by
  rw [series]
  simp only [lt_of_getElem? _ _ _ h, if_false, h]

/-- A wrapper whose activation has bailed calls `done()` at once: nothing else happens. -/
theorem series_child_bailed (only : List Nat) (fuel : Nat) (tasks : List Job) (cursor : Nat)
    (dd : Delay) (g : State) (key : String) (child : Task ⊕ Spec) (a : Nat) (be ae : List Task)
    (d : Delay) (h : tasks[cursor]? = some (.child key child a be ae d))
    (hb : g.isBailed a = true) :
    series only (fuel + 1) tasks cursor dd g =
      series only fuel tasks (cursor + 1) dd
        { g with units := g.units + 1, globalTimeout := none } := by
  rw [series]
  simp only [lt_of_getElem? _ _ _ h, if_false, h, hb, if_true]
  simp [done, _done, start, finalize, markDone, Job.error]

theorem series_child (only : List Nat) (fuel : Nat) (tasks : List Job) (cursor : Nat)
    (dd : Delay) (g : State) (key : String) (child : Task ⊕ Spec) (a : Nat) (be ae : List Task)
    (d : Delay) (h : tasks[cursor]? = some (.child key child a be ae d))
    (hb : g.isBailed a = false) :
    series only (fuel + 1) tasks cursor dd g =
      match nestedRun only fuel child be ae d (pushed g key) with
      | .fuel => .fuel
      | .escaped m g => .escaped m g
      | .done g2 => series only fuel tasks (cursor + 1) dd { g2 with globalTimeout := none } := by
  rw [series]
  simp only [lt_of_getElem? _ _ _ h, if_false, h, hb, Bool.false_eq_true]
  simp only [timeout, start, if_true, nestedRun, pushed, runSpec]
  cases child with
  | inl t =>
    simp only
    split <;> simp [done, _done, finalize, markDone, startTimer, Job.error]
  | inr spec =>
    simp only
    split <;> simp [done, _done, finalize, markDone, startTimer, Job.error]

theorem rethrown_state (b : Bool) (r : Res) : (rethrown b r).state? = r.state? := by
  cases r <;> simp [rethrown, Res.state?]
  split_ifs <;> rfl

theorem unit_trace (tasks : List Job) (t : Task) (c : Ctx) :
    (settled (unit tasks t c)).g.trace
        = c.g.trace ++ [Ev.call t.fn.id t.hookName (context c.g.subjects t)]
      ∧ c.cursor ≤ (settled (unit tasks t c)).cursor := by
  have hf := unit_frame tasks t c
  exact ⟨by rw [hf.trace]; rfl, hf.cursor⟩

/-- A series without wrappers adds to the trace only events of its tasks from `cursor` on. -/
theorem series_flat (only : List Nat) : ∀ (fuel : Nat) (tasks : List Job) (cursor : Nat)
    (dd : Delay) (g g' : State), (∀ j ∈ tasks, j.flat = true) →
    (series only fuel tasks cursor dd g).state? = some g' →
    ∃ ts, g'.trace = g.trace ++ ts
      ∧ ∀ e ∈ ts, ∃ i j, cursor ≤ i ∧ tasks[i]? = some j ∧ Emits j e := by
  intro fuel
  induction fuel with
  | zero => intro tasks cursor dd g g' _ h; simp [series, Res.state?] at h
  | succ fuel ih =>
    intro tasks cursor dd g g' hflat h
    by_cases hend : cursor = tasks.length
    · subst hend
      rw [series_end] at h
      simp only [Res.state?, Option.some.injEq] at h
      subst h
      exact ⟨[], by simp, by simp⟩
    · cases htc : tasks[cursor]? with
      | none =>
        rw [series] at h
        simp only [hend, if_false, htc, Res.state?, Option.some.injEq] at h
        subst h
        exact ⟨[], by simp, by simp⟩
      | some j =>
        cases j with
        | user t =>
          rw [series_user _ _ _ _ _ _ _ htc] at h
          obtain ⟨htr, hcur⟩ := unit_trace tasks t (start g dd cursor)
          have hst : (start g dd cursor).g.trace = g.trace := rfl
          rw [hst] at htr
          have hev : ∀ e ∈ [Ev.call t.fn.id t.hookName (context (start g dd cursor).g.subjects t)],
              ∃ i j, cursor ≤ i ∧ tasks[i]? = some j ∧ Emits j e := by
            intro e he
            simp only [List.mem_singleton] at he
            subst he
            exact ⟨cursor, _, Nat.le_refl _, htc, rfl, rfl⟩
          cases hu : unit tasks t (start g dd cursor) with
          | error x =>
            obtain ⟨m, c⟩ := x
            simp only [hu, Res.state?, Option.some.injEq] at h
            subst h
            rw [hu] at htr
            exact ⟨_, htr, hev⟩
          | ok c =>
            rw [hu] at htr hcur
            simp only [settled] at htr hcur
            simp only [hu] at h
            split_ifs at h
            · simp only [Res.state?, Option.some.injEq] at h
              subst h
              exact ⟨_, htr, hev⟩
            · rw [rethrown_state] at h
              obtain ⟨ts, hts, hall⟩ := ih tasks c.cursor dd c.g g' hflat h
              refine ⟨[Ev.call t.fn.id t.hookName (context (start g dd cursor).g.subjects t)] ++ ts,
                by rw [hts, htr, List.append_assoc], ?_⟩
              intro e he
              rcases List.mem_append.1 he with he | he
              · exact hev e he
              · obtain ⟨i, j, hi, hj, hem⟩ := hall e he
                exact ⟨i, j, by simp [start] at hcur; omega, hj, hem⟩
        | child key ch a be ae d =>
          have := hflat _ (List.getElem?_mem htc)
          simp [Job.flat] at this
        | pop =>
          rw [series_pop _ _ _ _ _ _ htc] at h
          obtain ⟨ts, hts, hall⟩ := ih tasks (cursor + 1) dd _ g' hflat h
          refine ⟨ts, hts, ?_⟩
          intro e he
          obtain ⟨i, j, hi, hj, hem⟩ := hall e he
          exact ⟨i, j, by omega, hj, hem⟩
        | restoreStack prev =>
          rw [series_restoreStack _ _ _ _ _ _ _ htc] at h
          obtain ⟨ts, hts, hall⟩ := ih tasks (cursor + 1) dd _ g' hflat h
          refine ⟨[Ev.restore] ++ ts, by rw [hts]; simp, ?_⟩
          intro e he
          rcases List.mem_append.1 he with he | he
          · simp only [List.mem_singleton] at he
            subst he
            exact ⟨cursor, _, Nat.le_refl _, htc, trivial⟩
          · obtain ⟨i, j, hi, hj, hem⟩ := hall e he
            exact ⟨i, j, by omega, hj, hem⟩
        | report =>
          rw [series_report _ _ _ _ _ _ htc] at h
          obtain ⟨ts, hts, hall⟩ := ih tasks (cursor + 1) dd _ g' hflat h
          refine ⟨[Ev.report g.results g.stats] ++ ts, by rw [hts]; simp, ?_⟩
          intro e he
          rcases List.mem_append.1 he with he | he
          · simp only [List.mem_singleton] at he
            subst he
            exact ⟨cursor, _, Nat.le_refl _, htc, trivial⟩
          · obtain ⟨i, j, hi, hj, hem⟩ := hall e he
            exact ⟨i, j, by omega, hj, hem⟩

theorem skipForward_append (d : Nat) (xs : List Task) (rest : List Job)
    (hx : ∀ u ∈ xs, d < u.depth) : ∀ cursor,
    skipForward d (xs.map Job.user ++ rest) cursor = skipForward d rest (cursor + xs.length) := by
  induction xs with
  | nil => intro cursor; simp
  | cons x xs ih =>
    intro cursor
    have h1 : d < x.depth := hx x (List.mem_cons_self _ _)
    have h2 := ih (fun u hu => hx u (List.mem_cons_of_mem _ hu)) (cursor + 1)
    simp only [List.map_cons, List.cons_append, skipForward, Job.error, Job.depth, Bool.true_and,
      decide_eq_true_eq, h1, if_true, List.length_cons]
    refine Eq.trans h2 ?_
    congr 1
    omega

theorem skipForward_stop (d : Nat) (j : Job) (rest : List Job) (cursor : Nat)
    (hj : j.error = false ∨ j.depth ≤ d) :
    skipForward d (j :: rest) cursor = some cursor := by
  simp only [skipForward]
  rcases hj with hj | hj
  · simp [hj]
  · have : ¬ j.depth > d := by omega
    simp [this]

theorem leafJobs_drop (pre post deep shallow : List Task) (h t : Task) :
    (leafJobs (pre ++ h :: post) t (deep ++ shallow)).drop (pre.length + 1)
      = post.map Job.user ++ (([t] ++ deep).map Job.user ++ (shallow.map Job.user ++ [Job.pop])) := by
  have : leafJobs (pre ++ h :: post) t (deep ++ shallow)
      = (pre.map Job.user ++ [Job.user h]) ++ (post.map Job.user
          ++ (([t] ++ deep).map Job.user ++ (shallow.map Job.user ++ [Job.pop]))) := by
    simp [leafJobs]
  rw [this, List.drop_append_eq_append_drop]
  simp

theorem skipForward_leaf (pre post deep shallow : List Task) (h t : Task)
    (hpost : ∀ u ∈ post, h.depth < u.depth) (ht : h.depth < t.depth)
    (hdeep : ∀ u ∈ deep, h.depth < u.depth) (hshallow : ∀ u ∈ shallow, u.depth ≤ h.depth) :
    skipForward h.depth ((leafJobs (pre ++ h :: post) t (deep ++ shallow)).drop (pre.length + 1))
        (pre.length + 1)
      = some (pre.length + 1 + post.length + 1 + deep.length) := by
  rw [leafJobs_drop, skipForward_append _ _ _ hpost, skipForward_append]
  · cases shallow with
    | nil =>
      simp only [List.map_nil, List.nil_append]
      rw [skipForward_stop _ Job.pop _ _ (Or.inl rfl)]
      simp; omega
    | cons x xs =>
      simp only [List.map_cons, List.cons_append]
      rw [skipForward_stop _ _ _ _ (Or.inr (hshallow x (List.mem_cons_self _ _)))]
      simp; omega
  · intro u hu
    simp only [List.singleton_append, List.mem_cons] at hu
    rcases hu with rfl | hu
    · exact ht
    · exact hdeep u hu

theorem leafJobs_flat (be ae : List Task) (t : Task) : ∀ j ∈ leafJobs be t ae, j.flat = true := by
  intro j hj
  simp only [leafJobs, List.mem_append, List.mem_map, List.mem_singleton] at hj
  rcases hj with ((⟨u, _, rfl⟩ | rfl) | ⟨u, _, rfl⟩) | rfl <;> rfl

theorem leafJobs_split (pre post deep shallow : List Task) (h t : Task) :
    leafJobs (pre ++ h :: post) t (deep ++ shallow)
      = (pre.map Job.user ++ [Job.user h] ++ post.map Job.user ++ [Job.user t]
          ++ deep.map Job.user) ++ (shallow.map Job.user ++ [Job.pop])
      ∧ (pre.map Job.user ++ [Job.user h] ++ post.map Job.user ++ [Job.user t]
          ++ deep.map Job.user).length = pre.length + 1 + post.length + 1 + deep.length := by
  constructor
  · simp [leafJobs]
  · simp; omega

theorem getElem?_set_self_true (l : List Bool) (a : Nat) (h : a < l.length) :
    (l.set a true)[a]?.getD false = true := by
  simp [List.getElem?_set, h]

/-! ### Invariants of a whole series -/

/-- An invariant of the globals that every step of the scheduler keeps is kept by a whole
series, nested series included, whether it ends or an exception leaves it.  `J` is what the
invariant needs to know about the tasks; it has to pass from a wrapper to its nested list. -/
theorem series_inv (only : List Nat) (P : State → Prop) (J : Job → Prop)
    (hunit : ∀ tasks t c, J (.user t) → P c.g → P (settled (unit tasks t c)).g)
    (hstart : ∀ g dd cursor, P g → P (start g dd cursor).g)
    (hidle : ∀ g : State, P g → P { g with units := g.units + 1, globalTimeout := none })
    (hpush : ∀ g key, P g → P (pushed g key))
    (henter : ∀ g spec be ae fin d, P g → P (enterSpec only spec be ae fin d g).2.2)
    (hnest : ∀ g : State, P g → P { g with globalTimeout := none })
    (hpop : ∀ g : State, P g →
      P { g with units := g.units + 1, subjects := g.subjects.dropLast, globalTimeout := none })
    (hrestore : ∀ (g : State) prev, P g →
      P { g with units := g.units + 1, globalBail := prev, globalTimeout := none,
                 trace := g.trace ++ [Ev.restore] })
    (hreport : ∀ g : State, P g →
      P { g with units := g.units + 1, globalTimeout := none,
                 trace := g.trace ++ [Ev.report g.results g.stats] })
    (hleaf : ∀ key t a be ae d, J (.child key (.inl t) a be ae d) → ∀ j ∈ leafJobs be t ae, J j)
    (hspec : ∀ key spec a be ae d g, J (.child key (.inr spec) a be ae d) →
      ∀ j ∈ (enterSpec only spec be ae Job.pop d g).1, J j) :
    ∀ (fuel : Nat) (tasks : List Job) (cursor : Nat) (dd : Delay) (g g' : State),
      (∀ j ∈ tasks, J j) → P g → (series only fuel tasks cursor dd g).state? = some g' → P g' := by
  intro fuel
  induction fuel with
  | zero => intro tasks cursor dd g g' _ _ h; simp [series, Res.state?] at h
  | succ fuel ih =>
    intro tasks cursor dd g g' hJ hP h
    by_cases hend : cursor = tasks.length
    · subst hend
      rw [series_end] at h
      simp only [Res.state?, Option.some.injEq] at h
      subst h; exact hP
    · cases htc : tasks[cursor]? with
      | none =>
        rw [series] at h
        simp only [hend, if_false, htc, Res.state?, Option.some.injEq] at h
        subst h; exact hP
      | some j =>
        have hj : J j := hJ j (List.getElem?_mem htc)
        cases j with
        | user t =>
          rw [series_user _ _ _ _ _ _ _ htc] at h
          have hu := hunit tasks t (start g dd cursor) hj (hstart g dd cursor hP)
          cases hunit' : unit tasks t (start g dd cursor) with
          | error x =>
            obtain ⟨m, c⟩ := x
            simp only [hunit', Res.state?, Option.some.injEq] at h
            subst h
            simpa [hunit', settled] using hu
          | ok c =>
            rw [hunit'] at hu
            simp only [settled] at hu
            simp only [hunit'] at h
            split_ifs at h
            · simp only [Res.state?, Option.some.injEq] at h
              subst h; exact hu
            · rw [rethrown_state] at h
              exact ih tasks c.cursor dd c.g g' hJ hu h
        | child key ch a be ae d =>
          by_cases hb : g.isBailed a = true
          · rw [series_child_bailed _ _ _ _ _ _ _ _ _ _ _ _ htc hb] at h
            exact ih tasks (cursor + 1) dd _ g' hJ (hidle g hP) h
          · rw [series_child _ _ _ _ _ _ _ _ _ _ _ _ htc (by simpa using hb)] at h
            have hnested : ∀ g2, (nestedRun only fuel ch be ae d (pushed g key)).state? = some g2 →
                P g2 := by
              intro g2 h2
              cases ch with
              | inl t =>
                exact ih _ 0 d _ g2 (hleaf key t a be ae d hj) (hpush g key hP) h2
              | inr spec =>
                simp only [nestedRun, runSpec] at h2
                exact ih _ 0 _ _ g2 (hspec key spec a be ae d _ hj)
                  (henter _ spec be ae Job.pop d (hpush g key hP)) h2
            cases hn : nestedRun only fuel ch be ae d (pushed g key) with
            | fuel => simp [hn, Res.state?] at h
            | escaped m ge =>
              simp only [hn, Res.state?, Option.some.injEq] at h
              subst h
              exact hnested _ (by rw [hn]; rfl)
            | done g2 =>
              simp only [hn] at h
              exact ih tasks (cursor + 1) dd _ g' hJ (hnest g2 (hnested _ (by rw [hn]; rfl))) h
        | pop =>
          rw [series_pop _ _ _ _ _ _ htc] at h
          exact ih tasks (cursor + 1) dd _ g' hJ (hpop g hP) h
        | restoreStack prev =>
          rw [series_restoreStack _ _ _ _ _ _ _ htc] at h
          exact ih tasks (cursor + 1) dd _ g' hJ (hrestore g prev hP) h
        | report =>
          rw [series_report _ _ _ _ _ _ htc] at h
          exact ih tasks (cursor + 1) dd _ g' hJ (hreport g hP) h

theorem isBailed_append (l : List Bool) (a : Nat) (h : l.getD a false = true) :
    (l ++ [false]).getD a false = true := by
  simp only [List.getD_eq_getElem?_getD] at h ⊢
  have hlt : a < l.length := by
    by_contra hge
    rw [List.getElem?_eq_none (by omega)] at h
    simp at h
  rw [List.getElem?_append_left hlt]
  exact h

/-- A `bailed` flag that is set stays set until the end of the run. -/
theorem series_bailed_mono (only : List Nat) (a : Nat) (fuel : Nat) (tasks : List Job)
    (cursor : Nat) (dd : Delay) (g g' : State) (hb : g.isBailed a = true)
    (h : (series only fuel tasks cursor dd g).state? = some g') : g'.isBailed a = true := by
  refine series_inv only (fun g => g.isBailed a = true) (fun _ => True) ?_ ?_ ?_ ?_ ?_ ?_ ?_ ?_ ?_
    ?_ ?_ fuel tasks cursor dd g g' (fun _ _ => trivial) hb h
  · intro tasks t c _ hP
    exact (unit_frame tasks t c).mono a (by simpa [enter, State.isBailed] using hP)
  · intro g dd cursor hP; simpa [start, State.isBailed] using hP
  · intro g hP; simpa [State.isBailed] using hP
  · intro g key hP; simpa [pushed, State.isBailed] using hP
  · intro g spec be ae fin d hP
    simp only [enterSpec, State.isBailed] at hP ⊢
    exact isBailed_append _ _ hP
  · intro g hP; simpa [State.isBailed] using hP
  · intro g hP; simpa [State.isBailed] using hP
  · intro g prev hP; simpa [State.isBailed] using hP
  · intro g hP; simpa [State.isBailed] using hP
  · intro _ _ _ _ _ _ _ _ _; trivial
  · intro _ _ _ _ _ _ _ _ _ _; trivial

/-- While the flag of an activation is set, its wrappers are passed one after the other
without anything being run. -/
theorem series_skip_bailed (only : List Nat) (fuel : Nat) (tasks : List Job) (dd : Delay)
    (a : Nat) : ∀ (k cursor : Nat) (g : State),
    (∀ i, i < k → ∃ key ch be ae d, tasks[cursor + i]? = some (.child key ch a be ae d)) →
    g.isBailed a = true →
    ∃ g2, series only (fuel + k) tasks cursor dd g = series only fuel tasks (cursor + k) dd g2
      ∧ Idle g g2 := by
  intro k
  induction k with
  | zero => intro cursor g _ _; exact ⟨g, rfl, rfl, rfl, rfl, rfl, rfl, rfl, rfl⟩
  | succ k ih =>
    intro cursor g hall hb
    obtain ⟨key, ch, be, ae, d, h0⟩ := hall 0 (Nat.succ_pos _)
    have hstep := series_child_bailed only (fuel + k) tasks cursor dd g key ch a be ae d
      (by simpa using h0) hb
    obtain ⟨g2, h2, hidle⟩ := ih (cursor + 1)
      { g with units := g.units + 1, globalTimeout := none }
      (fun i hi => by
        obtain ⟨key, ch, be, ae, d, h⟩ := hall (i + 1) (by omega)
        exact ⟨key, ch, be, ae, d, by rw [← h]; congr 1; omega⟩)
      (by simpa [State.isBailed] using hb)
    refine ⟨g2, ?_, ?_⟩
    · rw [show fuel + (k + 1) = fuel + k + 1 by omega, hstep, h2]
      congr 1
      omega
    · simpa [Idle] using hidle

theorem wrappers_child (only : List Nat) (spec : Spec) (a : Nat) (be ae : List Task) (dd : Delay)
    (j : Job) (h : j ∈ wrappers only spec a be ae dd) :
    ∃ key ch, j = .child key ch a be ae dd ∧ (key, ch) ∈ spec.children
      ∧ selected only ch = true := by
  simp only [wrappers, List.mem_filterMap] at h
  obtain ⟨kv, hkv, hj⟩ := h
  split_ifs at hj with hs
  simp only [Option.some.injEq] at hj
  refine ⟨kv.1, kv.2, hj.symm, ?_, hs⟩
  simp only [objectKeys, List.mem_append] at hkv
  rcases hkv with hkv | hkv
  · exact (List.mem_filter.1 ((List.perm_insertionSort _ _).subset hkv)).1
  · exact (List.mem_filter.1 hkv).1

theorem runSpecJobs_wrapper (only : List Nat) (spec : Spec) (a : Nat) (be ae : List Task)
    (prev : Option Nat) (fin : Job) (dd : Delay) (i : Nat)
    (hi : i < (wrappers only spec a be ae dd).length) :
    ∃ key ch, (runSpecJobs only spec a be ae prev fin dd)[spec.before.length + i]?
      = some (.child key ch a be ae dd) := by
  have h1 : (runSpecJobs only spec a be ae prev fin dd)[spec.before.length + i]?
      = (wrappers only spec a be ae dd)[i]? := by
    simp only [runSpecJobs, List.append_assoc]
    rw [List.getElem?_append_right (by simp), List.getElem?_append_left (by simpa using hi)]
    simp
  have h2 : (wrappers only spec a be ae dd)[i]? = some ((wrappers only spec a be ae dd)[i]) :=
    List.getElem?_eq_getElem hi
  obtain ⟨key, ch, hj, _⟩ := wrappers_child only spec a be ae dd _ (List.getElem_mem hi)
  exact ⟨key, ch, by rw [h1, h2, hj]⟩

theorem runSpecJobs_after (only : List Nat) (spec : Spec) (a : Nat) (be ae : List Task)
    (prev : Option Nat) (fin : Job) (dd : Delay) (ah : Task) (hafter : spec.after = [ah]) :
    (runSpecJobs only spec a be ae prev fin dd)[spec.before.length
        + (wrappers only spec a be ae dd).length]? = some (.user ah)
    ∧ (runSpecJobs only spec a be ae prev fin dd)[spec.before.length
        + (wrappers only spec a be ae dd).length + 1]? = some (.restoreStack prev)
    ∧ (runSpecJobs only spec a be ae prev fin dd)[spec.before.length
        + (wrappers only spec a be ae dd).length + 2]? = some fin := by
  have hsplit : runSpecJobs only spec a be ae prev fin dd
      = (spec.before.map Job.user ++ wrappers only spec a be ae dd)
        ++ [Job.user ah, Job.restoreStack prev, fin] := by
    simp [runSpecJobs, hafter]
  have hlen : (spec.before.map Job.user ++ wrappers only spec a be ae dd).length
      = spec.before.length + (wrappers only spec a be ae dd).length := by simp
  refine ⟨?_, ?_, ?_⟩
  · rw [hsplit, List.getElem?_append_right (by rw [hlen]), hlen, Nat.sub_self]; rfl
  · rw [hsplit, List.getElem?_append_right (by rw [hlen]; omega), hlen,
      Nat.add_sub_cancel_left]; rfl
  · rw [hsplit, List.getElem?_append_right (by rw [hlen]; omega), hlen,
      Nat.add_sub_cancel_left]; rfl

theorem live_start (g : State) (dd : Delay) (cursor : Nat) : Live (start g dd cursor) := by
  simp [Live, start]

/-- A unit that is not a `beforeEach` hook and returns without an exception hands over to
the task that follows it. -/
theorem series_user_next (only : List Nat) (fuel : Nat) (tasks : List Job) (cursor : Nat)
    (dd : Delay) (g : State) (t : Task) (c : Ctx) (h : tasks[cursor]? = some (.user t))
    (hk : t.hookName ≠ some HookName.beforeEach)
    (hu : unit tasks t (start g dd cursor) = .ok c) :
    series only (fuel + 1) tasks cursor dd g
      = rethrown (viaThen t c) (series only fuel tasks (cursor + 1) dd c.g) := by
  rw [series_user _ _ _ _ _ _ _ h, hu]
  have h1 := unit_ok tasks t _ c (live_start g dd cursor) hu
  have h2 := (unit_frame tasks t (start g dd cursor)).keep hk
  rw [hu] at h2
  simp only [settled, enter, start] at h2
  simp only [show c.nexts ≠ 0 by omega, if_false, h2]

theorem finalize_bails (tasks : List Job) (task : Job) (err : Option Thrown) (c : Ctx)
    (cur : Task) (label : String) (a : Nat) (text : String)
    (hfin : c.u.isFinalized = false) (hcur : c.g.globalTestOrHook = some (cur, label))
    (hbail : c.g.globalBail = some a) (ha : a < c.g.bailed.length)
    (herr : errorText err = .ok text) :
    (settled (finalize tasks task err true false c)).g.isBailed a = true
      ∧ (settled (finalize tasks task err true false c)).g.stats.bailCount
          = c.g.stats.bailCount + 1 := by
  simp only [finalize, hfin, Bool.false_eq_true, if_false, if_true, Assertion, hcur, herr, fail,
    globalBail, hbail]
  generalize skipForward task.depth (List.drop c.cursor tasks) c.cursor = sk
  cases sk <;> split_ifs <;> simp [settled, State.isBailed, List.getElem?_set, ha]

/-- Once the flag of an activation is set, the series of its group passes the remaining
wrappers without running anything and enters the body of the `after` hook. -/
theorem bailed_reaches_after (only : List Nat) (spec : Spec) (a : Nat) (be ae : List Task)
    (prev : Option Nat) (fin : Job) (dd : Delay) (fuel : Nat) (g : State) (i : Nat) (ah : Task)
    (hi : i ≤ (wrappers only spec a be ae dd).length) (hb : g.isBailed a = true)
    (hafter : spec.after = [ah]) :
    ∃ g2, series only (fuel + ((wrappers only spec a be ae dd).length - i))
          (runSpecJobs only spec a be ae prev fin dd) (spec.before.length + i) dd g
        = series only fuel (runSpecJobs only spec a be ae prev fin dd)
            (spec.before.length + (wrappers only spec a be ae dd).length) dd g2
      ∧ Idle g g2
      ∧ (runSpecJobs only spec a be ae prev fin dd)[spec.before.length
            + (wrappers only spec a be ae dd).length]? = some (.user ah)
      ∧ (settled (unit (runSpecJobs only spec a be ae prev fin dd) ah
            (start g2 dd (spec.before.length + (wrappers only spec a be ae dd).length)))).g.trace
          = g.trace ++ [Ev.call ah.fn.id ah.hookName (context g.subjects ah)] := by
  obtain ⟨g2, h2, hidle⟩ := series_skip_bailed only fuel (runSpecJobs only spec a be ae prev fin dd)
    dd a ((wrappers only spec a be ae dd).length - i) (spec.before.length + i) g
    (fun k hk => by
      obtain ⟨key, ch, h⟩ := runSpecJobs_wrapper only spec a be ae prev fin dd (i + k) (by omega)
      exact ⟨key, ch, be, ae, dd, by rw [← h]; congr 1; omega⟩)
    hb
  refine ⟨g2, ?_, hidle, (runSpecJobs_after only spec a be ae prev fin dd ah hafter).1, ?_⟩
  · rw [h2]; congr 1; omega
  · rw [(unit_trace _ _ _).1]
    obtain ⟨h3, _, _, _, h4, _, _⟩ := hidle
    simp only [start, h3, h4]

theorem rethrown_done (b : Bool) (r : Res) (g : State) (h : r = .done g) :
    rethrown b r = .done g := by
  subst h; rfl

/-- A unit that passes hands over to the next task with the trace extended by its call and
the flags, the path stack and the installed closures unchanged. -/
theorem series_pass (only : List Nat) (tasks : List Job) (cursor : Nat) (dd : Delay) (g : State)
    (u : Task) (h : tasks[cursor]? = some (.user u)) (hp : Passes u) :
    ∃ g1, g1.trace = g.trace ++ [callOf g.subjects u] ∧ g1.subjects = g.subjects
      ∧ g1.bailed = g.bailed ∧ g1.globalBail = g.globalBail
      ∧ g1.stats.bailCount = g.stats.bailCount
      ∧ ∀ fuel g', series only fuel tasks (cursor + 1) dd g1 = .done g' →
          series only (fuel + 1) tasks cursor dd g = .done g' := by
  obtain ⟨c, hu, hbc⟩ := hp tasks (start g dd cursor) rfl rfl rfl rfl
  have hf := unit_frame tasks u (start g dd cursor)
  rw [hu] at hf
  simp only [settled] at hf
  have hstay := hf.stay (by simpa [enter] using hbc)
  have hn := unit_ok tasks u _ c (live_start g dd cursor) hu
  refine ⟨c.g, ?_, ?_, ?_, ?_, ?_, ?_⟩
  · rw [hf.trace]; rfl
  · rw [hf.subjects]; rfl
  · rw [hstay.2]; rfl
  · rw [hf.globalBail]; rfl
  · rw [hbc]; rfl
  · intro fuel g' hrest
    rw [series_user _ _ _ _ _ _ _ h, hu]
    have hc : c.cursor = cursor + 1 := by rw [hstay.1]; rfl
    simp only [show c.nexts ≠ 0 by omega, if_false, hc]
    exact rethrown_done _ _ _ hrest

/-- A run of passing units, one after the other. -/
theorem series_passing (only : List Nat) (dd : Delay) (us : List Task) :
    ∀ (pre rest : List Job) (g : State), (∀ u ∈ us, Passes u) →
    ∃ g1, g1.trace = g.trace ++ us.map (callOf g.subjects) ∧ g1.subjects = g.subjects
      ∧ g1.bailed = g.bailed ∧ g1.globalBail = g.globalBail
      ∧ g1.stats.bailCount = g.stats.bailCount
      ∧ ∀ fuel g', series only fuel (pre ++ (us.map Job.user ++ rest)) (pre.length + us.length)
            dd g1 = .done g' →
          series only (fuel + us.length) (pre ++ (us.map Job.user ++ rest)) pre.length dd g
            = .done g' := by
  induction us with
  | nil =>
    intro pre rest g _
    exact ⟨g, by simp, rfl, rfl, rfl, rfl, fun fuel g' h => by simpa using h⟩
  | cons u us ih =>
    intro pre rest g hp
    have hjob : (pre ++ ((u :: us).map Job.user ++ rest))[pre.length]? = some (.user u) := by
      rw [List.getElem?_append_right (Nat.le_refl _)]
      simp
    obtain ⟨g1, t1, s1, b1, gb1, bc1, hstep⟩ := series_pass only _ pre.length dd g u hjob
      (hp u (List.mem_cons_self _ _))
    have hlist : pre ++ ((u :: us).map Job.user ++ rest)
        = (pre ++ [Job.user u]) ++ (us.map Job.user ++ rest) := by simp
    obtain ⟨g2, t2, s2, b2, gb2, bc2, hrest⟩ := ih (pre ++ [Job.user u]) rest g1
      (fun v hv => hp v (List.mem_cons_of_mem _ hv))
    refine ⟨g2, ?_, s2.trans s1, b2.trans b1, gb2.trans gb1, bc2.trans bc1, ?_⟩
    · rw [t2, t1, s1]; simp
    · intro fuel g' hdone
      have h3 := hrest fuel g' (by
        rw [← hlist]
        simpa [Nat.add_assoc, Nat.add_comm 1] using hdone)
      rw [← hlist] at h3
      have h4 := hstep (fuel + us.length) g' (by simpa using h3)
      simpa [Nat.add_assoc, Nat.add_comm 1] using h4

theorem foldl_inherit (path : List Spec) : ∀ (b a : List Task),
    path.foldl inherit (b, a)
      = (b ++ path.flatMap Spec.beforeEach, path.reverse.flatMap Spec.afterEach ++ a) := by
  induction path with
  | nil => intro b a; simp
  | cons s path ih =>
    intro b a
    simp only [List.foldl_cons, inherit, ih, List.flatMap_cons, List.reverse_cons,
      List.flatMap_append, List.append_assoc, List.flatMap_nil, List.append_nil]

theorem chains_eq (path : List Spec) :
    (chains path).1 = path.flatMap Spec.beforeEach
      ∧ (chains path).2 = path.reverse.flatMap Spec.afterEach := by
  simp [chains, foldl_inherit]

/-- The series of a leaf test whose hooks and body all pass: every body is entered once, in
the order of the list, then `pop` runs and the series ends. -/
theorem leaf_passing (only : List Nat) (be ae : List Task) (t : Task) (dd : Delay) (g : State)
    (k : Nat) (hp : ∀ u ∈ be ++ [t] ++ ae, Passes u) :
    ∃ g', series only (k + 2 + (be ++ [t] ++ ae).length) (leafJobs be t ae) 0 dd g = .done g'
      ∧ g'.trace = g.trace ++ (be ++ [t] ++ ae).map (callOf g.subjects)
      ∧ g'.stats.bailCount = g.stats.bailCount ∧ g'.bailed = g.bailed
      ∧ g'.subjects = g.subjects.dropLast := by
  obtain ⟨g1, t1, s1, b1, _, bc1, hrun⟩ :=
    series_passing only dd (be ++ [t] ++ ae) [] [Job.pop] g hp
  have hlist : leafJobs be t ae = [] ++ ((be ++ [t] ++ ae).map Job.user ++ [Job.pop]) := by
    simp [leafJobs]
  have hpop : ([] ++ ((be ++ [t] ++ ae).map Job.user ++ [Job.pop]))[(be ++ [t] ++ ae).length]?
      = some Job.pop := by
    rw [List.nil_append, List.getElem?_append_right (by simp)]
    simp
  have hlen : ([] ++ ((be ++ [t] ++ ae).map Job.user ++ [Job.pop])).length
      = (be ++ [t] ++ ae).length + 1 := by simp; omega
  refine ⟨{ g1 with units := g1.units + 1, subjects := g1.subjects.dropLast,
                    globalTimeout := none }, ?_, t1, bc1, b1, by rw [s1]⟩
  rw [hlist]
  have h := hrun (k + 2) _ (by
    rw [show ([] : List Job).length + (be ++ [t] ++ ae).length = (be ++ [t] ++ ae).length by simp,
      show k + 2 = (k + 1) + 1 by omega, series_pop only (k + 1) _ _ dd g1 hpop, ← hlen,
      series_end])
  simpa using h

/-- A body without parameters and without statements that returns `undefined` passes. -/
theorem passes_empty (u : Task) (h1 : u.fn.acts = []) (h2 : u.fn.length = 0)
    (h3 : u.fn.thenable = false) : Passes u := by
  intro tasks c hfin _ _ _
  simp [unit, tryBody, h1, runBody, returned, h2, h3, finalize, enter, hfin, becomeAsync]

theorem filtered_leaf (only : List Nat) (key : String) (t : Task) (a : Nat) (be ae : List Task)
    (d : Delay) (h : Filtered only (.child key (.inl t) a be ae d)) :
    ∀ j ∈ leafJobs be t ae, Filtered only j := by
  obtain ⟨h1, h2, h3⟩ := h
  intro j hj
  simp only [leafJobs, List.mem_append, List.mem_map, List.mem_singleton] at hj
  rcases hj with ((⟨u, hu, rfl⟩ | rfl) | ⟨u, hu, rfl⟩) | rfl
  · intro hn; exact absurd hn (h3 u (List.mem_append_left _ hu))
  · intro _; exact h2
  · intro hn; exact absurd hn (h3 u (List.mem_append_right _ hu))
  · trivial

theorem filtered_enter (only : List Nat) (hne : only ≠ []) (spec : Spec) (be ae : List Task)
    (fin : Job) (d : Delay) (g : State) (hwf : WellFormed spec)
    (hch : ∀ h ∈ be ++ ae, h.hookName ≠ none) (hfin : Filtered only fin) :
    ∀ j ∈ (enterSpec only spec be ae fin d g).1, Filtered only j := by
  cases hwf with
  | mk b be0 a0 ae0 t children hhooks htests hspecs =>
    have hch' : ∀ h ∈ (inherit (be, ae) (Spec.mk b be0 a0 ae0 t children)).1
        ++ (inherit (be, ae) (Spec.mk b be0 a0 ae0 t children)).2, h.hookName ≠ none := by
      intro h hh
      simp only [inherit, Spec.beforeEach, Spec.afterEach, List.mem_append] at hh
      rcases hh with (hh | hh) | (hh | hh)
      · exact hch h (List.mem_append_left _ hh)
      · exact hhooks h (by simp [hh])
      · exact hhooks h (by simp [hh])
      · exact hch h (List.mem_append_right _ hh)
    intro j hj
    simp only [enterSpec, runSpecJobs, List.mem_append, List.mem_map, List.mem_cons,
      List.mem_singleton, List.not_mem_nil, or_false] at hj
    rcases hj with ((⟨u, hu, rfl⟩ | hw) | ⟨u, hu, rfl⟩) | rfl | rfl
    · intro hn
      exact absurd hn (hhooks u (by simp only [Spec.before] at hu; simp [hu]))
    · obtain ⟨key, ch, rfl, hmem, hsel⟩ := wrappers_child _ _ _ _ _ _ _ hw
      cases ch with
      | inl tk =>
        refine ⟨htests key tk hmem, ?_, hch'⟩
        have hlen : (only.length == 0) = false := by
          cases only with
          | nil => exact absurd rfl hne
          | cons x xs => rfl
        simp only [selected, hlen, Bool.false_or, Bool.or_false] at hsel
        exact List.mem_of_elem_eq_true hsel
      | inr s => exact ⟨hspecs key s hmem, hch'⟩
    · intro hn
      exact absurd hn (hhooks u (by simp only [Spec.after] at hu; simp [hu]))
    · trivial
    · exact hfin

/-- In `only` mode every test body that is entered belongs to a function of `only`. -/
theorem series_only (only : List Nat) (hne : only ≠ []) (fuel : Nat) (tasks : List Job)
    (cursor : Nat) (dd : Delay) (g g' : State) (hJ : ∀ j ∈ tasks, Filtered only j)
    (hP : OnlyRan only g) (h : (series only fuel tasks cursor dd g).state? = some g') :
    OnlyRan only g' := by
  refine series_inv only (OnlyRan only) (Filtered only) ?_ ?_ ?_ ?_ ?_ ?_ ?_ ?_ ?_ ?_ ?_
    fuel tasks cursor dd g g' hJ hP h
  · intro tasks t c hj hP fn label hmem
    rw [(unit_trace tasks t c).1, List.mem_append, List.mem_singleton] at hmem
    rcases hmem with hmem | hmem
    · exact hP fn label hmem
    · simp only [Ev.call.injEq] at hmem
      obtain ⟨h1, h2, _⟩ := hmem
      rw [h1]
      exact hj h2.symm
  · intro g dd cursor hP; exact hP
  · intro g hP; exact hP
  · intro g key hP; exact hP
  · intro g spec be ae fin d hP; exact hP
  · intro g hP; exact hP
  · intro g hP; exact hP
  · intro g prev hP fn label hmem
    simp only [List.mem_append, List.mem_singleton] at hmem
    rcases hmem with hmem | hmem
    · exact hP fn label hmem
    · cases hmem
  · intro g hP fn label hmem
    simp only [List.mem_append, List.mem_singleton] at hmem
    rcases hmem with hmem | hmem
    · exact hP fn label hmem
    · cases hmem
  · intro key t a be ae d hj; exact filtered_leaf only key t a be ae d hj
  · intro key spec a be ae d g hj
    exact filtered_enter only hne spec be ae Job.pop d g hj.1 hj.2 trivial

theorem rethrown_false (r : Res) : rethrown false r = r := by
  cases r <;> simp [rethrown]

/-- What the timer callback does to a unit that is not finalized. -/
theorem timerFires_result (tasks : List Job) (task : Job) (c : Ctx) (t : Task) (label : String)
    (hfin : c.u.isFinalized = false) (hcur : c.g.globalTestOrHook = some (t, label)) :
    ∃ c' r, timerFires tasks task c = .ok c'
      ∧ c'.g.results = c.g.results ++ [r] ∧ r.pass = false ∧ r.task = t.fn.id
      ∧ r.message = "async test timed out after " ++ c.u.delay.text
          ++ "ms\nWarning: assertions starting with `???` may not be properly labelled"
      ∧ c'.u.isFinalized = true ∧ c'.nexts = c.nexts + 1
      ∧ c'.g.bailed = c.g.bailed ∧ c'.g.stats = c.g.stats ∧ c'.g.globalBail = c.g.globalBail
      ∧ c'.cursor = c.cursor ∧ c'.g.subjects = c.g.subjects := by
  simp [timerFires, finalize, Assertion, fail, hfin, hcur, modify_append_last, errorText,
    Thrown.text]

/-! ### The definition calls -/

theorem stars_succ (s : String) (k : Nat) : s ++ "*" ++ stars k = s ++ stars (k + 1) := by
  rw [String.append_assoc]
  congr 1

theorem stars_zero (s : String) : s ++ stars 0 = s := by
  apply String.ext
  simp [stars]

theorem stars_length (s : String) (k : Nat) : (s ++ stars k).length = s.length + k := by
  simp [stars]

theorem hasOwn_iff (children : List (String × (Task ⊕ Spec))) (x : String) :
    hasOwn children x = true ↔ x ∈ children.map Prod.fst := by
  simp only [hasOwn, List.any_eq_true, beq_iff_eq, List.mem_map]

/-- The loop stops at the first name that is free, or when the bound is used up. -/
theorem uniqueLoop_spec (children : List (String × (Task ⊕ Spec))) :
    ∀ (n : Nat) (s : String), ∃ k, k ≤ n ∧ uniqueLoop children n s = s ++ stars k
      ∧ (∀ j, j < k → hasOwn children (s ++ stars j) = true)
      ∧ (k < n → hasOwn children (s ++ stars k) = false) := by
  intro n
  induction n with
  | zero =>
    intro s
    exact ⟨0, Nat.le_refl _, by simp [uniqueLoop, stars_zero], by simp, by simp⟩
  | succ n ih =>
    intro s
    by_cases h : hasOwn children s = true
    · obtain ⟨k, hk, he, hlt, hfree⟩ := ih (s ++ "*")
      refine ⟨k + 1, by omega, ?_, ?_, ?_⟩
      · simp only [uniqueLoop, h, if_true]
        rw [he, stars_succ]
      · intro j hj
        cases j with
        | zero => rw [stars_zero]; exact h
        | succ j => rw [← stars_succ]; exact hlt j (by omega)
      · intro hkn
        rw [← stars_succ]
        exact hfree (by omega)
    · refine ⟨0, by omega, ?_, by simp, ?_⟩
      · simp only [uniqueLoop, h]
        simp [stars_zero]
      · intro _
        rw [stars_zero]
        simpa using h

/-- Fewer than `k` names can not all be taken when `k` exceeds the number of children. -/
theorem taken_lt (children : List (String × (Task ⊕ Spec))) (s : String) (k : Nat)
    (h : ∀ j, j < k → hasOwn children (s ++ stars j) = true) : k ≤ children.length := by
  by_contra hk
  have hsub : (Finset.range k).image (fun j => s ++ stars j)
      ⊆ (children.map Prod.fst).toFinset := by
    intro x hx
    simp only [Finset.mem_image, Finset.mem_range] at hx
    obtain ⟨j, hj, rfl⟩ := hx
    simpa using (hasOwn_iff children _).1 (h j hj)
  have hinj : Function.Injective (fun j => s ++ stars j) := by
    intro a b hab
    have := congrArg String.length hab
    simp only [stars_length] at this
    omega
  have h1 := Finset.card_le_card hsub
  rw [Finset.card_image_of_injective _ hinj, Finset.card_range] at h1
  have h2 := List.toFinset_card_le (children.map Prod.fst)
  simp only [List.length_map] at h2
  omega

theorem uniqueLoop_stable (children : List (String × (Task ⊕ Spec))) :
    ∀ (n m : Nat) (s : String), hasOwn children (uniqueLoop children n s) = false →
      uniqueLoop children (n + m) s = uniqueLoop children n s := by
  intro n
  induction n with
  | zero =>
    intro m s h
    simp only [uniqueLoop] at h
    cases m with
    | zero => rfl
    | succ m => simp [uniqueLoop, h]
  | succ n ih =>
    intro m s h
    rw [Nat.add_right_comm]
    simp only [uniqueLoop] at h ⊢
    split_ifs with hs
    · rw [if_pos hs] at h
      exact ih m _ h
    · rfl

/-- The name `unique` returns: the least number of `*` that gives a free name. -/
theorem unique_spec (children : List (String × (Task ⊕ Spec))) (s : String) :
    ∃ k, unique children s = s ++ stars k
      ∧ (∀ j, j < k → hasOwn children (s ++ stars j) = true)
      ∧ hasOwn children (unique children s) = false := by
  obtain ⟨k, _, he, hlt, hfree⟩ := uniqueLoop_spec children (children.length + 1) s
  have hk := taken_lt children s k hlt
  exact ⟨k, he, hlt, by rw [unique, he]; exact hfree (by omega)⟩

theorem setChild_fresh (children : List (String × (Task ⊕ Spec))) (key : String)
    (value : Task ⊕ Spec) (h : hasOwn children key = false) :
    setChild children key value = children ++ [(key, value)] := by
  simp [setChild, h]

theorem setChild_last (children : List (String × (Task ⊕ Spec))) (key : String)
    (v w : Task ⊕ Spec) (h : hasOwn children key = false) :
    setChild (children ++ [(key, v)]) key w = children ++ [(key, w)] := by
  have h1 : hasOwn (children ++ [(key, v)]) key = true := by simp [hasOwn]
  have h2 : ∀ kv ∈ children, (kv.1 == key) = false := by
    intro kv hm
    cases hk : kv.1 == key with
    | false => rfl
    | true =>
      have : hasOwn children key = true := by
        simp only [hasOwn, List.any_eq_true]
        exact ⟨kv, hm, hk⟩
      rw [h] at this
      exact absurd this (by simp)
  simp only [setChild, h1, if_true, List.map_append, List.map_cons, List.map_nil, beq_self_eq_true]
  congr 1
  conv_rhs => rw [← List.map_id children]
  apply List.map_congr_left
  intro kv hm
  simp [h2 kv hm]

theorem hook_hooks (spec : Spec) (name : HookName) :
    (match spec with
      | .mk b be a ae _ _ =>
        match name with
        | .before => b
        | .beforeEach => be
        | .after => a
        | .afterEach => ae) = spec.hooks name := by
  cases spec; cases name <;> rfl

/-! ### The cursor stays inside the task list -/

theorem below_refl (tasks : List Job) (c : Ctx) : Below tasks c c :=
  fun _ _ _ _ h => h

theorem below_trans {tasks : List Job} {a b c : Ctx} (h1 : Below tasks a b)
    (h2 : Below tasks b c) : Below tasks a c :=
  fun i j hi hj h => h2 i j hi hj (h1 i j hi hj h)

theorem below_same {tasks : List Job} {c c' : Ctx} (h : c'.cursor = c.cursor) :
    Below tasks c c' :=
  fun _ _ _ _ hc => by rw [h]; exact hc

theorem skipForward_bound (depth : Nat) : ∀ (l : List Job) (cursor k n : Nat) (j : Job),
    skipForward depth l cursor = some k → l[n]? = some j → j.error = false → k ≤ cursor + n := by
  intro l
  induction l with
  | nil => intro cursor k n j h; simp [skipForward] at h
  | cons x rest ih =>
    intro cursor k n j h hn hj
    simp only [skipForward] at h
    split_ifs at h with hx
    · cases n with
      | zero =>
        simp only [List.getElem?_cons_zero, Option.some.injEq] at hn
        subst hn
        simp [hj] at hx
      | succ n =>
        simp only [List.getElem?_cons_succ] at hn
        have := ih (cursor + 1) k n j h hn hj
        omega
    · simp only [Option.some.injEq] at h
      omega

theorem finalize_below (tasks : List Job) (task : Job) (err : Option Thrown)
    (threw isTimeout : Bool) (c : Ctx) :
    Below tasks c (settled (finalize tasks task err threw isTimeout c)) := by
  unfold finalize
  by_cases hf : c.u.isFinalized = true
  · simp only [hf, if_true, settled]; exact below_refl _ c
  · simp only [hf]
    cases threw
    · simp only [Bool.false_eq_true, if_false, settled]
      exact below_same rfl
    · simp only [if_true]
      cases hA : Assertion c.g with
      | error m => simp only [settled]; exact below_same rfl
      | ok p =>
        obtain ⟨i, g⟩ := p
        simp only
        cases hE : errorText err with
        | error m => simp only [settled]; exact below_same rfl
        | ok text =>
        simp only
        cases isTimeout
        · simp only [Bool.false_eq_true, if_false]
          cases hB : globalBail (fail i text g) with
          | error m => simp only [settled]; exact below_same rfl
          | ok g1 =>
            simp only
            split_ifs with hhook
            · cases hS : skipForward task.depth (List.drop c.cursor tasks) c.cursor with
              | none => simp only [settled]; exact below_same rfl
              | some k =>
                simp only [settled]
                intro n j hn hj hc
                have hb := skipForward_bound _ _ _ _ (n - c.cursor) j hS
                  (by rw [List.getElem?_drop, Nat.add_sub_cancel' hc]; exact hn) hj
                simp only
                omega
            · simp only [settled]; exact below_same rfl
        · simp only [if_true, settled]; exact below_same rfl

theorem _done_below (tasks : List Job) (task : Job) (err : Option Thrown) (threw : Bool)
    (c : Ctx) : Below tasks c (settled (_done tasks task err threw c)) := by
  unfold _done
  split_ifs
  · exact below_refl _ c
  · exact below_same rfl
  · refine below_trans ?_ (finalize_below _ _ _ _ _ _)
    exact below_same rfl

theorem timerFires_below (tasks : List Job) (task : Job) (c : Ctx) :
    Below tasks c (settled (timerFires tasks task c)) := by
  unfold timerFires
  refine below_trans ?_ (finalize_below _ _ _ _ _ _)
  exact below_same rfl

theorem timeout_below (tasks : List Job) (t : Option Delay) (c : Ctx) :
    Below tasks c (settled (timeout t c)) := by
  unfold timeout
  repeat' split
  all_goals (simp only [settled]; exact below_same rfl)

theorem exec_below (tasks : List Job) (task : Job) (fn : Fn) (a : Action) (c : Ctx) :
    Below tasks c (raised (exec tasks task fn a c)) := by
  cases a with
  | plain verb success self value userMsg =>
    simp only [exec]
    cases hA : Assertion c.g with
    | error m => exact below_refl _ c
    | ok p =>
      obtain ⟨i, g⟩ := p
      simp only
      split_ifs <;> exact below_same rfl
  | satisfies res =>
    simp only [exec]
    cases hA : Assertion c.g with
    | error m => exact below_refl _ c
    | ok p =>
      obtain ⟨i, g⟩ := p
      simp only
      repeat' split
      all_goals exact below_same rfl
  | notSatisfies res =>
    simp only [exec]
    cases hA : Assertion c.g with
    | error m => exact below_refl _ c
    | ok p =>
      obtain ⟨i, g⟩ := p
      simp only
      repeat' split
      all_goals exact below_same rfl
  | timeout t =>
    have h1 := timeout_below tasks t c
    simp only [exec]
    split <;> rename_i heq <;> simpa [heq, settled, raised] using h1
  | done err =>
    have h1 := _done_below tasks task err err.isSome c
    simp only [exec, done]
    split_ifs
    · exact below_refl _ c
    · split <;> rename_i heq <;> simpa [heq, settled, raised] using h1
  | throw e => exact below_refl _ c

theorem runBody_below (tasks : List Job) (task : Job) (fn : Fn) (acts : List Action) :
    ∀ c : Ctx, Below tasks c (raised (runBody tasks task fn acts c)) := by
  induction acts with
  | nil => intro c; exact below_refl _ c
  | cons a rest ih =>
    intro c
    have h1 := exec_below tasks task fn a c
    simp only [runBody]
    split
    · rename_i c' heq
      exact below_trans (by simpa [heq, raised] using h1) (ih c')
    · rename_i x heq
      obtain ⟨e, c'⟩ := x
      simpa [heq, raised] using h1

theorem tryBody_below (tasks : List Job) (t : Task) (c : Ctx) :
    Below tasks c (settled (tryBody tasks t c)) := by
  have h1 := runBody_below tasks (.user t) t.fn t.fn.acts c
  unfold tryBody
  split
  · rename_i e c' heq
    exact below_trans (by simpa [heq, raised] using h1) (finalize_below _ _ _ _ _ _)
  · rename_i c' heq
    have h2 : Below tasks c c' := by simpa [heq, raised] using h1
    have h3 : Below tasks c' (settled (returned tasks t c')) := by
      unfold returned
      split_ifs
      · exact below_refl _ _
      · exact finalize_below _ _ _ _ _ _
    split
    · rename_i m c'' heq2
      refine below_trans (below_trans h2 ?_) (finalize_below _ _ _ _ _ _)
      simpa [heq2, settled] using h3
    · rename_i c'' heq2
      refine below_trans (below_trans h2 (by simpa [heq2, settled] using h3)) ?_
      unfold becomeAsync
      split_ifs
      · exact below_refl _ _
      · exact below_same rfl

theorem late_below (tasks : List Job) (t : Task) (c : Ctx) :
    Below tasks c (settled (late tasks t c)) := by
  unfold late
  split
  · exact timerFires_below _ _ _
  · split_ifs
    · exact _done_below _ _ _ _ _
    · exact timerFires_below _ _ _
  · rename_i r _
    split_ifs
    · have h1 := _done_below tasks (.user t) r r.isSome c
      split
      · rename_i c' heq; simpa [heq, settled] using h1
      · rename_i m c' heq
        refine below_trans ?_ (finalize_below _ _ _ _ _ _)
        simpa [heq, settled] using h1
    · exact timerFires_below _ _ _

theorem unit_below (tasks : List Job) (t : Task) (c : Ctx) :
    Below tasks c (settled (unit tasks t c)) := by
  have h1 : Below tasks c (settled (tryBody tasks t (enter t c))) :=
    below_trans (below_same rfl) (tryBody_below tasks t (enter t c))
  unfold unit
  split
  · rename_i x heq
    obtain ⟨m, c1⟩ := x
    simpa [heq, settled] using h1
  · rename_i c1 heq
    have h2 : Below tasks c c1 := by simpa [heq, settled] using h1
    split_ifs
    · exact below_trans h2 (below_same rfl)
    · refine below_trans h2 (below_trans ?_ (late_below _ _ _))
      exact below_same rfl

/-! ### The scope of a `runSpec` activation -/

theorem rethrown_eq_done (b : Bool) (r : Res) (g : State) (h : rethrown b r = .done g) :
    r = .done g := by
  cases r with
  | done g2 => simpa [rethrown] using h
  | escaped m g2 =>
    simp only [rethrown] at h
    split_ifs at h
  | fuel => simp [rethrown] at h

/-- A unit that returns to the scheduler has asked for `next`: the series goes on at the
cursor the unit left. -/
theorem series_user_ok (only : List Nat) (fuel : Nat) (tasks : List Job) (cursor : Nat)
    (dd : Delay) (g : State) (t : Task) (c : Ctx) (h : tasks[cursor]? = some (.user t))
    (hu : unit tasks t (start g dd cursor) = .ok c) :
    series only (fuel + 1) tasks cursor dd g
      = rethrown (viaThen t c) (series only fuel tasks c.cursor dd c.g) := by
  rw [series_user _ _ _ _ _ _ _ h, hu]
  have h1 := unit_ok tasks t _ c (live_start g dd cursor) hu
  simp only
  rw [if_neg (by omega)]

theorem getElem?_append_head {α : Type} (body : List α) (x : α) (rest : List α) :
    (body ++ x :: rest)[body.length]? = some x := by
  rw [List.getElem?_append_right (Nat.le_refl _), Nat.sub_self]
  simp

theorem getElem?_append_second {α : Type} (body : List α) (x y : α) (rest : List α) :
    (body ++ x :: y :: rest)[body.length + 1]? = some y := by
  rw [List.getElem?_append_right (Nat.le_succ _)]
  have : body.length + 1 - body.length = 1 := by omega
  rw [this]
  simp

theorem closing_head (tail : List Job) (inside after : Option Nat) (h : Closing tail inside after)
    (body : List Job) :
    ∃ j, (body ++ tail)[body.length]? = some j ∧ j.error = false := by
  cases h <;> exact ⟨_, getElem?_append_head _ _ _, rfl⟩

/-- The closing tasks of a list run to the end of the list: `globalBail` becomes the one the
list was entered with, the `bailed` flags stay. -/
theorem series_closing (only : List Nat) (fuel : Nat) (body tail : List Job)
    (inside after : Option Nat) (dd : Delay) (g g' : State) (hc : Closing tail inside after)
    (hg : g.globalBail = inside)
    (h : (series only fuel (body ++ tail) body.length dd g).state? = some g') :
    series only fuel (body ++ tail) body.length dd g = .done g'
      ∧ g'.bailed = g.bailed ∧ g'.globalBail = after := by
  cases hc with
  | leaf =>
    cases fuel with
    | zero => simp [series, Res.state?] at h
    | succ f =>
      rw [series_pop _ _ _ _ _ _ (getElem?_append_head _ _ _)] at h ⊢
      cases f with
      | zero => simp [series, Res.state?] at h
      | succ f =>
        have hl : body.length + 1 = (body ++ [Job.pop]).length := by simp
        rw [hl, series_end] at h ⊢
        simp only [Res.state?, Option.some.injEq] at h
        subst h
        exact ⟨rfl, rfl, hg⟩
  | spec =>
    cases fuel with
    | zero => simp [series, Res.state?] at h
    | succ f =>
      rw [series_restoreStack _ _ _ _ _ _ _ (getElem?_append_head _ _ _)] at h ⊢
      cases f with
      | zero => simp [series, Res.state?] at h
      | succ f =>
        rw [series_pop _ _ _ _ _ _ (getElem?_append_second _ _ _ _)] at h ⊢
        cases f with
        | zero => simp [series, Res.state?] at h
        | succ f =>
          have hl : body.length + 1 + 1 = (body ++ [Job.restoreStack after, Job.pop]).length := by
            simp
          rw [hl, series_end] at h ⊢
          simp only [Res.state?, Option.some.injEq] at h
          subst h
          exact ⟨rfl, rfl, rfl⟩
  | root =>
    cases fuel with
    | zero => simp [series, Res.state?] at h
    | succ f =>
      rw [series_restoreStack _ _ _ _ _ _ _ (getElem?_append_head _ _ _)] at h ⊢
      cases f with
      | zero => simp [series, Res.state?] at h
      | succ f =>
        rw [series_report _ _ _ _ _ _ (getElem?_append_second _ _ _ _)] at h ⊢
        cases f with
        | zero => simp [series, Res.state?] at h
        | succ f =>
          have hl : body.length + 1 + 1
              = (body ++ [Job.restoreStack after, Job.report]).length := by
            simp
          rw [hl, series_end] at h ⊢
          simp only [Res.state?, Option.some.injEq] at h
          subst h
          exact ⟨rfl, rfl, rfl⟩

theorem isBailed_snoc (g : State) (b : Nat) :
    ({ g with bailed := g.bailed ++ [false], globalBail := some g.bailed.length } : State).isBailed b
      = g.isBailed b := by
  simp only [State.isBailed, List.getD_eq_getElem?_getD]
  by_cases hb : b < g.bailed.length
  · rw [List.getElem?_append_left hb]
  · have h1 : g.bailed[b]? = none := List.getElem?_eq_none (by omega)
    rw [h1]
    by_cases hb2 : b = g.bailed.length
    · subst hb2; simp
    · rw [List.getElem?_eq_none (by simp; omega)]

theorem leafJobs_body (be ae : List Task) (t : Task) :
    leafJobs be t ae = (be.map Job.user ++ [Job.user t] ++ ae.map Job.user) ++ [Job.pop]
      ∧ ∀ j ∈ be.map Job.user ++ [Job.user t] ++ ae.map Job.user, j.isBody = true := by
  refine ⟨rfl, ?_⟩
  intro j hj
  simp only [List.mem_append, List.mem_map, List.mem_singleton] at hj
  rcases hj with (⟨u, _, rfl⟩ | rfl) | ⟨u, _, rfl⟩ <;> rfl

theorem runSpecJobs_body (only : List Nat) (spec : Spec) (a : Nat) (be ae : List Task)
    (prev : Option Nat) (fin : Job) (dd : Delay) :
    runSpecJobs only spec a be ae prev fin dd
        = (spec.before.map Job.user ++ wrappers only spec a be ae dd ++ spec.after.map Job.user)
          ++ [Job.restoreStack prev, fin]
      ∧ ∀ j ∈ spec.before.map Job.user ++ wrappers only spec a be ae dd
          ++ spec.after.map Job.user, j.isBody = true := by
  refine ⟨rfl, ?_⟩
  intro j hj
  simp only [List.mem_append, List.mem_map] at hj
  rcases hj with (⟨u, _, rfl⟩ | hw) | ⟨u, _, rfl⟩
  · rfl
  · obtain ⟨key, ch, rfl, _⟩ := wrappers_child _ _ _ _ _ _ _ hw
    rfl
  · rfl

/-- Inside an activation whose `globalBail` closure has a number of at least `n`, the
`bailed` variables of the activations below `n` keep their values, and when the list has run
to its end the `globalBail` that was installed before the activation is installed again. -/
theorem series_scope (only : List Nat) (n : Nat) :
    ∀ (fuel : Nat) (body tail : List Job) (inside after : Option Nat) (cursor : Nat) (dd : Delay)
      (g g' : State),
      (∀ j ∈ body, j.isBody = true) → Closing tail inside after → cursor ≤ body.length →
      g.globalBail = inside → (∃ b, inside = some b ∧ n ≤ b) → n ≤ g.bailed.length →
      (series only fuel (body ++ tail) cursor dd g).state? = some g' →
      (∀ b, b < n → g'.isBailed b = g.isBailed b) ∧ n ≤ g'.bailed.length
        ∧ (series only fuel (body ++ tail) cursor dd g = .done g' → g'.globalBail = after) := by
  intro fuel
  induction fuel with
  | zero => intro body tail inside after cursor dd g g' _ _ _ _ _ _ h; simp [series, Res.state?] at h
  | succ fuel ih =>
    intro body tail inside after cursor dd g g' hbody hclose hcur hg hin hn h
    by_cases hend : cursor = body.length
    · subst hend
      obtain ⟨h1, h2, h3⟩ := series_closing only _ body tail inside after dd g g' hclose hg h
      exact ⟨fun b _ => by simp [State.isBailed, h2], by rw [h2]; exact hn, fun _ => h3⟩
    · have hlt : cursor < body.length := by omega
      have htc : (body ++ tail)[cursor]? = some body[cursor] := by
        rw [List.getElem?_append_left hlt, List.getElem?_eq_getElem hlt]
      have hjb : (body[cursor]).isBody = true := hbody _ (List.getElem_mem _)
      obtain ⟨hd, hhd, hhe⟩ := closing_head tail inside after hclose body
      obtain ⟨bi, hbi, hnb⟩ := hin
      cases hj : body[cursor] with
      | user t =>
        rw [hj] at htc
        have hf := unit_frame (body ++ tail) t (start g dd cursor)
        have hbl := unit_below (body ++ tail) t (start g dd cursor) body.length hd hhd hhe
          (by simp only [start]; omega)
        have hkeep : ∀ b, b < n → (settled (unit (body ++ tail) t (start g dd cursor))).g.isBailed b
            = g.isBailed b := by
          intro b hb
          rw [hf.other b (by simp [enter, start, hg, hbi]; omega)]
          simp [enter, start, State.isBailed]
        cases hu : unit (body ++ tail) t (start g dd cursor) with
        | error x =>
          obtain ⟨m, c⟩ := x
          rw [series_user _ _ _ _ _ _ _ htc, hu] at h ⊢
          simp only [Res.state?, Option.some.injEq] at h
          subst h
          rw [hu] at hkeep hf
          simp only [settled] at hkeep hf
          refine ⟨hkeep, ?_, fun hh => by simp at hh⟩
          rw [hf.length]
          simpa [enter, start] using hn
        | ok c =>
          rw [hu] at hkeep hf hbl
          simp only [settled] at hkeep hf hbl
          rw [series_user_ok _ _ _ _ _ _ _ c htc hu] at h ⊢
          rw [rethrown_state] at h
          have hgb : c.g.globalBail = inside := by
            rw [hf.globalBail]; simpa [enter, start] using hg
          have hlen : n ≤ c.g.bailed.length := by
            rw [hf.length]; simpa [enter, start] using hn
          obtain ⟨r1, r2, r3⟩ := ih body tail inside after c.cursor dd c.g g' hbody hclose hbl hgb
            ⟨bi, hbi, hnb⟩ hlen h
          exact ⟨fun b hb => (r1 b hb).trans (hkeep b hb), r2,
            fun hh => r3 (rethrown_eq_done _ _ _ hh)⟩
      | child key ch a be ae d =>
        rw [hj] at htc
        by_cases hb : g.isBailed a = true
        · rw [series_child_bailed _ _ _ _ _ _ _ _ _ _ _ _ htc hb] at h ⊢
          exact ih body tail inside after (cursor + 1) dd
            { g with units := g.units + 1, globalTimeout := none } g' hbody hclose (by omega) hg
            ⟨bi, hbi, hnb⟩ hn h
        · rw [series_child _ _ _ _ _ _ _ _ _ _ _ _ htc (by simpa using hb)] at h ⊢
          have hnested : ∀ g2, (nestedRun only fuel ch be ae d (pushed g key)).state? = some g2 →
              (∀ b, b < n → g2.isBailed b = g.isBailed b) ∧ n ≤ g2.bailed.length
                ∧ (nestedRun only fuel ch be ae d (pushed g key) = .done g2 →
                    g2.globalBail = inside) := by
            intro g2 h2
            cases ch with
            | inl t =>
              simp only [nestedRun] at h2 ⊢
              rw [(leafJobs_body be ae t).1] at h2 ⊢
              exact ih _ _ inside inside 0 d (pushed g key) g2 (leafJobs_body be ae t).2
                (Closing.leaf inside) (Nat.zero_le _) (by simpa [pushed] using hg)
                ⟨bi, hbi, hnb⟩ (by simpa [pushed] using hn) h2
            | inr spec =>
              simp only [nestedRun, runSpec, enterSpec] at h2 ⊢
              rw [(runSpecJobs_body _ _ _ _ _ _ _ _).1] at h2 ⊢
              obtain ⟨r1, r2, r3⟩ := ih _ _ (some (pushed g key).bailed.length)
                (pushed g key).globalBail 0 _ _ g2
                (runSpecJobs_body only spec _ _ _ (pushed g key).globalBail Job.pop _).2
                (Closing.spec _ _) (Nat.zero_le _) rfl
                ⟨_, rfl, by simpa [pushed] using hn⟩
                (by simp only [List.length_append]; simp only [pushed]; omega) h2
              refine ⟨fun b hb => ?_, r2, fun hh => ?_⟩
              · rw [r1 b hb, isBailed_snoc]
                simp [pushed, State.isBailed]
              · rw [r3 hh]
                simpa [pushed] using hg
          cases hnr : nestedRun only fuel ch be ae d (pushed g key) with
          | fuel => simp [hnr, Res.state?] at h
          | escaped m ge =>
            simp only [hnr, Res.state?, Option.some.injEq] at h
            subst h
            obtain ⟨r1, r2, _⟩ := hnested _ (by rw [hnr]; rfl)
            exact ⟨r1, r2, fun hh => by simp at hh⟩
          | done g2 =>
            simp only [hnr] at h ⊢
            obtain ⟨r1, r2, r3⟩ := hnested _ (by rw [hnr]; rfl)
            obtain ⟨q1, q2, q3⟩ := ih body tail inside after (cursor + 1) dd
              { g2 with globalTimeout := none } g' hbody hclose (by omega) (r3 hnr)
              ⟨bi, hbi, hnb⟩ r2 h
            exact ⟨fun b hb => (q1 b hb).trans (r1 b hb), q2, q3⟩
      | pop => rw [hj] at hjb; simp [Job.isBody] at hjb
      | restoreStack prev => rw [hj] at hjb; simp [Job.isBody] at hjb
      | report => rw [hj] at hjb; simp [Job.isBody] at hjb

/-! ### Runs of synchronous bodies -/

/-- A body without a parameter has no `done` in scope: its statements do not finalize the
unit. -/
theorem exec_sync (tasks : List Job) (task : Job) (fn : Fn) (a : Action) (c : Ctx)
    (h0 : fn.length = 0) :
    (raised (exec tasks task fn a c)).u.isFinalized = c.u.isFinalized := by
  cases a with
  | plain verb success self value userMsg =>
    simp only [exec]
    cases hA : Assertion c.g with
    | error m => rfl
    | ok p =>
      obtain ⟨i, g⟩ := p
      simp only
      split_ifs <;> rfl
  | satisfies res =>
    simp only [exec]
    cases hA : Assertion c.g with
    | error m => rfl
    | ok p =>
      obtain ⟨i, g⟩ := p
      simp only
      repeat' split
      all_goals rfl
  | notSatisfies res =>
    simp only [exec]
    cases hA : Assertion c.g with
    | error m => rfl
    | ok p =>
      obtain ⟨i, g⟩ := p
      simp only
      repeat' split
      all_goals rfl
  | timeout t =>
    have h1 : (settled (timeout t c)).u.isFinalized = c.u.isFinalized := by
      unfold timeout
      repeat' split
      all_goals simp only [settled]
    simp only [exec]
    split <;> rename_i heq <;> simpa [heq, settled, raised] using h1
  | done err => simp [exec, h0, raised]
  | throw e => rfl

theorem runBody_sync (tasks : List Job) (task : Job) (fn : Fn) (h0 : fn.length = 0)
    (acts : List Action) :
    ∀ c : Ctx, (raised (runBody tasks task fn acts c)).u.isFinalized = c.u.isFinalized := by
  induction acts with
  | nil => intro c; rfl
  | cons a rest ih =>
    intro c
    have h1 := exec_sync tasks task fn a c h0
    simp only [runBody]
    split
    · rename_i c' heq
      rw [ih c']
      simpa [heq, raised] using h1
    · rename_i x heq
      obtain ⟨e, c'⟩ := x
      simpa [heq, raised] using h1

theorem skipForward_some (depth : Nat) : ∀ (l : List Job) (cursor : Nat),
    (∃ (n : Nat) (j : Job), l[n]? = some j ∧ j.error = false) →
    ∃ k, skipForward depth l cursor = some k := by
  intro l
  induction l with
  | nil => intro cursor h; obtain ⟨n, j, hn, _⟩ := h; simp at hn
  | cons x rest ih =>
    intro cursor h
    obtain ⟨n, j, hn, hj⟩ := h
    simp only [skipForward]
    split_ifs with hx
    · cases n with
      | zero =>
        simp only [List.getElem?_cons_zero, Option.some.injEq] at hn
        subst hn
        simp [hj] at hx
      | succ n =>
        simp only [List.getElem?_cons_succ] at hn
        exact ih _ ⟨n, j, hn, hj⟩
    · exact ⟨cursor, rfl⟩

/-- The finalization of a unit that is not finalized returns when a test or hook has
started, a `globalBail` is installed and an internal task follows in the list. -/
theorem finalize_total (tasks : List Job) (task : Job) (err : Option Thrown)
    (threw isTimeout : Bool) (c : Ctx) (cur : Task) (label : String) (b : Nat)
    (hfin : c.u.isFinalized = false) (hcur : c.g.globalTestOrHook = some (cur, label))
    (hb : c.g.globalBail = some b)
    (hint : ∃ i j, tasks[i]? = some j ∧ j.error = false ∧ c.cursor ≤ i)
    (herr : threw = true → ∃ text, errorText err = .ok text) :
    ∃ c', finalize tasks task err threw isTimeout c = .ok c' := by
  obtain ⟨i, j, hi, hj, hci⟩ := hint
  obtain ⟨k, hk⟩ := skipForward_some task.depth (tasks.drop c.cursor) c.cursor
    ⟨i - c.cursor, j, by rw [List.getElem?_drop, Nat.add_sub_cancel' hci]; exact hi, hj⟩
  unfold finalize
  simp only [hfin, Bool.false_eq_true, if_false]
  cases threw
  · simp
  · obtain ⟨text, htext⟩ := herr rfl
    simp only [if_true, Assertion, hcur, htext]
    cases isTimeout
    · simp only [Bool.false_eq_true, if_false, globalBail, fail, hb, hk]
      split_ifs <;> exact ⟨_, rfl⟩
    · simp

/-- An exception that leaves a statement is an `Error` made by the runner or the value the
statement throws by itself. -/
theorem exec_printable (tasks : List Job) (task : Job) (fn : Fn) (a : Action) (c c' : Ctx)
    (e : Thrown) (ha : ∀ e, a.thrown = some e → ∃ text, e.text = .ok text)
    (h : exec tasks task fn a c = .error (e, c')) : ∃ text, e.text = .ok text := by
  cases a with
  | plain verb success self value userMsg =>
    simp only [exec] at h
    split at h
    · simp only [Except.error.injEq, Prod.mk.injEq] at h
      exact ⟨_, by rw [← h.1]; rfl⟩
    · split_ifs at h <;>
        (simp only [Except.error.injEq, Prod.mk.injEq] at h; exact ⟨_, by rw [← h.1]; rfl⟩)
  | satisfies res =>
    simp only [exec] at h
    split at h
    · simp only [Except.error.injEq, Prod.mk.injEq] at h
      exact ⟨_, by rw [← h.1]; rfl⟩
    · cases res with
      | ok p =>
        simp only at h
        split_ifs at h
      | error x =>
        simp only [Except.error.injEq, Prod.mk.injEq] at h
        exact ha e (by rw [← h.1]; rfl)
  | notSatisfies res =>
    simp only [exec] at h
    split at h
    · simp only [Except.error.injEq, Prod.mk.injEq] at h
      exact ⟨_, by rw [← h.1]; rfl⟩
    · cases res with
      | ok p =>
        simp only at h
        split_ifs at h
      | error x =>
        simp only [Except.error.injEq, Prod.mk.injEq] at h
        exact ha e (by rw [← h.1]; rfl)
  | timeout t =>
    simp only [exec] at h
    split at h
    · simp at h
    · simp only [Except.error.injEq, Prod.mk.injEq] at h
      exact ⟨_, by rw [← h.1]; rfl⟩
  | done err =>
    simp only [exec] at h
    split_ifs at h
    · simp only [Except.error.injEq, Prod.mk.injEq] at h
      exact ⟨_, by rw [← h.1]; rfl⟩
    · split at h
      · simp at h
      · simp only [Except.error.injEq, Prod.mk.injEq] at h
        exact ⟨_, by rw [← h.1]; rfl⟩
  | throw x =>
    simp only [exec, Except.error.injEq, Prod.mk.injEq] at h
    exact ha e (by rw [← h.1]; rfl)

theorem runBody_printable (tasks : List Job) (task : Job) (fn : Fn) (acts : List Action) :
    ∀ (c c' : Ctx) (e : Thrown),
      (∀ a ∈ acts, ∀ e, a.thrown = some e → ∃ text, e.text = .ok text) →
      runBody tasks task fn acts c = .error (e, c') → ∃ text, e.text = .ok text := by
  induction acts with
  | nil => intro c c' e _ h; simp [runBody] at h
  | cons a rest ih =>
    intro c c' e ha h
    simp only [runBody] at h
    cases hx : exec tasks task fn a c with
    | ok c1 =>
      rw [hx] at h
      exact ih c1 c' e (fun a2 h2 => ha a2 (List.mem_cons_of_mem _ h2)) h
    | error x =>
      rw [hx] at h
      simp only [Except.error.injEq] at h
      subst h
      exact exec_printable tasks task fn a c c' e (ha a (List.mem_cons_self _ _)) hx

/-- A unit whose body has no parameter and returns no thenable is finalized when its body
has returned or thrown a value that can be turned into a message: it hands over to the
scheduler. -/
theorem unit_sync (tasks : List Job) (t : Task) (g : State) (dd : Delay) (cursor b : Nat)
    (h0 : t.fn.length = 0) (hth : t.fn.thenable = false)
    (hpr : ∀ a ∈ t.fn.acts, ∀ e, a.thrown = some e → ∃ text, e.text = .ok text)
    (hb : g.globalBail = some b)
    (hint : ∃ i j, tasks[i]? = some j ∧ j.error = false ∧ cursor + 1 ≤ i) :
    ∃ c, unit tasks t (start g dd cursor) = .ok c := by
  obtain ⟨i, j, hi, hj, hci⟩ := hint
  have hfr := runBody_frame tasks (.user t) t.fn t.fn.acts (enter t (start g dd cursor))
  have hbl := runBody_below tasks (.user t) t.fn t.fn.acts (enter t (start g dd cursor))
    i j hi hj (by simpa [enter, start] using hci)
  have hsy := runBody_sync tasks (.user t) t.fn h0 t.fn.acts (enter t (start g dd cursor))
  have hfin : ∀ c1, c1 = raised (runBody tasks (.user t) t.fn t.fn.acts
      (enter t (start g dd cursor))) → ∀ err threw,
      (threw = true → ∃ text, errorText err = .ok text) →
      ∃ c', finalize tasks (.user t) err threw false c1 = .ok c' := by
    intro c1 hc1 err threw herr
    subst hc1
    exact finalize_total tasks (.user t) err threw false _ t _ b
      (by rw [hsy]; rfl) (by rw [hfr.current]; rfl)
      (by rw [hfr.globalBail]; simpa [enter, start] using hb) ⟨i, j, hi, hj, hbl⟩ herr
  have htry : ∃ c, tryBody tasks t (enter t (start g dd cursor)) = .ok c
      ∧ c.u.isFinalized = true := by
    unfold tryBody
    cases hrun : runBody tasks (.user t) t.fn t.fn.acts (enter t (start g dd cursor)) with
    | error x =>
      obtain ⟨e, c1⟩ := x
      obtain ⟨c', hc'⟩ := hfin c1 (by rw [hrun]; rfl) (some e) true
        (fun _ => runBody_printable _ _ _ _ _ _ _ hpr hrun)
      exact ⟨c', by simpa using hc', (finalize_ok _ _ _ _ _ _ _ hc').1⟩
    | ok c1 =>
      obtain ⟨c', hc'⟩ := hfin c1 (by rw [hrun]; rfl) none false (by simp)
      have hf := (finalize_ok _ _ _ _ _ _ _ hc').1
      refine ⟨c', ?_, hf⟩
      simp only [returned, h0, hth, Nat.lt_irrefl, decide_False, Bool.or_self,
        Bool.false_eq_true, if_false, hc', becomeAsync, hf, if_true]
  obtain ⟨c, hc, hf⟩ := htry
  exact ⟨{ c with g := { c.g with globalTimeout := none } }, by
    simp only [unit, hc, hf, if_true]⟩

/-- More fuel does not change a run that has reached its end. -/
theorem series_mono (only : List Nat) : ∀ (fuel k : Nat) (tasks : List Job) (cursor : Nat)
    (dd : Delay) (g g' : State), series only fuel tasks cursor dd g = .done g' →
    series only (fuel + k) tasks cursor dd g = .done g' := by
  intro fuel
  induction fuel with
  | zero => intro k tasks cursor dd g g' h; simp [series] at h
  | succ fuel ih =>
    intro k tasks cursor dd g g' h
    rw [Nat.add_right_comm]
    by_cases hend : cursor = tasks.length
    · subst hend
      rw [series_end] at h ⊢
      exact h
    · cases htc : tasks[cursor]? with
      | none =>
        rw [series] at h
        simp [hend, htc] at h
      | some j =>
        cases j with
        | user t =>
          rw [series_user _ _ _ _ _ _ _ htc] at h ⊢
          cases hu : unit tasks t (start g dd cursor) with
          | error x =>
            obtain ⟨m, c⟩ := x
            simp [hu] at h
          | ok c =>
            simp only [hu] at h ⊢
            split_ifs at h ⊢
            · exact h
            · exact rethrown_done _ _ _ (ih k _ _ _ _ _ (rethrown_eq_done _ _ _ h))
        | child key ch a be ae d =>
          by_cases hb : g.isBailed a = true
          · rw [series_child_bailed _ _ _ _ _ _ _ _ _ _ _ _ htc hb] at h ⊢
            exact ih k _ _ _ _ _ h
          · rw [series_child _ _ _ _ _ _ _ _ _ _ _ _ htc (by simpa using hb)] at h ⊢
            cases hn : nestedRun only fuel ch be ae d (pushed g key) with
            | fuel => simp [hn] at h
            | escaped m ge => simp [hn] at h
            | done g2 =>
              have hn2 : nestedRun only (fuel + k) ch be ae d (pushed g key) = .done g2 := by
                cases ch with
                | inl t => exact ih k _ _ _ _ _ hn
                | inr spec => exact ih k _ _ _ _ _ hn
              simp only [hn] at h
              simp only [hn2]
              exact ih k _ _ _ _ _ h
        | pop =>
          rw [series_pop _ _ _ _ _ _ htc] at h ⊢
          exact ih k _ _ _ _ _ h
        | restoreStack prev =>
          rw [series_restoreStack _ _ _ _ _ _ _ htc] at h ⊢
          exact ih k _ _ _ _ _ h
        | report =>
          rw [series_report _ _ _ _ _ _ htc] at h ⊢
          exact ih k _ _ _ _ _ h

theorem nestedRun_mono (only : List Nat) (fuel k : Nat) (ch : Task ⊕ Spec) (be ae : List Task)
    (d : Delay) (g g2 : State) (h : nestedRun only fuel ch be ae d g = .done g2) :
    nestedRun only (fuel + k) ch be ae d g = .done g2 := by
  cases ch with
  | inl t => exact series_mono only fuel k _ _ _ _ _ h
  | inr spec => exact series_mono only fuel k _ _ _ _ _ h

theorem closing_leaf (only : List Nat) (body : List Job) (dd : Delay) (g : State) :
    ∃ g', series only 2 (body ++ [Job.pop]) body.length dd g = .done g'
      ∧ g'.globalBail = g.globalBail ∧ g'.trace = g.trace := by
  rw [series_pop _ _ _ _ _ _ (getElem?_append_head _ _ _)]
  have hl : body.length + 1 = (body ++ [Job.pop]).length := by simp
  rw [hl, series_end]
  exact ⟨_, rfl, rfl, rfl⟩

theorem closing_spec (only : List Nat) (body : List Job) (prev : Option Nat) (dd : Delay)
    (g : State) :
    ∃ g', series only 3 (body ++ [Job.restoreStack prev, Job.pop]) body.length dd g = .done g'
      ∧ g'.globalBail = prev ∧ g'.trace = g.trace ++ [Ev.restore] := by
  rw [series_restoreStack _ _ _ _ _ _ _ (getElem?_append_head _ _ _),
    series_pop _ _ _ _ _ _ (getElem?_append_second _ _ _ _)]
  have hl : body.length + 1 + 1 = (body ++ [Job.restoreStack prev, Job.pop]).length := by simp
  rw [hl, series_end]
  exact ⟨_, rfl, rfl, rfl⟩

theorem closing_root (only : List Nat) (body : List Job) (prev : Option Nat) (dd : Delay)
    (g : State) :
    ∃ g', series only 3 (body ++ [Job.restoreStack prev, Job.report]) body.length dd g = .done g'
      ∧ g'.trace = g.trace ++ [Ev.restore] ++ [Ev.report g'.results g'.stats]
      ∧ g'.results = g.results ∧ g'.stats = g.stats := by
  rw [series_restoreStack _ _ _ _ _ _ _ (getElem?_append_head _ _ _),
    series_report _ _ _ _ _ _ (getElem?_append_second _ _ _ _)]
  have hl : body.length + 1 + 1 = (body ++ [Job.restoreStack prev, Job.report]).length := by
    simp
  rw [hl, series_end]
  exact ⟨_, rfl, rfl, rfl, rfl⟩

/-- The tasks before the closing ones hand over one after the other: from any of them the
series reaches the first closing task, with the same `globalBail` installed and no call of
the consumer recorded. -/
theorem body_total (only : List Nat) (body tail : List Job) (inside after : Option Nat)
    (dd : Delay) (hbody : ∀ j ∈ body, j.isBody = true ∧ Runs only j)
    (hclose : Closing tail inside after) (hin : inside.isSome = true) :
    ∀ (k cursor : Nat) (g : State), body.length - cursor ≤ k → cursor ≤ body.length →
      g.globalBail = inside → Quiet g →
      ∃ g1, g1.globalBail = inside ∧ Quiet g1
        ∧ ∀ fuel g', series only fuel (body ++ tail) body.length dd g1 = .done g' →
            ∃ fuel', series only fuel' (body ++ tail) cursor dd g = .done g' := by
  intro k
  induction k with
  | zero =>
    intro cursor g hk hc hg hq
    have : cursor = body.length := by omega
    subst this
    exact ⟨g, hg, hq, fun fuel g' h => ⟨fuel, h⟩⟩
  | succ k ih =>
    intro cursor g hk hc hg hq
    by_cases hend : cursor = body.length
    · subst hend
      exact ⟨g, hg, hq, fun fuel g' h => ⟨fuel, h⟩⟩
    · have hlt : cursor < body.length := by omega
      have htc : (body ++ tail)[cursor]? = some body[cursor] := by
        rw [List.getElem?_append_left hlt, List.getElem?_eq_getElem hlt]
      obtain ⟨hjb, hjr⟩ := hbody _ (List.getElem_mem hlt)
      obtain ⟨hd, hhd, hhe⟩ := closing_head tail inside after hclose body
      obtain ⟨bi, hbi⟩ := Option.isSome_iff_exists.1 hin
      cases hj : body[cursor] with
      | user t =>
        rw [hj] at htc hjr
        obtain ⟨c, hu⟩ := unit_sync (body ++ tail) t g dd cursor bi hjr.1 hjr.2.1 hjr.2.2
          (by rw [hg, hbi]) ⟨body.length, hd, hhd, hhe, by omega⟩
        have hf := unit_frame (body ++ tail) t (start g dd cursor)
        have hbl := unit_below (body ++ tail) t (start g dd cursor) body.length hd hhd hhe
          (by simp only [start]; omega)
        have htr := (unit_trace (body ++ tail) t (start g dd cursor)).1
        rw [hu] at hf hbl htr
        simp only [settled] at hf hbl htr
        have hcur : cursor + 1 ≤ c.cursor := by
          have := hf.cursor
          simpa [enter, start] using this
        have hq' : Quiet c.g := by
          intro r s hm
          rw [htr] at hm
          simp only [start, List.mem_append, List.mem_singleton] at hm
          rcases hm with hm | hm
          · exact hq r s hm
          · cases hm
        obtain ⟨g1, h1, h2, h3⟩ := ih c.cursor c.g (by omega) hbl
          (by rw [hf.globalBail]; simpa [enter, start] using hg) hq'
        refine ⟨g1, h1, h2, fun fuel g' h => ?_⟩
        obtain ⟨fuel', hfu⟩ := h3 fuel g' h
        exact ⟨fuel' + 1, by
          rw [series_user_ok _ _ _ _ _ _ _ c htc hu]; exact rethrown_done _ _ _ hfu⟩
      | child key ch a be ae d =>
        rw [hj] at htc hjr
        by_cases hb : g.isBailed a = true
        · obtain ⟨g1, h1, h2, h3⟩ := ih (cursor + 1)
            { g with units := g.units + 1, globalTimeout := none } (by omega) (by omega) hg hq
          refine ⟨g1, h1, h2, fun fuel g' h => ?_⟩
          obtain ⟨fuel', hfu⟩ := h3 fuel g' h
          exact ⟨fuel' + 1, by
            rw [series_child_bailed _ _ _ _ _ _ _ _ _ _ _ _ htc hb]; exact hfu⟩
        · obtain ⟨fn, g2, hn, hgb, hq2⟩ := hjr (pushed g key)
            (by simp only [pushed]; rw [hg]; exact hin) hq
          obtain ⟨g1, h1, h2, h3⟩ := ih (cursor + 1) { g2 with globalTimeout := none }
            (by omega) (by omega)
            (by simp only [hgb, pushed]; exact hg) hq2
          refine ⟨g1, h1, h2, fun fuel g' h => ?_⟩
          obtain ⟨fuel', hfu⟩ := h3 fuel g' h
          refine ⟨fn + fuel' + 1, ?_⟩
          rw [series_child _ _ _ _ _ _ _ _ _ _ _ _ htc (by simpa using hb),
            nestedRun_mono only fn fuel' _ _ _ _ _ _ hn]
          simp only
          rw [Nat.add_comm fn fuel']
          exact series_mono only fuel' fn _ _ _ _ _ hfu
      | pop => rw [hj] at hjb; simp [Job.isBody] at hjb
      | restoreStack prev => rw [hj] at hjb; simp [Job.isBody] at hjb
      | report => rw [hj] at hjb; simp [Job.isBody] at hjb

/-- The wrapper of a leaf test whose chains and body complete synchronously. -/
theorem leaf_total (only : List Nat) (key : String) (t : Task) (a : Nat) (be ae : List Task)
    (d : Delay) (ht : t.sync) (hch : ∀ h ∈ be ++ ae, h.sync) :
    Runs only (.child key (.inl t) a be ae d) := by
  intro g hg hq
  have hbody : ∀ j ∈ be.map Job.user ++ [Job.user t] ++ ae.map Job.user,
      j.isBody = true ∧ Runs only j := by
    intro j hj
    refine ⟨(leafJobs_body be ae t).2 j hj, ?_⟩
    simp only [List.mem_append, List.mem_map, List.mem_singleton] at hj
    rcases hj with (⟨u, hu, rfl⟩ | rfl) | ⟨u, hu, rfl⟩
    · exact hch u (List.mem_append_left _ hu)
    · exact ht
    · exact hch u (List.mem_append_right _ hu)
  obtain ⟨g1, h1, h2, h3⟩ := body_total only _ [Job.pop] g.globalBail g.globalBail d hbody
    (Closing.leaf _) hg _ 0 g (Nat.le_refl _) (Nat.zero_le _) rfl hq
  obtain ⟨g', hc1, hc2, hc3⟩ := closing_leaf only
    (be.map Job.user ++ [Job.user t] ++ ae.map Job.user) d g1
  obtain ⟨fuel, hfu⟩ := h3 2 g' hc1
  refine ⟨fuel, g', ?_, by rw [hc2, h1], ?_⟩
  · simp only [nestedRun]
    rw [(leafJobs_body be ae t).1]
    exact hfu
  · intro r s hm
    rw [hc3] at hm
    exact h2 r s hm

/-- The tasks `runSpec` puts before `restoreStack` hand over, when the hooks and tests of
the spec complete synchronously and the wrappers of its groups run to their end. -/
theorem runSpec_runs (only : List Nat) (b be0 a0 ae0 : List Task) (t : Option Delay)
    (children : List (String × (Task ⊕ Spec))) (act : Nat) (be ae : List Task) (dd : Delay)
    (hhooks : ∀ h ∈ b ++ be0 ++ a0 ++ ae0, h.sync)
    (htests : ∀ key tk, (key, Sum.inl tk) ∈ children → tk.sync)
    (hspecs : ∀ key s, (key, Sum.inr s) ∈ children →
      ∀ key' a' be' ae' d', (∀ h ∈ be' ++ ae', h.sync) →
        Runs only (.child key' (.inr s) a' be' ae' d'))
    (hch : ∀ h ∈ be ++ ae, h.sync) :
    ∀ j ∈ (Spec.mk b be0 a0 ae0 t children).before.map Job.user
        ++ wrappers only (Spec.mk b be0 a0 ae0 t children) act be ae dd
        ++ (Spec.mk b be0 a0 ae0 t children).after.map Job.user,
      j.isBody = true ∧ Runs only j := by
  intro j hj
  refine ⟨(runSpecJobs_body only _ act be ae none Job.pop dd).2 j hj, ?_⟩
  simp only [List.mem_append, List.mem_map] at hj
  rcases hj with (⟨u, hu, rfl⟩ | hw) | ⟨u, hu, rfl⟩
  · exact hhooks u (by simp only [Spec.before] at hu; simp [hu])
  · obtain ⟨key, ch, rfl, hmem, _⟩ := wrappers_child _ _ _ _ _ _ _ hw
    cases ch with
    | inl tk => exact leaf_total only key tk act be ae dd (htests key tk hmem) hch
    | inr s => exact hspecs key s hmem key act be ae dd hch
  · exact hhooks u (by simp only [Spec.after] at hu; simp [hu])

theorem inherit_sync (b be0 a0 ae0 : List Task) (t : Option Delay)
    (children : List (String × (Task ⊕ Spec))) (be ae : List Task)
    (hhooks : ∀ h ∈ b ++ be0 ++ a0 ++ ae0, h.sync) (hch : ∀ h ∈ be ++ ae, h.sync) :
    ∀ h ∈ (inherit (be, ae) (Spec.mk b be0 a0 ae0 t children)).1
        ++ (inherit (be, ae) (Spec.mk b be0 a0 ae0 t children)).2, h.sync := by
  intro h hh
  simp only [inherit, Spec.beforeEach, Spec.afterEach, List.mem_append] at hh
  rcases hh with (hh | hh) | (hh | hh)
  · exact hch h (List.mem_append_left _ hh)
  · exact hhooks h (by simp [hh])
  · exact hhooks h (by simp [hh])
  · exact hch h (List.mem_append_right _ hh)

/-- The wrapper of a group whose bodies all complete synchronously runs to its end. -/
theorem spec_total (only : List Nat) (spec : Spec) (hs : Synchronous spec) :
    ∀ (key : String) (a : Nat) (be ae : List Task) (d : Delay), (∀ h ∈ be ++ ae, h.sync) →
      Runs only (.child key (.inr spec) a be ae d) := by
  induction hs with
  | mk b be0 a0 ae0 t children hhooks htests _ ih =>
    intro key a be ae d hch g hg hq
    have hbody := runSpec_runs only b be0 a0 ae0 t children g.bailed.length
      (inherit (be, ae) (Spec.mk b be0 a0 ae0 t children)).1
      (inherit (be, ae) (Spec.mk b be0 a0 ae0 t children)).2
      (specDelay (Spec.mk b be0 a0 ae0 t children) d) hhooks htests ih
      (inherit_sync b be0 a0 ae0 t children be ae hhooks hch)
    obtain ⟨g1, h1, h2, h3⟩ := body_total only _ [Job.restoreStack g.globalBail, Job.pop]
      (some g.bailed.length) g.globalBail
      (specDelay (Spec.mk b be0 a0 ae0 t children) d) hbody (Closing.spec _ _) rfl _ 0
      { g with bailed := g.bailed ++ [false], globalBail := some g.bailed.length }
      (Nat.le_refl _) (Nat.zero_le _) rfl hq
    obtain ⟨g', hc1, hc2, hc3⟩ := closing_spec only
      ((Spec.mk b be0 a0 ae0 t children).before.map Job.user
        ++ wrappers only (Spec.mk b be0 a0 ae0 t children) g.bailed.length
            (inherit (be, ae) (Spec.mk b be0 a0 ae0 t children)).1
            (inherit (be, ae) (Spec.mk b be0 a0 ae0 t children)).2
            (specDelay (Spec.mk b be0 a0 ae0 t children) d)
        ++ (Spec.mk b be0 a0 ae0 t children).after.map Job.user)
      g.globalBail (specDelay (Spec.mk b be0 a0 ae0 t children) d) g1
    obtain ⟨fuel, hfu⟩ := h3 3 g' hc1
    refine ⟨fuel, g', ?_, hc2, ?_⟩
    · simp only [nestedRun, runSpec, enterSpec]
      rw [(runSpecJobs_body _ _ _ _ _ _ _ _).1]
      exact hfu
    · intro r s hm
      rw [hc3] at hm
      simp only [List.mem_append, List.mem_singleton] at hm
      rcases hm with hm | hm
      · exact h2 r s hm
      · cases hm

theorem synchronous_groupThenTest : Synchronous groupThenTest := by
  refine Synchronous.mk _ _ _ _ _ _ (by simp) ?_ ?_
  · intro key tk hm
    simp only [List.mem_cons, Prod.mk.injEq, List.mem_singleton, List.not_mem_nil, or_false,
      reduceCtorEq, and_false, false_or, Sum.inl.injEq] at hm
    obtain ⟨_, rfl⟩ := hm
    exact ⟨rfl, rfl, by simp [plainTest, syncFn]⟩
  · intro key s hm
    simp only [List.mem_cons, Prod.mk.injEq, Sum.inr.injEq, List.mem_singleton,
      List.not_mem_nil, or_false, reduceCtorEq, and_false] at hm
    obtain ⟨_, rfl⟩ := hm
    refine Synchronous.mk _ _ _ _ _ _ (by simp) ?_ (by simp)
    intro key tk hm
    simp only [List.mem_singleton, Prod.mk.injEq, Sum.inl.injEq] at hm
    obtain ⟨_, rfl⟩ := hm
    exact ⟨rfl, rfl, by simp [throwingTest, syncFn, Action.thrown, Thrown.text]⟩

/-! ### One hook of each kind -/

theorem setChild_mem (children : List (String × (Task ⊕ Spec))) (name : String)
    (v : Task ⊕ Spec) (key : String) (s : Spec)
    (h : (key, Sum.inr s) ∈ setChild children name v) :
    (key, Sum.inr s) ∈ children ∨ v = Sum.inr s := by
  unfold setChild at h
  split_ifs at h
  · simp only [List.mem_map] at h
    obtain ⟨kv, hm, he⟩ := h
    split_ifs at he
    · simp only [Prod.mk.injEq] at he
      exact Or.inr he.2
    · subst he
      exact Or.inl hm
  · simp only [List.mem_append, List.mem_singleton, Prod.mk.injEq] at h
    rcases h with h | h
    · exact Or.inl h
    · exact Or.inr h.2.symm

theorem oneHook_plug (parent child : Spec) (name : String) (hp : OneHook parent)
    (hc : OneHook child) : OneHook (plug parent name child) := by
  cases hp with
  | mk b be a ae t children h1 h2 h3 h4 h5 =>
    refine OneHook.mk _ _ _ _ _ _ h1 h2 h3 h4 ?_
    intro key s hm
    rcases setChild_mem _ _ _ _ _ hm with h | h
    · exact h5 key s h
    · simp only [Sum.inr.injEq] at h
      subst h
      exact hc

theorem oneHook_leave : ∀ (n : Nat) (focus : Spec) (path : List (Spec × String)),
    OneHook focus → (∀ p ∈ path, OneHook p.1) →
    OneHook (leave n focus path).1 ∧ ∀ p ∈ (leave n focus path).2, OneHook p.1 := by
  intro n
  induction n with
  | zero => intro focus path hf hp; exact ⟨hf, hp⟩
  | succ n ih =>
    intro focus path hf hp
    cases path with
    | nil => exact ⟨hf, hp⟩
    | cons x rest =>
      obtain ⟨parent, name⟩ := x
      simp only [leave]
      exact ih _ rest (oneHook_plug parent focus name (hp _ (List.mem_cons_self _ _)) hf)
        (fun p hm => hp p (List.mem_cons_of_mem _ hm))

theorem tidy_o (subject : String) (predicate : Fn) (d : Def) (h : d.tidy) :
    (left (o subject predicate d)).tidy := by
  obtain ⟨ctx, depth, only, isRunning, path⟩ := d
  obtain ⟨hc, hp⟩ := h
  cases hc with
  | mk b be a ae t children h1 h2 h3 h4 h5 =>
    simp only [o]
    split
    · exact ⟨OneHook.mk _ _ _ _ _ _ h1 h2 h3 h4 h5, hp⟩
    · refine ⟨OneHook.mk _ _ _ _ _ _ h1 h2 h3 h4 ?_, hp⟩
      intro key s hm
      rcases setChild_mem _ _ _ _ _ hm with h | h
      · exact h5 key s h
      · cases h

theorem tidy_hook (name : HookName) (predicate : Fn) (d : Def) (h : d.tidy) :
    (left (hook name predicate d)).tidy := by
  obtain ⟨ctx, depth, only, isRunning, path⟩ := d
  obtain ⟨hc, hp⟩ := h
  cases hc with
  | mk b be a ae t children h1 h2 h3 h4 h5 =>
    simp only [hook]
    split_ifs
    · exact ⟨OneHook.mk _ _ _ _ _ _ h1 h2 h3 h4 h5, hp⟩
    · split
      · exact ⟨OneHook.mk _ _ _ _ _ _ h1 h2 h3 h4 h5, hp⟩
      · cases name
        · exact ⟨OneHook.mk _ _ _ _ _ _ (Nat.le_refl _) h2 h3 h4 h5, hp⟩
        · exact ⟨OneHook.mk _ _ _ _ _ _ h1 h2 (Nat.le_refl _) h4 h5, hp⟩
        · exact ⟨OneHook.mk _ _ _ _ _ _ h1 (Nat.le_refl _) h3 h4 h5, hp⟩
        · exact ⟨OneHook.mk _ _ _ _ _ _ h1 h2 h3 (Nat.le_refl _) h5, hp⟩

theorem tidy_specTimeout (t : Option Delay) (d : Def) (h : d.tidy) :
    (left (o.specTimeout t d)).tidy := by
  obtain ⟨ctx, depth, only, isRunning, path⟩ := d
  obtain ⟨hc, hp⟩ := h
  cases hc with
  | mk b be a ae t0 children h1 h2 h3 h4 h5 =>
    simp only [o.specTimeout]
    split_ifs
    · exact ⟨OneHook.mk _ _ _ _ _ _ h1 h2 h3 h4 h5, hp⟩
    · exact ⟨OneHook.mk _ _ _ _ _ _ h1 h2 h3 h4 h5, hp⟩
    · cases t with
      | none => exact ⟨OneHook.mk _ _ _ _ _ _ h1 h2 h3 h4 h5, hp⟩
      | some t => exact ⟨OneHook.mk _ _ _ _ _ _ h1 h2 h3 h4 h5, hp⟩

theorem tidy_run (d : Def) (h : d.tidy) : (left (o.run d)).tidy := by
  simp only [o.run]
  split_ifs
  · exact h
  · exact h
  · exact h

theorem tidy_bailOut (name : String) (e : Thrown) (bail : Nat) (d : Def) (h : d.tidy) :
    (left (bailOut name e bail d)).tidy := by
  obtain ⟨ctx, depth, onl, running, path⟩ := d
  obtain ⟨hc, hp⟩ := h
  cases hc with
  | mk b be a ae t children h1 h2 h3 h4 h5 =>
    have hd : Def.tidy ⟨Spec.mk b be a ae t children, depth, onl, running, path⟩ :=
      ⟨OneHook.mk _ _ _ _ _ _ h1 h2 h3 h4 h5, hp⟩
    simp only [bailOut]
    split
    · exact hd
    · split
      · exact hd
      · exact hd
      · rename_i key b2 be2 a2 ae2 t2 ch2 hfind
        have hmem := List.mem_of_find?_eq_some hfind
        have hold := h5 key _ hmem
        cases hold with
        | mk _ _ _ _ _ _ g1 g2 g3 g4 g5 =>
          refine ⟨OneHook.mk _ _ _ _ _ _ h1 h2 h3 h4 ?_, hp⟩
          intro key' s hm
          rcases setChild_mem _ _ _ _ _ hm with h | h
          · exact h5 key' s h
          · simp only [Sum.inr.injEq] at h
            subst h
            refine OneHook.mk _ _ _ _ _ _ g1 g2 g3 g4 ?_
            intro k s' hs
            simp at hs

theorem tidy_spec (subject : String) (predicate : Def → Except (Thrown × Def) Def) (bail : Nat)
    (hpred : ∀ d : Def, d.tidy → (leftBy (predicate d)).tidy) (d : Def) (h : d.tidy) :
    (left (o.spec subject predicate bail d)).tidy := by
  simp only [o.spec]
  split_ifs
  · exact h
  · have hinner : Def.tidy { d with
        globalContext := .mk [] [] [] [] none []
        path := (plug d.globalContext (unique d.globalContext.children subject)
          (.mk [] [] [] [] none []), unique d.globalContext.children subject) :: d.path
        globalDepth := d.globalDepth + 1 } := by
      refine ⟨OneHook.mk _ _ _ _ _ _ (by simp) (by simp) (by simp) (by simp) (by simp), ?_⟩
      intro p hm
      simp only [List.mem_cons] at hm
      rcases hm with rfl | hm
      · exact oneHook_plug _ _ _ h.1
          (OneHook.mk _ _ _ _ _ _ (by simp) (by simp) (by simp) (by simp) (by simp))
      · exact h.2 p hm
    have h2 := hpred _ hinner
    cases hp : predicate { d with
        globalContext := .mk [] [] [] [] none []
        path := (plug d.globalContext (unique d.globalContext.children subject)
          (.mk [] [] [] [] none []), unique d.globalContext.children subject) :: d.path
        globalDepth := d.globalDepth + 1 } with
    | ok d2 =>
      rw [hp] at h2
      simp only [leftBy] at h2
      simp only [left]
      exact oneHook_leave _ _ _ h2.1 h2.2
    | error x =>
      obtain ⟨e, d2⟩ := x
      rw [hp] at h2
      simp only [leftBy] at h2
      have h3 := tidy_bailOut (unique d.globalContext.children subject) e bail d2 h2
      simp only
      cases hb : bailOut (unique d.globalContext.children subject) e bail d2 with
      | error y =>
        obtain ⟨m, d3⟩ := y
        rw [hb] at h3
        exact h3
      | ok d3 =>
        rw [hb] at h3
        simp only [left] at h3 ⊢
        exact oneHook_leave _ _ _ h3.1 h3.2

theorem tidy_specBody (calls : List (Def → Except (String × Def) Def)) (throws : Option Thrown)
    (hcalls : ∀ call ∈ calls, ∀ d : Def, d.tidy → (left (call d)).tidy) :
    ∀ d : Def, d.tidy → (leftBy (specBody calls throws d)).tidy := by
  induction calls with
  | nil =>
    intro d h
    simp only [specBody]
    split <;> exact h
  | cons call rest ih =>
    intro d h
    have h1 := hcalls call (List.mem_cons_self _ _) d h
    simp only [specBody]
    split
    · rename_i d2 heq
      rw [heq] at h1
      exact ih (fun c hc => hcalls c (List.mem_cons_of_mem _ hc)) d2 h1
    · rename_i m d2 heq
      rw [heq] at h1
      exact h1

/-- Every call of the definition API keeps every group at one hook of each kind at most. -/
theorem tidy_api (call : Def → Except (String × Def) Def) (h : Api call) :
    ∀ d : Def, d.tidy → (left (call d)).tidy := by
  induction h with
  | test subject predicate => exact tidy_o subject predicate
  | only subject predicate => exact fun d h => tidy_o subject predicate _ h
  | hook name predicate => exact tidy_hook name predicate
  | specTimeout t => exact tidy_specTimeout t
  | spec subject calls throws bail _ ih =>
    exact tidy_spec subject _ bail (tidy_specBody calls throws ih)
  | run => exact tidy_run

theorem tidy_define (calls : List (Def → Except (String × Def) Def))
    (h : ∀ call ∈ calls, Api call) : (define calls).tidy := by
  have hfold : ∀ (l : List (Def → Except (String × Def) Def)) (d : Def),
      (∀ call ∈ l, Api call) → d.tidy →
      (l.foldl (fun d call => match call d with
        | .ok d => d
        | .error (_, d) => d) d).tidy := by
    intro l
    induction l with
    | nil => intro d _ hd; exact hd
    | cons call rest ih =>
      intro d hl hd
      simp only [List.foldl_cons]
      refine ih _ (fun c hc => hl c (List.mem_cons_of_mem _ hc)) ?_
      have := tidy_api call (hl call (List.mem_cons_self _ _)) d hd
      cases hc : call d with
      | ok d2 => rw [hc] at this; exact this
      | error x => obtain ⟨m, d2⟩ := x; rw [hc] at this; exact this
  exact hfold calls {} h
    ⟨OneHook.mk _ _ _ _ _ _ (by simp) (by simp) (by simp) (by simp) (by simp), by simp⟩

/-! ### Bails and failing records -/

theorem paid_refl (c : Ctx) : Paid c c :=
  ⟨Nat.le_refl _, Nat.le_refl _⟩

theorem paid_trans {a b c : Ctx} (h1 : Paid a b) (h2 : Paid b c) : Paid a c := by
  obtain ⟨p1, p2⟩ := h1
  obtain ⟨q1, q2⟩ := h2
  exact ⟨Nat.le_trans p1 q1, by omega⟩

theorem paid_same {c c' : Ctx} (h1 : c'.g.results = c.g.results)
    (h2 : c'.g.stats.bailCount = c.g.stats.bailCount) : Paid c c' := by
  simp [Paid, h1, h2]

theorem failures_pass (l : List Result) (r : Result) (h : r.pass = true) :
    failures (l ++ [r]) = failures l := by
  simp [failures, List.filter_append, h]

theorem failures_fail (l : List Result) (r : Result) (h : r.pass = false) :
    failures (l ++ [r]) = failures l + 1 := by
  simp [failures, List.filter_append, h]

theorem finalize_paid (tasks : List Job) (task : Job) (err : Option Thrown)
    (threw isTimeout : Bool) (c : Ctx) :
    Paid c (settled (finalize tasks task err threw isTimeout c)) := by
  unfold finalize
  by_cases hf : c.u.isFinalized = true
  · simp only [hf, if_true, settled]; exact paid_refl c
  · simp only [hf]
    cases threw
    · simp only [Bool.false_eq_true, if_false, settled]
      exact paid_same rfl rfl
    · simp only [if_true]
      cases hA : Assertion c.g with
      | error m => simp only [settled]; exact paid_same rfl rfl
      | ok p =>
        obtain ⟨i, g⟩ := p
        obtain ⟨r, rfl, rfl⟩ := Assertion_eq _ _ _ hA
        simp only
        cases hE : errorText err with
        | error m => simp [settled, Paid, failures, List.filter_append]
        | ok text =>
        simp only
        cases isTimeout
        · simp only [Bool.false_eq_true, if_false]
          cases hga : c.g.globalBail with
          | none =>
            simp [globalBail, fail, hga, settled, Paid, modify_append_last, failures,
              List.filter_append]
          | some a =>
            simp only [globalBail, fail, hga]
            split_ifs with hhook
            · cases hS : skipForward task.depth (List.drop c.cursor tasks) c.cursor with
              | none =>
                simp [settled, Paid, modify_append_last, failures, List.filter_append]
                omega
              | some k =>
                simp [settled, Paid, modify_append_last, failures, List.filter_append]
                omega
            · simp [settled, Paid, modify_append_last, failures, List.filter_append]
              omega
        · simp [settled, fail, Paid, modify_append_last, failures, List.filter_append]

theorem _done_paid (tasks : List Job) (task : Job) (err : Option Thrown) (threw : Bool)
    (c : Ctx) : Paid c (settled (_done tasks task err threw c)) := by
  unfold _done
  split_ifs
  · exact paid_refl c
  · exact paid_same rfl rfl
  · refine paid_trans ?_ (finalize_paid _ _ _ _ _ _)
    exact paid_same rfl rfl

theorem timerFires_paid (tasks : List Job) (task : Job) (c : Ctx) :
    Paid c (settled (timerFires tasks task c)) := by
  unfold timerFires
  refine paid_trans ?_ (finalize_paid _ _ _ _ _ _)
  exact paid_same rfl rfl

theorem timeout_paid (t : Option Delay) (c : Ctx) : Paid c (settled (timeout t c)) := by
  unfold timeout
  repeat' split
  all_goals (simp only [settled]; exact paid_same rfl rfl)

theorem Assertion_pass (g g' : State) (i : Nat) (h : Assertion g = .ok (i, g')) :
    ∃ r, r.pass = true ∧ g' = { g with results := g.results ++ [r] } ∧ i = g.results.length := by
  unfold Assertion at h
  split at h
  · simp at h
  · simp only [Except.ok.injEq, Prod.mk.injEq] at h
    exact ⟨_, rfl, h.2.symm, h.1.symm⟩

theorem exec_paid (tasks : List Job) (task : Job) (fn : Fn) (a : Action) (c : Ctx) :
    Paid c (raised (exec tasks task fn a c)) := by
  cases a with
  | plain verb success self value userMsg =>
    simp only [exec]
    cases hA : Assertion c.g with
    | error m => exact paid_refl c
    | ok p =>
      obtain ⟨i, g⟩ := p
      obtain ⟨r, hr, rfl, rfl⟩ := Assertion_pass _ _ _ hA
      simp only
      split_ifs <;>
        simp [raised, succeed, Paid, modify_append_last, failures, List.filter_append, hr]
  | satisfies res =>
    simp only [exec]
    cases hA : Assertion c.g with
    | error m => exact paid_refl c
    | ok p =>
      obtain ⟨i, g⟩ := p
      obtain ⟨r, hr, rfl, rfl⟩ := Assertion_pass _ _ _ hA
      simp only
      cases res with
      | error e => simp [raised, Paid, List.dropLast_concat]
      | ok v =>
        obtain ⟨pass, message⟩ := v
        simp only
        split_ifs <;>
          simp [raised, succeed, fail, Paid, modify_append_last, failures, List.filter_append]
  | notSatisfies res =>
    simp only [exec]
    cases hA : Assertion c.g with
    | error m => exact paid_refl c
    | ok p =>
      obtain ⟨i, g⟩ := p
      obtain ⟨r, hr, rfl, rfl⟩ := Assertion_pass _ _ _ hA
      simp only
      cases res with
      | error e => simp [raised, Paid, List.dropLast_concat]
      | ok v =>
        obtain ⟨pass, message⟩ := v
        simp only
        split_ifs <;>
          simp [raised, succeed, fail, Paid, modify_append_last, failures, List.filter_append]
  | timeout t =>
    have h1 := timeout_paid t c
    simp only [exec]
    split <;> rename_i heq <;> simpa [heq, settled, raised] using h1
  | done err =>
    have h1 := _done_paid tasks task err err.isSome c
    simp only [exec, done]
    split_ifs
    · exact paid_refl c
    · split <;> rename_i heq <;> simpa [heq, settled, raised] using h1
  | throw e => exact paid_refl c

theorem runBody_paid (tasks : List Job) (task : Job) (fn : Fn) (acts : List Action) :
    ∀ c : Ctx, Paid c (raised (runBody tasks task fn acts c)) := by
  induction acts with
  | nil => intro c; exact paid_refl c
  | cons a rest ih =>
    intro c
    have h1 := exec_paid tasks task fn a c
    simp only [runBody]
    split
    · rename_i c' heq
      exact paid_trans (by simpa [heq, raised] using h1) (ih c')
    · rename_i x heq
      obtain ⟨e, c'⟩ := x
      simpa [heq, raised] using h1

theorem tryBody_paid (tasks : List Job) (t : Task) (c : Ctx) :
    Paid c (settled (tryBody tasks t c)) := by
  have h1 := runBody_paid tasks (.user t) t.fn t.fn.acts c
  unfold tryBody
  split
  · rename_i e c' heq
    exact paid_trans (by simpa [heq, raised] using h1) (finalize_paid _ _ _ _ _ _)
  · rename_i c' heq
    have h2 : Paid c c' := by simpa [heq, raised] using h1
    have h3 : Paid c' (settled (returned tasks t c')) := by
      unfold returned
      split_ifs
      · exact paid_refl _
      · exact finalize_paid _ _ _ _ _ _
    split
    · rename_i m c'' heq2
      refine paid_trans (paid_trans h2 ?_) (finalize_paid _ _ _ _ _ _)
      simpa [heq2, settled] using h3
    · rename_i c'' heq2
      refine paid_trans (paid_trans h2 (by simpa [heq2, settled] using h3)) ?_
      unfold becomeAsync
      split_ifs
      · exact paid_refl _
      · exact paid_same rfl rfl

theorem late_paid (tasks : List Job) (t : Task) (c : Ctx) :
    Paid c (settled (late tasks t c)) := by
  unfold late
  split
  · exact timerFires_paid _ _ _
  · split_ifs
    · exact _done_paid _ _ _ _ _
    · exact timerFires_paid _ _ _
  · rename_i r _
    split_ifs
    · have h1 := _done_paid tasks (.user t) r r.isSome c
      split
      · rename_i c' heq; simpa [heq, settled] using h1
      · rename_i m c' heq
        refine paid_trans ?_ (finalize_paid _ _ _ _ _ _)
        simpa [heq, settled] using h1
    · exact timerFires_paid _ _ _

theorem unit_paid (tasks : List Job) (t : Task) (c : Ctx) :
    Paid c (settled (unit tasks t c)) := by
  have h1 : Paid c (settled (tryBody tasks t (enter t c))) := by
    refine paid_trans ?_ (tryBody_paid tasks t (enter t c))
    exact paid_same rfl rfl
  unfold unit
  split
  · rename_i x heq
    obtain ⟨m, c1⟩ := x
    simpa [heq, settled] using h1
  · rename_i c1 heq
    have h2 : Paid c c1 := by simpa [heq, settled] using h1
    split_ifs
    · exact paid_trans h2 (paid_same rfl rfl)
    · refine paid_trans h2 (paid_trans ?_ (late_paid _ _ _))
      exact paid_same rfl rfl

theorem report_foldl (results : List Result) : ∀ init : Int,
    results.foldl (fun errCount r => if !r.pass then errCount + 1 else errCount) init
      = init + failures results := by
  induction results with
  | nil => intro init; simp [failures]
  | cons r rest ih =>
    intro init
    simp only [List.foldl_cons, ih]
    cases hp : r.pass
    · simp [failures, List.filter_cons, hp] at ih ⊢
      omega
    · simp [failures, List.filter_cons, hp]

theorem report_eq (results : List Result) (stats : Option Stats) :
    o.report results stats = failures results := by
  simp only [o.report, report_foldl]
  omega

theorem failures_pos (results : List Result) :
    failures results ≠ 0 ↔ ∃ r ∈ results, r.pass = false := by
  simp only [failures, ne_eq, List.length_eq_zero, List.filter_eq_nil_iff, Bool.not_eq_true,
    Bool.not_eq_eq_eq_not, Bool.not_false, not_forall, Classical.not_imp, Bool.not_eq_true']
  constructor
  · rintro ⟨r, hm, hp⟩; exact ⟨r, hm, by simpa using hp⟩
  · rintro ⟨r, hm, hp⟩; exact ⟨r, hm, by simpa using hp⟩

/-- In every state of a run, and in every call of the consumer that is recorded, `bailCount`
is at most the number of failing records. -/
theorem series_paid (only : List Nat) (fuel : Nat) (tasks : List Job) (cursor : Nat) (dd : Delay)
    (g g' : State)
    (hP : g.stats.bailCount ≤ failures g.results
      ∧ ∀ r s, Ev.report r s ∈ g.trace → s.bailCount ≤ failures r)
    (h : (series only fuel tasks cursor dd g).state? = some g') :
    g'.stats.bailCount ≤ failures g'.results
      ∧ ∀ r s, Ev.report r s ∈ g'.trace → s.bailCount ≤ failures r := by
  refine series_inv only
    (fun g => g.stats.bailCount ≤ failures g.results
      ∧ ∀ r s, Ev.report r s ∈ g.trace → s.bailCount ≤ failures r)
    (fun _ => True) ?_ ?_ ?_ ?_ ?_ ?_ ?_ ?_ ?_ ?_ ?_ fuel tasks cursor dd g g' (fun _ _ => trivial) hP h
  · intro tasks t c _ hp
    obtain ⟨p1, p2⟩ := unit_paid tasks t c
    refine ⟨by omega, ?_⟩
    intro r s hm
    rw [(unit_trace tasks t c).1] at hm
    simp only [List.mem_append, List.mem_singleton] at hm
    rcases hm with hm | hm
    · exact hp.2 r s hm
    · cases hm
  · intro g dd cursor hp; exact hp
  · intro g hp; exact hp
  · intro g key hp; exact hp
  · intro g spec be ae fin d hp; exact hp
  · intro g hp; exact hp
  · intro g hp; exact hp
  · intro g prev hp
    refine ⟨hp.1, ?_⟩
    intro r s hm
    simp only [List.mem_append, List.mem_singleton] at hm
    rcases hm with hm | hm
    · exact hp.2 r s hm
    · cases hm
  · intro g hp
    refine ⟨hp.1, ?_⟩
    intro r s hm
    simp only [List.mem_append, List.mem_singleton, Ev.report.injEq] at hm
    rcases hm with hm | ⟨rfl, rfl⟩
    · exact hp.2 r s hm
    · exact hp.1
  · intro key t a be ae d _ j _; trivial
  · intro key spec a be ae d g _ j _; trivial

/-- A series that reaches its end has passed through the first closing task of its list:
no unit moves the cursor beyond it. -/
theorem series_reaches (only : List Nat) :
    ∀ (fuel : Nat) (body tail : List Job) (inside after : Option Nat) (cursor : Nat) (dd : Delay)
      (g g' : State),
      (∀ j ∈ body, j.isBody = true) → Closing tail inside after → cursor ≤ body.length →
      series only fuel (body ++ tail) cursor dd g = .done g' →
      ∃ fuel' g1, series only fuel' (body ++ tail) body.length dd g1 = .done g' := by
  intro fuel
  induction fuel with
  | zero => intro body tail inside after cursor dd g g' _ _ _ h; simp [series] at h
  | succ fuel ih =>
    intro body tail inside after cursor dd g g' hbody hclose hcur h
    by_cases hend : cursor = body.length
    · subst hend
      exact ⟨_, g, h⟩
    · have hlt : cursor < body.length := by omega
      have htc : (body ++ tail)[cursor]? = some body[cursor] := by
        rw [List.getElem?_append_left hlt, List.getElem?_eq_getElem hlt]
      have hjb : (body[cursor]).isBody = true := hbody _ (List.getElem_mem _)
      obtain ⟨hd, hhd, hhe⟩ := closing_head tail inside after hclose body
      cases hj : body[cursor] with
      | user t =>
        rw [hj] at htc
        have hbl := unit_below (body ++ tail) t (start g dd cursor) body.length hd hhd hhe
          (by simp only [start]; omega)
        cases hu : unit (body ++ tail) t (start g dd cursor) with
        | error x =>
          obtain ⟨m, c⟩ := x
          rw [series_user _ _ _ _ _ _ _ htc, hu] at h
          simp at h
        | ok c =>
          rw [hu] at hbl
          simp only [settled] at hbl
          rw [series_user_ok _ _ _ _ _ _ _ c htc hu] at h
          exact ih body tail inside after c.cursor dd c.g g' hbody hclose hbl
            (rethrown_eq_done _ _ _ h)
      | child key ch a be ae d =>
        rw [hj] at htc
        by_cases hb : g.isBailed a = true
        · rw [series_child_bailed _ _ _ _ _ _ _ _ _ _ _ _ htc hb] at h
          exact ih body tail inside after (cursor + 1) dd _ g' hbody hclose (by omega) h
        · rw [series_child _ _ _ _ _ _ _ _ _ _ _ _ htc (by simpa using hb)] at h
          cases hnr : nestedRun only fuel ch be ae d (pushed g key) with
          | fuel => simp [hnr] at h
          | escaped m ge => simp [hnr] at h
          | done g2 =>
            simp only [hnr] at h
            exact ih body tail inside after (cursor + 1) dd _ g' hbody hclose (by omega) h
      | pop => rw [hj] at hjb; simp [Job.isBody] at hjb
      | restoreStack prev => rw [hj] at hjb; simp [Job.isBody] at hjb
      | report => rw [hj] at hjb; simp [Job.isBody] at hjb

/-- The scan from a position at or before the first closing task of a list stops at a valid
index, the one of that task at the latest. -/
theorem skipForward_closing (body tail : List Job) (inside after : Option Nat)
    (hclose : Closing tail inside after) (depth i : Nat) (hi : i ≤ body.length) :
    ∃ k, skipForward depth ((body ++ tail).drop i) i = some k ∧ i ≤ k ∧ k ≤ body.length
      ∧ k < (body ++ tail).length := by
  obtain ⟨hd, hhd, hhe⟩ := closing_head tail inside after hclose body
  have hget : ((body ++ tail).drop i)[body.length - i]? = some hd := by
    rw [List.getElem?_drop, Nat.add_sub_cancel' hi]; exact hhd
  obtain ⟨k, hk⟩ := skipForward_some depth _ i ⟨body.length - i, hd, hget, hhe⟩
  have h1 := skipForward_le _ _ _ _ hk
  have h2 := skipForward_bound _ _ _ _ _ _ hk hget hhe
  have h3 : body.length < (body ++ tail).length := (List.getElem?_eq_some.1 hhd).1
  exact ⟨k, hk, h1, by omega, by omega⟩

/-- What the closing tasks of a list do: they run to the end of the list; `popSubjects`
takes the last name off the path stack, `restoreStack` and the consumer are recorded in the
trace. -/
theorem closing_done (only : List Nat) (fuel : Nat) (body tail : List Job)
    (inside after : Option Nat) (dd : Delay) (g g' : State) (hc : Closing tail inside after)
    (h : (series only fuel (body ++ tail) body.length dd g).state? = some g') :
    series only fuel (body ++ tail) body.length dd g = .done g'
      ∧ g'.results = g.results ∧ g'.stats = g.stats
      ∧ ((tail = [Job.pop] ∧ g'.trace = g.trace ∧ g'.subjects = g.subjects.dropLast)
        ∨ (∃ prev, tail = [Job.restoreStack prev, Job.pop] ∧ g'.trace = g.trace ++ [Ev.restore]
            ∧ g'.subjects = g.subjects.dropLast)
        ∨ (∃ prev, tail = [Job.restoreStack prev, Job.report]
            ∧ g'.trace = g.trace ++ [Ev.restore, Ev.report g.results g.stats]
            ∧ g'.subjects = g.subjects)) := by
  cases hc with
  | leaf =>
    cases fuel with
    | zero => simp [series, Res.state?] at h
    | succ f =>
      rw [series_pop _ _ _ _ _ _ (getElem?_append_head _ _ _)] at h ⊢
      cases f with
      | zero => simp [series, Res.state?] at h
      | succ f =>
        have hl : body.length + 1 = (body ++ [Job.pop]).length := by simp
        rw [hl, series_end] at h ⊢
        simp only [Res.state?, Option.some.injEq] at h
        subst h
        exact ⟨rfl, rfl, rfl, Or.inl ⟨rfl, rfl, rfl⟩⟩
  | spec =>
    cases fuel with
    | zero => simp [series, Res.state?] at h
    | succ f =>
      rw [series_restoreStack _ _ _ _ _ _ _ (getElem?_append_head _ _ _)] at h ⊢
      cases f with
      | zero => simp [series, Res.state?] at h
      | succ f =>
        rw [series_pop _ _ _ _ _ _ (getElem?_append_second _ _ _ _)] at h ⊢
        cases f with
        | zero => simp [series, Res.state?] at h
        | succ f =>
          have hl : body.length + 1 + 1
              = (body ++ [Job.restoreStack after, Job.pop]).length := by simp
          rw [hl, series_end] at h ⊢
          simp only [Res.state?, Option.some.injEq] at h
          subst h
          exact ⟨rfl, rfl, rfl, Or.inr (Or.inl ⟨after, rfl, rfl, rfl⟩)⟩
  | root =>
    cases fuel with
    | zero => simp [series, Res.state?] at h
    | succ f =>
      rw [series_restoreStack _ _ _ _ _ _ _ (getElem?_append_head _ _ _)] at h ⊢
      cases f with
      | zero => simp [series, Res.state?] at h
      | succ f =>
        rw [series_report _ _ _ _ _ _ (getElem?_append_second _ _ _ _)] at h ⊢
        cases f with
        | zero => simp [series, Res.state?] at h
        | succ f =>
          have hl : body.length + 1 + 1
              = (body ++ [Job.restoreStack after, Job.report]).length := by simp
          rw [hl, series_end] at h ⊢
          simp only [Res.state?, Option.some.injEq] at h
          subst h
          exact ⟨rfl, rfl, rfl, Or.inr (Or.inr ⟨after, rfl, by simp, rfl⟩)⟩

/-- The places of the tasks `runSpec` schedules are places of the spec. -/
theorem runSpec_site (only : List Nat) (spec : Spec) (a : Nat) (be ae : List Task) (dd : Delay)
    (j : Job) (q : List String) (u : Task)
    (hj : j ∈ spec.before.map Job.user
        ++ wrappers only spec a (be ++ spec.beforeEach) (spec.afterEach ++ ae) dd
        ++ spec.after.map Job.user)
    (hs : j.site q u) : Site spec be ae q u := by
  simp only [List.mem_append, List.mem_map] at hj
  rcases hj with (⟨t, ht, rfl⟩ | hw) | ⟨t, ht, rfl⟩
  · obtain ⟨rfl, rfl⟩ := hs
    exact Site.before _ _ _ _ ht
  · obtain ⟨key, ch, rfl, hmem, _⟩ := wrappers_child _ _ _ _ _ _ _ hw
    cases ch with
    | inl t =>
      obtain ⟨rfl, hu⟩ := hs
      exact Site.leaf _ _ _ _ t _ hmem hu
    | inr s =>
      obtain ⟨q2, rfl, hu⟩ := hs
      exact Site.group _ _ _ _ s _ _ hmem hu
  · obtain ⟨rfl, rfl⟩ := hs
    exact Site.after _ _ _ _ ht


theorem rethrown_escaped (b : Bool) (m : String) (g : State) :
    ∃ m2, rethrown b (.escaped m g) = .escaped m2 g := by
  cases b
  · exact ⟨m, by simp [rethrown]⟩
  · exact ⟨"Multiple finalization", by simp [rethrown]⟩

/-- The events of the list of a leaf test are events of its wrapper. -/
theorem labelled_leaf (body : List Job) (p : List String) (key : String) (t : Task) (a : Nat)
    (be ae : List Task) (d : Delay) (hmem : Job.child key (.inl t) a be ae d ∈ body) (e : Ev)
    (h : Labelled (be.map Job.user ++ [Job.user t] ++ ae.map Job.user) (p ++ [key]) e) :
    Labelled body p e := by
  rcases h with rfl | ⟨j, hjm, q, u, hs, rfl⟩
  · exact Or.inl rfl
  · have hu : u ∈ be ++ [t] ++ ae ∧ q = [] := by
      simp only [List.mem_append, List.mem_map, List.mem_singleton] at hjm
      rcases hjm with (⟨u2, hu2, rfl⟩ | rfl) | ⟨u2, hu2, rfl⟩
      · obtain ⟨rfl, rfl⟩ := hs
        exact ⟨by simp [hu2], rfl⟩
      · obtain ⟨rfl, rfl⟩ := hs
        exact ⟨by simp, rfl⟩
      · obtain ⟨rfl, rfl⟩ := hs
        exact ⟨by simp [hu2], rfl⟩
    obtain ⟨hu1, rfl⟩ := hu
    exact Or.inr ⟨_, hmem, [key], u, ⟨rfl, hu1⟩, by simp⟩

/-- The events of the list of `runSpec` for a group are events of the wrapper of the group. -/
theorem labelled_group (only : List Nat) (body : List Job) (p : List String) (key : String)
    (spec : Spec) (a a2 : Nat) (be ae : List Task) (d d2 : Delay)
    (hmem : Job.child key (.inr spec) a be ae d ∈ body) (e : Ev)
    (h : Labelled (spec.before.map Job.user
        ++ wrappers only spec a2 (be ++ spec.beforeEach) (spec.afterEach ++ ae) d2
        ++ spec.after.map Job.user) (p ++ [key]) e) :
    Labelled body p e := by
  rcases h with rfl | ⟨j, hjm, q, u, hs, rfl⟩
  · exact Or.inl rfl
  · exact Or.inr ⟨_, hmem, key :: q, u, ⟨q, rfl, runSpec_site only spec a2 be ae d2 j q u hjm hs⟩,
      by simp⟩

/-- The calls a series makes are labelled with the path stack of their place: started with
the path stack `p`, the list adds to the trace only calls at the places of its tasks, each
labelled for `p` followed by the names pushed at that place, and the `restoreStack` events
of nested groups.  When it reaches its end it has come to its first closing task with the
path stack `p` again; otherwise an exception has left the scheduler. -/
theorem series_labels (only : List Nat) :
    ∀ (fuel : Nat) (body tail : List Job) (inside after : Option Nat) (cursor : Nat) (dd : Delay)
      (g g' : State),
      (∀ j ∈ body, j.isBody = true) → Closing tail inside after → cursor ≤ body.length →
      (series only fuel (body ++ tail) cursor dd g).state? = some g' →
      ∃ ts, (∀ e ∈ ts, Labelled body g.subjects e)
        ∧ (((∃ m, series only fuel (body ++ tail) cursor dd g = .escaped m g')
              ∧ g'.trace = g.trace ++ ts)
          ∨ ∃ g1 fuel', g1.trace = g.trace ++ ts ∧ g1.subjects = g.subjects
              ∧ series only fuel' (body ++ tail) body.length dd g1 = .done g'
              ∧ series only fuel (body ++ tail) cursor dd g = .done g') := by
  intro fuel
  induction fuel with
  | zero => intro body tail inside after cursor dd g g' _ _ _ h; simp [series, Res.state?] at h
  | succ fuel ih =>
    intro body tail inside after cursor dd g g' hbody hclose hcur h
    by_cases hend : cursor = body.length
    · subst hend
      obtain ⟨hd, _⟩ := closing_done only _ body tail inside after dd g g' hclose h
      exact ⟨[], by simp, Or.inr ⟨g, fuel + 1, by simp, rfl, hd, hd⟩⟩
    · have hlt : cursor < body.length := by omega
      have htc : (body ++ tail)[cursor]? = some body[cursor] := by
        rw [List.getElem?_append_left hlt, List.getElem?_eq_getElem hlt]
      have hjb : (body[cursor]).isBody = true := hbody _ (List.getElem_mem _)
      have hmem : body[cursor] ∈ body := List.getElem_mem _
      obtain ⟨hd, hhd, hhe⟩ := closing_head tail inside after hclose body
      cases hj : body[cursor] with
      | user t =>
        rw [hj] at htc hmem
        have hf := unit_frame (body ++ tail) t (start g dd cursor)
        have hbl := unit_below (body ++ tail) t (start g dd cursor) body.length hd hhd hhe
          (by simp only [start]; omega)
        have hev : Labelled body g.subjects (Ev.call t.fn.id t.hookName (context g.subjects t)) :=
          Or.inr ⟨_, hmem, [], t, ⟨rfl, rfl⟩, by simp [callOf]⟩
        cases hu : unit (body ++ tail) t (start g dd cursor) with
        | error x =>
          obtain ⟨m, c⟩ := x
          rw [series_user _ _ _ _ _ _ _ htc, hu] at h ⊢
          simp only [Res.state?, Option.some.injEq] at h
          subst h
          rw [hu] at hf
          simp only [settled] at hf
          refine ⟨[Ev.call t.fn.id t.hookName (context g.subjects t)], ?_,
            Or.inl ⟨⟨m, rfl⟩, ?_⟩⟩
          · intro e he
            simp only [List.mem_singleton] at he
            subst he
            exact hev
          · rw [hf.trace]; rfl
        | ok c =>
          rw [hu] at hf hbl
          simp only [settled] at hf hbl
          rw [series_user_ok _ _ _ _ _ _ _ c htc hu] at h ⊢
          rw [rethrown_state] at h
          obtain ⟨ts, hts, hcase⟩ := ih body tail inside after c.cursor dd c.g g' hbody hclose
            hbl h
          have hsub : c.g.subjects = g.subjects := by rw [hf.subjects]; rfl
          have htr : c.g.trace
              = g.trace ++ [Ev.call t.fn.id t.hookName (context g.subjects t)] := by
            rw [hf.trace]; rfl
          rw [hsub] at hts
          refine ⟨Ev.call t.fn.id t.hookName (context g.subjects t) :: ts, ?_, ?_⟩
          · intro e he
            simp only [List.mem_cons] at he
            rcases he with rfl | he
            · exact hev
            · exact hts e he
          · rcases hcase with ⟨⟨m, hm⟩, htr2⟩ | ⟨g1, fuel', h1, h2, h3, h4⟩
            · left
              refine ⟨?_, by rw [htr2, htr]; simp⟩
              rw [hm]
              exact rethrown_escaped _ _ _
            · right
              exact ⟨g1, fuel', by rw [h1, htr]; simp, h2.trans hsub, h3, by rw [h4]; rfl⟩
      | child key ch a be ae d =>
        rw [hj] at htc hmem
        by_cases hb : g.isBailed a = true
        · rw [series_child_bailed _ _ _ _ _ _ _ _ _ _ _ _ htc hb] at h ⊢
          exact ih body tail inside after (cursor + 1) dd
            { g with units := g.units + 1, globalTimeout := none } g' hbody hclose (by omega) h
        · rw [series_child _ _ _ _ _ _ _ _ _ _ _ _ htc (by simpa using hb)] at h ⊢
          have hnested : ∀ g2, (nestedRun only fuel ch be ae d (pushed g key)).state? = some g2 →
              ∃ ts, (∀ e ∈ ts, Labelled body g.subjects e)
                ∧ (((∃ m, nestedRun only fuel ch be ae d (pushed g key) = .escaped m g2)
                      ∧ g2.trace = g.trace ++ ts)
                  ∨ (nestedRun only fuel ch be ae d (pushed g key) = .done g2
                      ∧ g2.trace = g.trace ++ ts ∧ g2.subjects = g.subjects)) := by
            intro g2 h2
            cases ch with
            | inl t =>
              simp only [nestedRun] at h2 ⊢
              rw [(leafJobs_body be ae t).1] at h2 ⊢
              obtain ⟨ts, hts, hc⟩ := ih _ [Job.pop] none none 0 d (pushed g key) g2
                (leafJobs_body be ae t).2 (Closing.leaf _) (Nat.zero_le _) h2
              have hts2 : ∀ e ∈ ts, Labelled body g.subjects e :=
                fun e he => labelled_leaf body g.subjects key t a be ae d hmem e (hts e he)
              rcases hc with ⟨hesc, htr⟩ | ⟨g1, fuel', h1, h2', h3, h4⟩
              · exact ⟨ts, hts2, Or.inl ⟨hesc, htr⟩⟩
              · obtain ⟨_, _, _, hcl⟩ := closing_done only fuel' _ [Job.pop] none none d g1 g2
                  (Closing.leaf _) (by rw [h3]; rfl)
                rcases hcl with ⟨_, ht, hs⟩ | ⟨prev, hx, _⟩ | ⟨prev, hx, _⟩
                · refine ⟨ts, hts2, Or.inr ⟨h4, by rw [ht, h1]; rfl, ?_⟩⟩
                  rw [hs, h2']
                  simp [pushed]
                · simp at hx
                · simp at hx
            | inr spec =>
              simp only [nestedRun, runSpec, enterSpec] at h2 ⊢
              rw [(runSpecJobs_body _ _ _ _ _ _ _ _).1] at h2 ⊢
              obtain ⟨ts, hts, hc⟩ := ih _ [Job.restoreStack (pushed g key).globalBail, Job.pop]
                none (pushed g key).globalBail 0 _ _ g2
                (runSpecJobs_body only spec _ _ _ (pushed g key).globalBail Job.pop _).2
                (Closing.spec _ _) (Nat.zero_le _) h2
              have hts2 : ∀ e ∈ ts, Labelled body g.subjects e :=
                fun e he => labelled_group only body g.subjects key spec a _ be ae d _ hmem e
                  (hts e he)
              rcases hc with ⟨hesc, htr⟩ | ⟨g1, fuel', h1, h2', h3, h4⟩
              · exact ⟨ts, hts2, Or.inl ⟨hesc, htr⟩⟩
              · obtain ⟨_, _, _, hcl⟩ := closing_done only fuel' _
                  [Job.restoreStack (pushed g key).globalBail, Job.pop] none
                  (pushed g key).globalBail _ g1 g2 (Closing.spec _ _) (by rw [h3]; rfl)
                rcases hcl with ⟨hx, _⟩ | ⟨prev, _, ht, hs⟩ | ⟨prev, hx, _⟩
                · simp at hx
                · refine ⟨ts ++ [Ev.restore], ?_, Or.inr ⟨h4, ?_, ?_⟩⟩
                  · intro e he
                    simp only [List.mem_append, List.mem_singleton] at he
                    rcases he with he | rfl
                    · exact hts2 e he
                    · exact Or.inl rfl
                  · rw [ht, h1, List.append_assoc]; rfl
                  · rw [hs, h2']
                    simp [pushed]
                · simp at hx
          cases hnr : nestedRun only fuel ch be ae d (pushed g key) with
          | fuel => simp [hnr, Res.state?] at h
          | escaped m ge =>
            simp only [hnr, Res.state?, Option.some.injEq] at h
            subst h
            obtain ⟨ts, hts, hc⟩ := hnested _ (by rw [hnr]; rfl)
            rcases hc with ⟨_, htr⟩ | ⟨hd2, _⟩
            · exact ⟨ts, hts, Or.inl ⟨⟨m, rfl⟩, htr⟩⟩
            · rw [hnr] at hd2; cases hd2
          | done g2 =>
            simp only [hnr] at h ⊢
            obtain ⟨ts, hts, hc⟩ := hnested _ (by rw [hnr]; rfl)
            rcases hc with ⟨⟨m, hm⟩, _⟩ | ⟨_, htr, hsub⟩
            · rw [hnr] at hm; cases hm
            · obtain ⟨ts2, hts2, hcase⟩ := ih body tail inside after (cursor + 1) dd
                { g2 with globalTimeout := none } g' hbody hclose (by omega) h
              have hts3 : ∀ e ∈ ts2, Labelled body g.subjects e := by
                intro e he
                have := hts2 e he
                simp only [hsub] at this
                exact this
              refine ⟨ts ++ ts2, ?_, ?_⟩
              · intro e he
                simp only [List.mem_append] at he
                rcases he with he | he
                · exact hts e he
                · exact hts3 e he
              · rcases hcase with ⟨hesc, htr2⟩ | ⟨g1, fuel', h1, h2, h3, h4⟩
                · left
                  refine ⟨hesc, ?_⟩
                  rw [htr2]
                  simp [htr]
                · right
                  refine ⟨g1, fuel', ?_, ?_, h3, h4⟩
                  · rw [h1]; simp [htr]
                  · rw [h2]; exact hsub
      | pop => rw [hj] at hjb; simp [Job.isBody] at hjb
      | restoreStack prev => rw [hj] at hjb; simp [Job.isBody] at hjb
      | report => rw [hj] at hjb; simp [Job.isBody] at hjb

/-- In a well-formed tree run with chains of hooks, a place where a test is called is the
place of that test in the tree: the names pushed are those of the groups down to the test,
followed by the name of the test. -/
theorem site_test (spec : Spec) (be ae : List Task) (q : List String) (u : Task)
    (hsite : Site spec be ae q u) :
    WellFormed spec → (∀ h ∈ be ++ ae, h.hookName ≠ none) → u.hookName = none →
      TestAt spec q u := by
  induction hsite with
  | before spec be ae u hm =>
    intro hw _ hu
    cases hw with
    | mk b be0 a0 ae0 t children hh _ _ =>
      exact absurd hu (hh u (by simp only [Spec.before] at hm; simp [hm]))
  | after spec be ae u hm =>
    intro hw _ hu
    cases hw with
    | mk b be0 a0 ae0 t children hh _ _ =>
      exact absurd hu (hh u (by simp only [Spec.after] at hm; simp [hm]))
  | leaf spec be ae key t u hm hu2 =>
    intro hw hch hu
    cases hw with
    | mk b be0 a0 ae0 t0 children hh _ _ =>
      simp only [Spec.beforeEach, Spec.afterEach, List.mem_append, List.mem_singleton] at hu2
      rcases hu2 with ((h1 | h1) | rfl) | (h1 | h1)
      · exact absurd hu (hch u (by simp [h1]))
      · exact absurd hu (hh u (by simp [h1]))
      · exact TestAt.here _ _ _ hm
      · exact absurd hu (hh u (by simp [h1]))
      · exact absurd hu (hch u (by simp [h1]))
  | group spec be ae key s q u hm _ ih =>
    intro hw hch hu
    cases hw with
    | mk b be0 a0 ae0 t0 children hh _ hs =>
      refine TestAt.under _ _ s _ _ hm (ih (hs key s hm) ?_ hu)
      intro h hmem
      simp only [Spec.beforeEach, Spec.afterEach, List.mem_append] at hmem
      rcases hmem with (h1 | h1) | (h1 | h1)
      · exact hch h (by simp [h1])
      · exact hh h (by simp [h1])
      · exact hh h (by simp [h1])
      · exact hch h (by simp [h1])

/-- The name pushed by the wrapper of a child is popped when the nested run reaches its end:
the path stack is then the one the wrapper was started with. -/
theorem nested_subjects (only : List Nat) (fuel : Nat) (key : String) (ch : Task ⊕ Spec)
    (be ae : List Task) (d : Delay) (g g2 : State)
    (h : nestedRun only fuel ch be ae d (pushed g key) = .done g2) :
    g2.subjects = g.subjects := by
  cases ch with
  | inl t =>
    simp only [nestedRun] at h
    rw [(leafJobs_body be ae t).1] at h
    obtain ⟨ts, _, hc⟩ := series_labels only fuel _ [Job.pop] none none 0 d (pushed g key) g2
      (leafJobs_body be ae t).2 (Closing.leaf _) (Nat.zero_le _) (by rw [h]; rfl)
    rcases hc with ⟨⟨m, hm⟩, _⟩ | ⟨g1, fuel', _, h2, h3, _⟩
    · rw [h] at hm; cases hm
    · obtain ⟨_, _, _, hcl⟩ := closing_done only fuel' _ [Job.pop] none none d g1 g2
        (Closing.leaf _) (by rw [h3]; rfl)
      rcases hcl with ⟨_, _, hs⟩ | ⟨prev, hx, _⟩ | ⟨prev, hx, _⟩
      · rw [hs, h2]; simp [pushed]
      · simp at hx
      · simp at hx
  | inr spec =>
    simp only [nestedRun, runSpec, enterSpec] at h
    rw [(runSpecJobs_body _ _ _ _ _ _ _ _).1] at h
    obtain ⟨ts, _, hc⟩ := series_labels only fuel _
      [Job.restoreStack (pushed g key).globalBail, Job.pop] none (pushed g key).globalBail 0 _ _
      g2 (runSpecJobs_body only spec _ _ _ (pushed g key).globalBail Job.pop _).2
      (Closing.spec _ _) (Nat.zero_le _) (by rw [h]; rfl)
    rcases hc with ⟨⟨m, hm⟩, _⟩ | ⟨g1, fuel', _, h2, h3, _⟩
    · rw [h] at hm; cases hm
    · obtain ⟨_, _, _, hcl⟩ := closing_done only fuel' _
        [Job.restoreStack (pushed g key).globalBail, Job.pop] none (pushed g key).globalBail _
        g1 g2 (Closing.spec _ _) (by rw [h3]; rfl)
      rcases hcl with ⟨hx, _⟩ | ⟨prev, _, _, hs⟩ | ⟨prev, hx, _⟩
      · simp at hx
      · rw [hs, h2]; simp [pushed]
      · simp at hx

/-- The trace of a run: calls at the places of the root spec, each labelled with the names
pushed at its place, and `restoreStack` events; a run that reaches its end has the path
stack empty and ends with the `restoreStack` of the root and the call of the consumer. -/
theorem run_labels (only : List Nat) (fuel : Nat) (rootSpec : Spec) (g' : State)
    (hrun : (run only fuel rootSpec).state? = some g') :
    ∃ ts, (∀ e ∈ ts, e = Ev.restore ∨ ∃ q u, Site rootSpec [] [] q u ∧ e = callOf q u)
      ∧ (((∃ m, run only fuel rootSpec = .escaped m g') ∧ g'.trace = ts)
        ∨ (run only fuel rootSpec = .done g' ∧ g'.subjects = []
            ∧ g'.trace = ts ++ [Ev.restore, Ev.report g'.results g'.stats])) := by
  simp only [run, runSpec, enterSpec] at hrun ⊢
  rw [(runSpecJobs_body _ _ _ _ _ _ _ _).1] at hrun ⊢
  obtain ⟨ts, hts, hc⟩ := series_labels only fuel _ [Job.restoreStack none, Job.report]
    none none 0 _ _ g' (runSpecJobs_body only rootSpec _ _ _ none Job.report _).2
    (Closing.root _ _) (Nat.zero_le _) hrun
  refine ⟨ts, ?_, ?_⟩
  · intro e he
    rcases hts e he with h | ⟨j, hj, q, u, hs, rfl⟩
    · exact Or.inl h
    · exact Or.inr ⟨q, u, runSpec_site only rootSpec _ [] [] _ j q u hj hs, by simp⟩
  · rcases hc with ⟨hesc, htr⟩ | ⟨g1, fuel', h1, h2, h3, h4⟩
    · exact Or.inl ⟨hesc, by simpa using htr⟩
    · obtain ⟨_, hr, hst, hcl⟩ := closing_done only fuel' _ [Job.restoreStack none, Job.report]
        none none _ g1 g' (Closing.root _ _) (by rw [h3]; rfl)
      rcases hcl with ⟨hx, _⟩ | ⟨prev, hx, _⟩ | ⟨prev, _, ht, hs⟩
      · simp at hx
      · simp at hx
      · right
        refine ⟨h4, by rw [hs, h2], ?_⟩
        rw [ht, h1, hr, hst]
        simp

/-- In the task list of a leaf test, `[pre, h, post, t, deep, shallow, pop]`, where `h` is a
`beforeEach` hook, the later `beforeEach` hooks `post`, the test `t` and the `afterEach` hooks
`deep` are deeper than `h`, and the `afterEach` hooks `shallow` are not: when `h` fails (not
by a timeout) with a value whose message can be computed, `finalize` returns with the cursor
on the first task after `deep`, sets only the flag of the installed activation and counts one
bail; in the rest of the series only hooks of `shallow` are entered. -/
theorem failing_hook_lands (pre post deep shallow : List Task) (h t : Task)
    (err : Option Thrown) (text : String) (c : Ctx) (cur : Task) (label : String) (a : Nat)
    (hhook : h.hookName = some HookName.beforeEach)
    (hpost : ∀ u ∈ post, h.depth < u.depth) (ht : h.depth < t.depth)
    (hdeep : ∀ u ∈ deep, h.depth < u.depth) (hshallow : ∀ u ∈ shallow, u.depth ≤ h.depth)
    (hcursor : c.cursor = pre.length + 1) (hfin : c.u.isFinalized = false)
    (hcur : c.g.globalTestOrHook = some (cur, label))
    (hbail : c.g.globalBail = some a) (ha : a < c.g.bailed.length)
    (herr : errorText err = .ok text) :
    ∃ c', finalize (leafJobs (pre ++ h :: post) t (deep ++ shallow)) (.user h) err true false c
        = .ok c'
      ∧ c'.cursor = pre.length + 1 + post.length + 1 + deep.length
      ∧ (leafJobs (pre ++ h :: post) t (deep ++ shallow))[c'.cursor]?
          = (shallow.map Job.user ++ [Job.pop])[0]?
      ∧ c'.g.isBailed a = true ∧ (∀ b, a ≠ b → c'.g.isBailed b = c.g.isBailed b)
      ∧ c'.g.stats.bailCount = c.g.stats.bailCount + 1
      ∧ c'.g.trace = c.g.trace
      ∧ ∀ (only : List Nat) (fuel : Nat) (dd : Delay) (g' : State),
          (series only fuel (leafJobs (pre ++ h :: post) t (deep ++ shallow)) c'.cursor dd c'.g).state?
              = some g' →
          ∃ ts, g'.trace = c'.g.trace ++ ts
            ∧ ∀ e ∈ ts, ∃ u ∈ shallow, ∃ l, e = Ev.call u.fn.id u.hookName l := by
  have hskip := skipForward_leaf pre post deep shallow h t hpost ht hdeep hshallow
  obtain ⟨hsplit, hlen⟩ := leafJobs_split pre post deep shallow h t
  have hres : ∃ g1, finalize (leafJobs (pre ++ h :: post) t (deep ++ shallow)) (.user h) err
        true false c
      = .ok { g := g1, u := { c.u with isFinalized := true, timeout := none },
              cursor := pre.length + 1 + post.length + 1 + deep.length, nexts := c.nexts + 1 }
      ∧ g1.bailed = c.g.bailed.set a true ∧ g1.stats.bailCount = c.g.stats.bailCount + 1
      ∧ g1.trace = c.g.trace := by
    simp only [finalize, hfin, Bool.false_eq_true, if_false, if_true, Assertion, hcur, herr, fail,
      globalBail, hbail, Job.hookName, hhook, Job.depth, hcursor, hskip]
    exact ⟨_, rfl, rfl, rfl, rfl⟩
  obtain ⟨g1, hfz, hb1, hb2, hb3⟩ := hres
  refine ⟨_, hfz, rfl, ?_, ?_, ?_, hb2, hb3, ?_⟩
  · rw [hsplit, List.getElem?_append_right (by rw [hlen]), hlen, Nat.sub_self]
  · simp [State.isBailed, hb1, List.getElem?_set, ha]
  · intro b hb
    simp [State.isBailed, hb1, List.getElem?_set, hb]
  · intro only fuel dd g' hrun
    obtain ⟨ts, hts, hall⟩ := series_flat only fuel _ _ dd _ g' (leafJobs_flat _ _ _) hrun
    refine ⟨ts, hts, ?_⟩
    intro e he
    obtain ⟨i, j, hi, hj, hem⟩ := hall e he
    rw [hsplit, List.getElem?_append_right (by rw [hlen]; exact hi)] at hj
    have hmem := List.getElem?_mem hj
    simp only [List.mem_append, List.mem_map, List.mem_singleton] at hmem
    rcases hmem with ⟨u, hu, rfl⟩ | rfl
    · cases e with
      | call fn hk l =>
        obtain ⟨h1, h2⟩ := hem
        exact ⟨u, hu, l, by rw [h1, h2]⟩
      | restore => exact absurd hem id
      | report rs st => exact absurd hem id
    · cases e <;> exact absurd hem id

theorem setChild_cases (children : List (String × (Task ⊕ Spec))) (name : String)
    (v x : Task ⊕ Spec) (key : String) (h : (key, x) ∈ setChild children name v) :
    (key, x) ∈ children ∨ x = v := by
  unfold setChild at h
  split_ifs at h
  · simp only [List.mem_map] at h
    obtain ⟨kv, hm, he⟩ := h
    split_ifs at he
    · simp only [Prod.mk.injEq] at he
      exact Or.inr he.2.symm
    · subst he
      exact Or.inl hm
  · simp only [List.mem_append, List.mem_singleton, Prod.mk.injEq] at h
    rcases h with h | h
    · exact Or.inl h
    · exact Or.inr h.2

theorem graded_empty (d : Nat) : Graded d (.mk [] [] [] [] none []) :=
  Graded.mk _ _ _ _ _ _ _ (by simp) (by simp) (by simp) (by simp) (by simp) (by simp)

theorem graded_plug (d : Nat) (parent child : Spec) (name : String) (hp : Graded d parent)
    (hc : Graded (d + 1) child) : Graded d (plug parent name child) := by
  cases hp with
  | mk _ b be a ae t children h1 h2 h3 h4 h5 h6 =>
    refine Graded.mk _ _ _ _ _ _ _ h1 h2 h3 h4 ?_ ?_
    · intro key tk hm
      rcases setChild_cases _ _ _ _ _ hm with hm | hm
      · exact h5 key tk hm
      · cases hm
    · intro key s hm
      rcases setChild_cases _ _ _ _ _ hm with hm | hm
      · exact h6 key s hm
      · cases hm
        exact hc

theorem mkTask_depth (isRunning : Bool) (globalDepth : Nat) (fn : Fn) (hookName : Option HookName)
    (task : Task) (h : mkTask isRunning globalDepth fn hookName = .ok task) :
    task.depth = globalDepth + (if hookName.isNone then 1 else 0) ∧ task.hookName = hookName := by
  unfold mkTask at h
  by_cases hr : isRunning = true
  · simp [hr] at h
  · simp only [hr, if_false] at h
    cases hv : validateDone fn true with
    | error m => rw [hv] at h; cases h
    | ok r =>
      rw [hv] at h
      simp only [Bool.false_eq_true, if_false, Except.ok.injEq] at h
      subst h
      exact ⟨rfl, rfl⟩

theorem graded_o (subject : String) (predicate : Fn) (d d1 : Def)
    (h : o subject predicate d = .ok d1) :
    d1.path = d.path ∧ d1.globalDepth = d.globalDepth
      ∧ (Graded d.globalDepth d.globalContext → Graded d.globalDepth d1.globalContext) := by
  unfold o at h
  cases hm : mkTask d.isRunning d.globalDepth predicate none with
  | error m => rw [hm] at h; cases h
  | ok task =>
    rw [hm] at h
    obtain ⟨hd, hn⟩ := mkTask_depth _ _ _ _ _ hm
    cases hg : d.globalContext with
    | mk b be a ae t children =>
      rw [hg] at h
      simp only [Except.ok.injEq] at h
      subst h
      refine ⟨rfl, rfl, ?_⟩
      intro hgr
      cases hgr with
      | mk _ _ _ _ _ _ _ h1 h2 h3 h4 h5 h6 =>
        refine Graded.mk _ _ _ _ _ _ _ h1 h2 h3 h4 ?_ ?_
        · intro key tk hmem
          rcases setChild_cases _ _ _ _ _ hmem with hmem | hmem
          · exact h5 key tk hmem
          · cases hmem
            exact ⟨by simpa using hd, hn⟩
        · intro key s hmem
          rcases setChild_cases _ _ _ _ _ hmem with hmem | hmem
          · exact h6 key s hmem
          · cases hmem

theorem graded_hook (name : HookName) (predicate : Fn) (d d1 : Def)
    (h : hook name predicate d = .ok d1) :
    d1.path = d.path ∧ d1.globalDepth = d.globalDepth
      ∧ (Graded d.globalDepth d.globalContext → Graded d.globalDepth d1.globalContext) := by
  unfold hook at h
  cases hg : d.globalContext with
  | mk b be a ae t children =>
    rw [hg] at h
    simp only at h
    split_ifs at h with hlen
    cases hm : mkTask d.isRunning d.globalDepth predicate (some name) with
    | error m => rw [hm] at h; cases h
    | ok task =>
      rw [hm] at h
      obtain ⟨hd, hn⟩ := mkTask_depth _ _ _ _ _ hm
      simp only [Except.ok.injEq] at h
      subst h
      refine ⟨rfl, rfl, ?_⟩
      intro hgr
      cases hgr with
      | mk _ _ _ _ _ _ _ h1 h2 h3 h4 h5 h6 =>
        cases name with
        | before => exact Graded.mk _ _ _ _ _ _ _ h1 h2 h3 h4 h5 h6
        | after => exact Graded.mk _ _ _ _ _ _ _ h1 h2 h3 h4 h5 h6
        | beforeEach =>
          refine Graded.mk _ _ _ _ _ _ _ (by simp) h2 ?_ h4 h5 h6
          intro u hu
          simp only [List.mem_singleton] at hu
          subst hu
          exact ⟨by simpa using hd, hn⟩
        | afterEach =>
          refine Graded.mk _ _ _ _ _ _ _ h1 (by simp) h3 ?_ h5 h6
          intro u hu
          simp only [List.mem_singleton] at hu
          subst hu
          exact ⟨by simpa using hd, hn⟩

theorem graded_specTimeout (t : Option Delay) (d d1 : Def)
    (h : o.specTimeout t d = .ok d1) :
    d1.path = d.path ∧ d1.globalDepth = d.globalDepth
      ∧ (Graded d.globalDepth d.globalContext → Graded d.globalDepth d1.globalContext) := by
  unfold o.specTimeout at h
  split_ifs at h
  cases hg : d.globalContext with
  | mk b be a ae st children =>
    rw [hg] at h
    simp only at h
    split_ifs at h
    cases t with
    | none => cases h
    | some t =>
      simp only [Except.ok.injEq] at h
      subst h
      refine ⟨rfl, rfl, ?_⟩
      intro hgr
      cases hgr with
      | mk _ _ _ _ _ _ _ h1 h2 h3 h4 h5 h6 => exact Graded.mk _ _ _ _ _ _ _ h1 h2 h3 h4 h5 h6

/-- The definition function of a group in a clean definition phase returns. -/
theorem clean_specBody (calls : List (Def → Except (String × Def) Def)) (d d1 : Def)
    (h : Clean calls d d1) : specBody calls none d = .ok d1 := by
  induction h with
  | nil d => rfl
  | test subject predicate rest d d1 d2 h1 _ ih => simp only [specBody, h1, ih]
  | only subject predicate rest d d1 d2 h1 _ ih => simp only [specBody, h1, ih]
  | hook name predicate rest d d1 d2 h1 _ ih => simp only [specBody, h1, ih]
  | specTimeout t rest d d1 d2 h1 _ ih => simp only [specBody, h1, ih]
  | spec subject calls rest bail d d1 d2 d3 _ h2 _ _ ih => simp only [specBody, h2, ih]

/-- What a clean definition phase leaves is what the calls leave one after the other. -/
theorem clean_foldl (calls : List (Def → Except (String × Def) Def)) (d d1 : Def)
    (h : Clean calls d d1) :
    calls.foldl (fun d call => match call d with
      | .ok d => d
      | .error (_, d) => d) d = d1 := by
  induction h with
  | nil d => rfl
  | test subject predicate rest d d1 d2 h1 _ ih => simp only [List.foldl_cons, h1, ih]
  | only subject predicate rest d d1 d2 h1 _ ih => simp only [List.foldl_cons, h1, ih]
  | hook name predicate rest d d1 d2 h1 _ ih => simp only [List.foldl_cons, h1, ih]
  | specTimeout t rest d d1 d2 h1 _ ih => simp only [List.foldl_cons, h1, ih]
  | spec subject calls rest bail d d1 d2 d3 _ h2 _ _ ih => simp only [List.foldl_cons, h2, ih]

/-- A clean definition phase ends in the group it started in, at the same depth, and keeps
the depths in order: when the current group was graded at `globalDepth`, it still is. -/
theorem clean_graded (calls : List (Def → Except (String × Def) Def)) (d d1 : Def)
    (h : Clean calls d d1) :
    d1.path = d.path ∧ d1.globalDepth = d.globalDepth
      ∧ (Graded d.globalDepth d.globalContext → Graded d.globalDepth d1.globalContext) := by
  induction h with
  | nil d => exact ⟨rfl, rfl, id⟩
  | test subject predicate rest d d1 d2 h1 _ ih =>
    obtain ⟨k1, k2, k3⟩ := graded_o _ _ _ _ h1
    exact ⟨ih.1.trans k1, ih.2.1.trans k2, fun hg => k2 ▸ ih.2.2 (k2 ▸ k3 hg)⟩
  | only subject predicate rest d d1 d2 h1 _ ih =>
    obtain ⟨k1, k2, k3⟩ := graded_o _ _ _ _ h1
    exact ⟨ih.1.trans k1, ih.2.1.trans k2, fun hg => k2 ▸ ih.2.2 (k2 ▸ k3 hg)⟩
  | hook name predicate rest d d1 d2 h1 _ ih =>
    obtain ⟨k1, k2, k3⟩ := graded_hook _ _ _ _ h1
    exact ⟨ih.1.trans k1, ih.2.1.trans k2, fun hg => k2 ▸ ih.2.2 (k2 ▸ k3 hg)⟩
  | specTimeout t rest d d1 d2 h1 _ ih =>
    obtain ⟨k1, k2, k3⟩ := graded_specTimeout _ _ _ h1
    exact ⟨ih.1.trans k1, ih.2.1.trans k2, fun hg => k2 ▸ ih.2.2 (k2 ▸ k3 hg)⟩
  | spec subject calls rest bail d d1 d2 d3 hin h2 _ ihin ih =>
    have hbody := clean_specBody _ _ _ hin
    obtain ⟨p1, p2, p3⟩ := ihin
    simp only at p1 p2 p3
    have p4 := p3 (graded_empty _)
    unfold o.spec at h2
    split_ifs at h2
    simp only [hbody] at h2
    rw [p1] at h2
    simp only [List.length_cons, Nat.add_sub_cancel_left, leave, Except.ok.injEq] at h2
    have k1 : d2.path = d.path := by rw [← h2]
    have k2 : d2.globalDepth = d.globalDepth := by rw [← h2]; simp [p2]
    have k3 : Graded d.globalDepth d.globalContext → Graded d.globalDepth d2.globalContext := by
      intro hg
      rw [← h2]
      simp only
      exact graded_plug _ _ _ _ (graded_plug _ _ _ _ hg (graded_empty _)) p4
    exact ⟨ih.1.trans k1, ih.2.1.trans k2, fun hg => k2 ▸ ih.2.2 (k2 ▸ k3 hg)⟩

theorem short_pairwise {α : Type} (r : α → α → Prop) (l : List α) (h : l.length ≤ 1) :
    l.Pairwise r := by
  match l, h with
  | [], _ => exact List.Pairwise.nil
  | [x], _ => exact List.pairwise_singleton _ _
  | _ :: _ :: _, h => simp at h

/-- The chains `runSpec` computes for a graded group of depth `d` are in order for the
level below. -/
theorem chained_inherit (d : Nat) (spec : Spec) (be ae : List Task) (hg : Graded d spec)
    (hc : Chained d be ae) :
    Chained (d + 1) (inherit (be, ae) spec).1 (inherit (be, ae) spec).2 := by
  cases hg with
  | mk _ b be0 a ae0 t children h1 h2 h3 h4 h5 h6 =>
    obtain ⟨c1, c2, c3, c4⟩ := hc
    simp only [inherit, Spec.beforeEach, Spec.afterEach]
    refine ⟨?_, ?_, ?_, ?_⟩
    · intro u hu
      rcases List.mem_append.1 hu with hu | hu
      · exact ⟨(c1 u hu).1, Nat.lt_succ_of_lt (c1 u hu).2⟩
      · exact ⟨(h3 u hu).2, by rw [(h3 u hu).1]; exact Nat.lt_succ_self _⟩
    · rw [List.pairwise_append]
      refine ⟨c2, short_pairwise _ _ h1, ?_⟩
      intro u hu v hv
      rw [(h3 v hv).1]
      exact (c1 u hu).2
    · intro u hu
      rcases List.mem_append.1 hu with hu | hu
      · rw [(h4 u hu).1]; exact Nat.lt_succ_self _
      · exact Nat.lt_succ_of_lt (c3 u hu)
    · rw [List.pairwise_append]
      refine ⟨short_pairwise _ _ h2, c4, ?_⟩
      intro u hu v hv
      rw [(h4 u hu).1]
      exact c3 v hv

/-- In a graded tree, the wrapper of every leaf test holds chains that are in order, and the
test is deeper than every hook of its `beforeEach` chain. -/
theorem leaf_chained (only : List Nat) (spec : Spec) (be ae be1 ae1 : List Task) (t : Task)
    (h : Leaf only spec be ae be1 t ae1) :
    ∀ d, Graded d spec → Chained d be ae →
      ∃ d1, Chained (d1 + 1) be1 ae1 ∧ t.depth = d1 + 1 ∧ t.hookName = none := by
  induction h with
  | here spec be ae key t a dl be1 ae1 hm =>
    intro d hg hc
    obtain ⟨key2, ch, hj, hmem, _⟩ := wrappers_child _ _ _ _ _ _ _ hm
    injection hj with e1 e2 e3 e4 e5 e6
    subst e1 e2 e4 e5
    have hch := chained_inherit d spec be ae hg hc
    cases hg with
    | mk _ b be0 a0 ae0 st children h1 h2 h3 h4 h5 h6 =>
      exact ⟨d, hch, (h5 key t hmem).1, (h5 key t hmem).2⟩
  | under spec be ae key s a dl be1 ae1 be2 ae2 t hm _ ih =>
    intro d hg hc
    obtain ⟨key2, ch, hj, hmem, _⟩ := wrappers_child _ _ _ _ _ _ _ hm
    injection hj with e1 e2 e3 e4 e5 e6
    subst e1 e2 e4 e5
    have hch := chained_inherit d spec be ae hg hc
    cases hg with
    | mk _ b be0 a0 ae0 st children h1 h2 h3 h4 h5 h6 =>
      exact ih (d + 1) (h6 key s hmem) hch

/-- In a chain of `afterEach` hooks in order, the hooks after the ones deeper than `n` are
not deeper than `n`. -/
theorem dropWhile_shallow (n : Nat) : ∀ ae : List Task,
    ae.Pairwise (fun u v => v.depth < u.depth) →
    ∀ u ∈ ae.dropWhile (fun u => decide (n < u.depth)), u.depth ≤ n := by
  intro ae
  induction ae with
  | nil => intro _ u hu; simp at hu
  | cons x xs ih =>
    intro hp u hu
    rw [List.pairwise_cons] at hp
    by_cases hx : n < x.depth
    · rw [List.dropWhile_cons_of_pos (by simpa using hx)] at hu
      exact ih hp.2 u hu
    · rw [List.dropWhile_cons_of_neg (by simpa using hx)] at hu
      rcases List.mem_cons.1 hu with rfl | hu
      · omega
      · have := hp.1 u hu
        omega

/-- Nothing throws in the definition phase `nestedCalls`. -/
theorem clean_nestedCalls : Clean nestedCalls {} (define nestedCalls) :=
  Clean.hook _ _ _ _ _ _ rfl
    (Clean.hook _ _ _ _ _ _ rfl
      (Clean.spec "G" groupCalls [] 90 _ _ _ _
        (Clean.hook _ _ _ _ _ _ rfl (Clean.hook _ _ _ _ _ _ rfl
          (Clean.test _ _ _ _ _ _ rfl (Clean.nil _))))
        rfl (Clean.nil _)))

/-- The wrapper of the test "t" of `nestedTree` holds the chains of the root group and of
the group "G". -/
theorem leaf_nestedTree :
    Leaf [] nestedTree [] [] [outerBefore, innerBefore] nestedTest [innerAfter, outerAfter] :=
  Leaf.under nestedTree [] [] "G" _ 0 (Delay.ms 200) [outerBefore] [outerAfter] _ _ _
    (List.Mem.head _)
    (Leaf.here _ [outerBefore] [outerAfter] "t" nestedTest 1 (Delay.ms 200) _ _ (List.Mem.head _))

/-- When the conversion of the thrown value to a message throws, `finalize` of a unit that
is not finalized raises that exception after the incomplete record was pushed: the unit is
finalized, `next` is not asked for, and the cursor, the flags and `stats` are as before. -/
theorem finalize_unprintable (tasks : List Job) (task : Job) (err : Option Thrown)
    (isTimeout : Bool) (c : Ctx) (cur : Task) (label : String) (m : String)
    (hfin : c.u.isFinalized = false) (hcur : c.g.globalTestOrHook = some (cur, label))
    (herr : errorText err = .error m) :
    ∃ c', finalize tasks task err true isTimeout c = .error (m, c')
      ∧ c'.u.isFinalized = true ∧ c'.nexts = c.nexts ∧ c'.cursor = c.cursor
      ∧ c'.g.bailed = c.g.bailed ∧ c'.g.stats = c.g.stats
      ∧ ∃ r, c'.g.results = c.g.results ++ [r] ∧ r.pass = true := by
  simp only [finalize, hfin, Bool.false_eq_true, if_false, if_true, Assertion, hcur, herr]
  exact ⟨_, rfl, rfl, rfl, rfl, rfl, rfl, _, rfl, rfl⟩

/-- A failure that is not a timeout sets the flag of the installed activation and counts one
bail, or the conversion of the thrown value throws and leaves the flags and `stats`. -/
theorem finalize_cases (tasks : List Job) (task : Job) (err : Option Thrown) (c : Ctx)
    (cur : Task) (label : String) (a : Nat)
    (hfin : c.u.isFinalized = false) (hcur : c.g.globalTestOrHook = some (cur, label))
    (hbail : c.g.globalBail = some a) (ha : a < c.g.bailed.length) :
    ((settled (finalize tasks task err true false c)).g.isBailed a = true
        ∧ (settled (finalize tasks task err true false c)).g.stats.bailCount
            = c.g.stats.bailCount + 1)
      ∨ ∃ m c', errorText err = .error m
          ∧ finalize tasks task err true false c = .error (m, c')
          ∧ c'.g.bailed = c.g.bailed ∧ c'.g.stats = c.g.stats := by
  cases hE : errorText err with
  | ok text => exact Or.inl (finalize_bails tasks task err c cur label a text hfin hcur hbail ha hE)
  | error m =>
    obtain ⟨c', h1, _, _, _, h5, h6, _⟩ :=
      finalize_unprintable tasks task err false c cur label m hfin hcur hE
    exact Or.inr ⟨m, c', rfl, h1, h5, h6⟩

/-! ### The claims -/

/-- C1, on the code: the tests registered as "2" and then "1" are run in the order "1", "2":
`Object.keys` lists array-index keys first, in ascending order, so the children do not run
in the order of their registration. -/
theorem C1_numeric_names_run_out_of_order :
    (numericNames.run 50).done?.map (fun g => calls g.trace) = some [(2, "1"), (1, "2")] := by
  decide

/-- C3, on the code: the run of the scenario hands three records to the consumer, not two:
the passing record of `T1`, the incomplete (passing) record left by `o(1).equals(2)` when
`plainAssertion` throws, and the failing record made by `finalize`; `bailCount` is 1, `B0`
and `A0` are entered once, `B1` and `A1` twice. -/
theorem C3_scenario_has_three_records :
    (scenario.run 50).done?.map (fun g =>
        (g.results.map (fun r => (r.pass, r.message, r.context)), g.stats.bailCount,
          (calls g.trace).map Prod.fst,
          g.trace.getLast? == some (Ev.report g.results g.stats)))
      = some ([(true, "1\n  should equal\n1", "T1"),
               (true, "Incomplete assertion in the test definition starting at...", "T2"),
               (false, "1\n  should equal\n2", "T2")], 1,
              [10, 11, 1, 12, 11, 2, 12, 13], true) := by
  decide

/-- C10, on the code: when a body calls `done()` twice before it returns, the second call
throws into the body, the `catch` of `next` calls `finalize` again and `Multiple finalization`
leaves the scheduler: the following test is not started and the consumer is not called. -/
theorem C10_double_done_escapes :
    (match doneTwice.run 50 with
      | .escaped m g => some (m, g.trace)
      | _ => none)
      = some ("Multiple finalization", [Ev.call 1 none "twice"]) := by
  decide

/-- C7. When the timer of a unit that is not finalized fires, the unit is finalized with
exactly one new record, which fails, belongs to the running task and has the message
`async test timed out after <delay>ms...`; `next` is asked for once; no `bailed` flag is
set, `stats` (so `bailCount`) is unchanged, and the cursor is not moved by a skip-forward
scan.  In a series, a unit whose body returned without finalizing it and whose timer fires
first hands over to the task at the cursor its body left, with the flags, `stats`, the path
stack and the installed `globalBail` as they were and one failing record added. -/
theorem C7_timeout_failure (only : List Nat) (fuel : Nat) (tasks : List Job) (task : Job)
    (c : Ctx) (t : Task) (label : String) (cursor : Nat) (dd : Delay) (g : State) (u : Task)
    (c1 : Ctx)
    (hfin : c.u.isFinalized = false) (hcur : c.g.globalTestOrHook = some (t, label))
    (hjob : tasks[cursor]? = some (.user u))
    (htry : tryBody tasks u (enter u (start g dd cursor)) = .ok c1)
    (hun : c1.u.isFinalized = false) (hlate : u.fn.later = Late.timer) :
    (∃ c' r, timerFires tasks task c = .ok c'
      ∧ c'.g.results = c.g.results ++ [r] ∧ r.pass = false ∧ r.task = t.fn.id
      ∧ r.message = "async test timed out after " ++ c.u.delay.text
          ++ "ms\nWarning: assertions starting with `???` may not be properly labelled"
      ∧ c'.u.isFinalized = true ∧ c'.nexts = c.nexts + 1
      ∧ c'.g.bailed = c.g.bailed ∧ c'.g.stats = c.g.stats ∧ c'.g.globalBail = c.g.globalBail
      ∧ c'.cursor = c.cursor ∧ c'.g.subjects = c.g.subjects)
    ∧ ∃ g2 r, series only (fuel + 1) tasks cursor dd g = series only fuel tasks c1.cursor dd g2
        ∧ g2.results = c1.g.results ++ [r] ∧ r.pass = false
        ∧ g2.bailed = c1.g.bailed ∧ g2.stats = c1.g.stats ∧ g2.globalBail = c1.g.globalBail
        ∧ g2.subjects = c1.g.subjects := by
  refine ⟨timerFires_result tasks task c t label hfin hcur, ?_⟩
  have hfr := tryBody_frame tasks u (enter u (start g dd cursor))
  rw [htry] at hfr
  simp only [settled] at hfr
  obtain ⟨c2, r, h1, h2, h3, _, _, _, h4, h5, h6, h7, h8, h9⟩ :=
    timerFires_result tasks (.user u) { c1 with g := { c1.g with globalTimeout := none } } u
      (context (start g dd cursor).g.subjects u) hun (by rw [hfr.current]; rfl)
  have hunit : unit tasks u (start g dd cursor) = .ok c2 := by
    simp only [unit, htry, hun, Bool.false_eq_true, if_false, late, hlate, h1]
  refine ⟨c2.g, r, ?_, h2, h3, h5, h6, h7, h9⟩
  rw [series_user _ _ _ _ _ _ _ hjob, hunit]
  have hv : viaThen u c2 = false := by simp [viaThen, hlate]
  simp only [show c2.nexts ≠ 0 by omega, if_false, hv, rethrown_false, h8]

/-- C7 at `slowTask`, whose callback is never called: the hypotheses hold, the timer adds
one failing record, and the series goes on at the next task. -/
theorem C7_timeout_failure_witness :
    ∃ g2 r, series [] (5 + 1) [Job.user slowTask] 0 (Delay.ms 200) {}
          = series [] 5 [Job.user slowTask] 1 (Delay.ms 200) g2
        ∧ g2.results = [r] ∧ r.pass = false ∧ g2.stats = { asyncSuccesses := 0, bailCount := 0 } := by
  obtain ⟨_, g2, r, h1, h2, h3, _, h4, _⟩ :=
    C7_timeout_failure [] 5 [Job.user slowTask] (Job.user someTask) running someTask "" 0
      (Delay.ms 200) {} slowTask (becomeAsync (enter slowTask (start {} (Delay.ms 200) 0)))
      rfl rfl rfl rfl rfl rfl
  exact ⟨g2, r, h1, h2, h3, h4⟩

/-- C8. For a unit that has not asked for `next`, after the synchronous part of its body
and any sequence of completion events (calls of `done`, `then` callbacks, the timer), `next`
has been asked for at most once, and not at all while the unit is not finalized.  When the
timer has finalized a unit whose completion signal has not arrived, any later event is
handled without an exception and leaves `results`, `nexts`, the cursor, `bailCount` and the
`bailed` flags as they are. -/
theorem C8_next_at_most_once (tasks : List Job) (t : Task) (sigs : List Signal) (c d : Ctx)
    (s : Signal) (hn : c.nexts = 0)
    (hd1 : d.u.isFinalized = false) (hd2 : d.u.isDone = false) :
    ((signals tasks (.user t) sigs (settled (tryBody tasks t (enter t c)))).nexts ≤ 1
      ∧ ((signals tasks (.user t) sigs (settled (tryBody tasks t (enter t c)))).u.isFinalized = false
          → (signals tasks (.user t) sigs (settled (tryBody tasks t (enter t c)))).nexts = 0))
    ∧ (settled (timerFires tasks (.user t) d)).u.isFinalized = true
    ∧ ∃ c', signal tasks (.user t) s (settled (timerFires tasks (.user t) d)) = .ok c'
        ∧ c'.g.results = (settled (timerFires tasks (.user t) d)).g.results
        ∧ c'.nexts = (settled (timerFires tasks (.user t) d)).nexts
        ∧ c'.cursor = (settled (timerFires tasks (.user t) d)).cursor
        ∧ c'.u.isFinalized = true
        ∧ c'.g.stats.bailCount = (settled (timerFires tasks (.user t) d)).g.stats.bailCount
        ∧ c'.g.bailed = (settled (timerFires tasks (.user t) d)).g.bailed := by
  have h0 : Once (enter t c) := by
    simp [Once, enter, hn]
  have h1 := signals_once tasks (.user t) sigs _ (tryBody_once tasks t _ h0)
  obtain ⟨k1, k2, k3⟩ := timerFires_finalized tasks (.user t) d hd1
  exact ⟨h1, k1, signal_after_finalized tasks (.user t) s _ k1 (by rw [k2]; exact hd2) k3⟩

/-- C8 at `someTask`: after the timer, a `done()` and a second `done()`, `next` was asked
for once. -/
theorem C8_next_at_most_once_witness :
    (start {} (Delay.ms 200) 0).nexts = 0 ∧ running.u.isFinalized = false
      ∧ running.u.isDone = false
      ∧ (signals [Job.user someTask] (.user someTask)
            [Signal.timer, Signal.done none, Signal.done none]
            (settled (tryBody [Job.user someTask] someTask
              (enter someTask (start {} (Delay.ms 200) 0))))).nexts ≤ 1 :=
  ⟨rfl, rfl, rfl,
    (C8_next_at_most_once [Job.user someTask] someTask
      [Signal.timer, Signal.done none, Signal.done none] (start {} (Delay.ms 200) 0) running
      (Signal.done none) rfl rfl rfl).1.1⟩

/-- C9, as stated, fails for a unit that its timer has finalized: the first call of the
callback, `done(err)` or `done()`, is absorbed: it returns without an error and `results`
keeps the single timeout record, so neither the outcome is determined by that signal nor is
a double-completion error raised for it. -/
theorem C9_late_signal_absorbed :
    timedOut.u.isDone = false
      ∧ timedOut.g.results.map (fun r => r.pass) = [false]
      ∧ (match done [Job.user slowTask] (Job.user slowTask) (some (Thrown.error "late")) timedOut with
          | .ok c => some c.g.results
          | .error _ => none) = some timedOut.g.results
      ∧ (match done [Job.user slowTask] (Job.user slowTask) none timedOut with
          | .ok c => some c.g.results
          | .error _ => none) = some timedOut.g.results := by
  decide

/-- C9, amended. For a unit that is neither done nor finalized, the first call `done(first)`
finalizes it and decides its outcome: no record for `done()`, one failing record with the
error's text (`err.message` or `String(err)`) for `done(err)`; when that conversion throws,
the call raises its exception and leaves the incomplete record.  For a unit that is already finalized (by its timer or by an
exception of its body) the first call is absorbed: no error, `results` and `bailCount`
unchanged.  In both cases every later call of `done` and every later `then` callback
(`_done`) throws the unit's `doneTwiceError`, whatever its argument, leaves the unit and
the globals as they are, and `results` is what the first call left.  The message made by
`Task` is `A thenable should only be resolved once` for a body without parameters and the
callback's name followed by `()` should only be called once otherwise. -/
theorem C9_double_completion (tasks : List Job) (task : Job) (sigs : List Signal)
    (first second : Option Thrown) (threw : Bool) (c : Ctx) (t : Task) (label : String)
    (fn : Fn) (depth : Nat) (hookName : Option HookName) (made : Task) (d : Ctx)
    (hcur : c.g.globalTestOrHook = some (t, label))
    (hdone : c.u.isDone = false) (hfin : c.u.isFinalized = false)
    (hmade : mkTask false depth fn hookName = .ok made)
    (hd1 : d.u.isFinalized = true) (hd2 : d.u.isDone = false) :
    (first = none → (settled (done tasks task first c)).g.results = c.g.results)
    ∧ (∀ e text, first = some e → e.text = .ok text →
        ∃ r, (settled (done tasks task first c)).g.results = c.g.results ++ [r]
          ∧ r.pass = false ∧ r.message = text ∧ r.task = t.fn.id)
    ∧ done tasks task second (signals tasks task sigs (settled (done tasks task first c)))
        = .error (task.doneTwiceError, signals tasks task sigs (settled (done tasks task first c)))
    ∧ _done tasks task second threw (signals tasks task sigs (settled (done tasks task first c)))
        = .error (task.doneTwiceError, signals tasks task sigs (settled (done tasks task first c)))
    ∧ (signals tasks task sigs (settled (done tasks task first c))).g.results
        = (settled (done tasks task first c)).g.results
    ∧ made.doneTwiceError =
        (if fn.length = 0 then "A thenable should only be resolved once"
         else "`" ++ (match fn.arg with
                      | some a => if a = "" then "done" else a
                      | none => "done") ++ "()` should only be called once")
    ∧ (∃ d', done tasks task first d = .ok d' ∧ d'.g.results = d.g.results
        ∧ d'.g.stats.bailCount = d.g.stats.bailCount
        ∧ done tasks task second d' = .error (task.doneTwiceError, d'))
    ∧ (∀ e m, first = some e → e.text = .error m →
        ∃ c' r, done tasks task first c = .error (m, c')
          ∧ c'.g.results = c.g.results ++ [r] ∧ r.pass = true
          ∧ c'.g.stats.bailCount = c.g.stats.bailCount) := by
  obtain ⟨h1, h2, h3, h4⟩ := done_first tasks task first c t label hcur hdone hfin
  obtain ⟨k1, k2⟩ := signals_finished tasks task sigs _ h1 h2
  refine ⟨h3, h4, ?_, ?_, k1, mkTask_doneTwiceError fn depth hookName made hmade,
    ⟨markDone task first.isSome d, by simp [done, _done, hd1, hd2], by simp [markDone],
      by simp [markDone], by simp [done, _done, markDone]⟩, ?_⟩
  rotate_left 2
  · intro e m he hm
    subst he
    obtain ⟨c', q1, _, _, _, _, q6, r, q7, q8⟩ :=
      finalize_unprintable tasks task (some e) false (markDone task true c) t label m
        (by simpa [markDone] using hfin) (by simpa [markDone] using hcur)
        (by simpa [errorText] using hm)
    refine ⟨c', r, ?_, by simpa [markDone] using q7, q8, by rw [q6]; simp [markDone]⟩
    simp only [done, _done, hdone, hfin, Bool.false_eq_true, if_false, Option.isSome_some]
    exact q1
  · generalize signals tasks task sigs (settled (done tasks task first c)) = cc at k2 ⊢
    simp [done, _done, k2]
  · generalize signals tasks task sigs (settled (done tasks task first c)) = cc at k2 ⊢
    simp [_done, k2]


/-- C9 at `someTask`: the hypotheses hold; its message is the callback message. -/
theorem C9_double_completion_witness :
    running.g.globalTestOrHook = some (someTask, "")
      ∧ mkTask false 1 (callbackFn 1 [] (Late.done none)) none = .ok someTask
      ∧ someTask.doneTwiceError = "`done()` should only be called once" :=
  ⟨rfl, rfl,
    (C9_double_completion [Job.user someTask] (Job.user someTask) [Signal.timer] none none false
      running someTask "" (callbackFn 1 [] (Late.done none)) 1 none someTask timedOut
      rfl rfl rfl rfl rfl rfl).2.2.2.2.2.1⟩

/-- C4. (1) A failure that is not a timeout, finalized while the closure of activation `a`
is installed, sets the `bailed` flag of `a` and adds exactly one to `bailCount`, unless the
conversion of the thrown value to a message throws: then `finalize` raises that exception
with the flags and `stats` unchanged.  (2) A flag
that is set stays set in every later state of the run.  (3) From any child position of the
task list of `a`, with the flag set, the series passes all remaining wrappers without
running anything (the trace, `results` and `stats` are unchanged) and enters the body of the
`after` hook; when that unit returns, `restoreStack` runs next and the series goes on at
the continuation `fin`.  (4) So when the nested run of a child ends with the flag set, the
series of the group goes from that child straight to the `after` hook. -/
theorem C4_bail_skips_children (only : List Nat) (spec : Spec) (a : Nat) (be ae : List Task)
    (prev : Option Nat) (fin : Job) (dd : Delay) (fuel : Nat) (g : State) (i : Nat) (ah : Task)
    (tasks : List Job) (task : Job) (err : Option Thrown) (c : Ctx) (cur : Task) (label : String)
    (hfin : c.u.isFinalized = false) (hcur : c.g.globalTestOrHook = some (cur, label))
    (hbail : c.g.globalBail = some a) (ha : a < c.g.bailed.length)
    (hi : i ≤ (wrappers only spec a be ae dd).length) (hb : g.isBailed a = true)
    (hafter : spec.after = [ah]) (hah : ah.hookName = some HookName.after) :
    (((settled (finalize tasks task err true false c)).g.isBailed a = true
        ∧ (settled (finalize tasks task err true false c)).g.stats.bailCount
            = c.g.stats.bailCount + 1)
      ∨ ∃ m c', errorText err = .error m
          ∧ finalize tasks task err true false c = .error (m, c')
          ∧ c'.g.bailed = c.g.bailed ∧ c'.g.stats = c.g.stats)
    ∧ (∀ (fuel0 : Nat) (tasks0 : List Job) (cursor0 : Nat) (dd0 : Delay) (g0 g1 : State),
        g0.isBailed a = true → (series only fuel0 tasks0 cursor0 dd0 g0).state? = some g1 →
        g1.isBailed a = true)
    ∧ (∃ g2, series only (fuel + 2 + ((wrappers only spec a be ae dd).length - i))
          (runSpecJobs only spec a be ae prev fin dd) (spec.before.length + i) dd g
        = series only (fuel + 2) (runSpecJobs only spec a be ae prev fin dd)
            (spec.before.length + (wrappers only spec a be ae dd).length) dd g2
      ∧ Idle g g2
      ∧ (runSpecJobs only spec a be ae prev fin dd)[spec.before.length
            + (wrappers only spec a be ae dd).length]? = some (.user ah)
      ∧ (settled (unit (runSpecJobs only spec a be ae prev fin dd) ah
            (start g2 dd (spec.before.length + (wrappers only spec a be ae dd).length)))).g.trace
          = g.trace ++ [Ev.call ah.fn.id ah.hookName (context g.subjects ah)]
      ∧ (runSpecJobs only spec a be ae prev fin dd)[spec.before.length
            + (wrappers only spec a be ae dd).length + 2]? = some fin
      ∧ ∀ c3, unit (runSpecJobs only spec a be ae prev fin dd) ah
            (start g2 dd (spec.before.length + (wrappers only spec a be ae dd).length)) = .ok c3 →
          series only (fuel + 2) (runSpecJobs only spec a be ae prev fin dd)
              (spec.before.length + (wrappers only spec a be ae dd).length) dd g2
            = rethrown (viaThen ah c3)
                (series only fuel (runSpecJobs only spec a be ae prev fin dd)
                  (spec.before.length + (wrappers only spec a be ae dd).length + 2) dd
                  { c3.g with units := c3.g.units + 1, globalBail := prev, globalTimeout := none,
                              trace := c3.g.trace ++ [Ev.restore] }))
    ∧ ∀ (n : Nat) (key : String) (ch : Task ⊕ Spec) (g0 gN : State),
        n < (wrappers only spec a be ae dd).length →
        (runSpecJobs only spec a be ae prev fin dd)[spec.before.length + n]?
          = some (.child key ch a be ae dd) →
        g0.isBailed a = false →
        nestedRun only (fuel + ((wrappers only spec a be ae dd).length - (n + 1))) ch be ae dd
          (pushed g0 key) = .done gN →
        gN.isBailed a = true →
        ∃ g3, series only (fuel + ((wrappers only spec a be ae dd).length - (n + 1)) + 1)
              (runSpecJobs only spec a be ae prev fin dd) (spec.before.length + n) dd g0
            = series only fuel (runSpecJobs only spec a be ae prev fin dd)
                (spec.before.length + (wrappers only spec a be ae dd).length) dd g3
          ∧ g3.trace = gN.trace ∧ g3.results = gN.results ∧ g3.stats = gN.stats := by
  refine ⟨finalize_cases tasks task err c cur label a hfin hcur hbail ha,
    fun fuel0 tasks0 cursor0 dd0 g0 g1 h0 h1 =>
      series_bailed_mono only a fuel0 tasks0 cursor0 dd0 g0 g1 h0 h1, ?_, ?_⟩
  · obtain ⟨g2, h2, hidle, hjob, htrace⟩ :=
      bailed_reaches_after only spec a be ae prev fin dd (fuel + 2) g i ah hi hb hafter
    obtain ⟨_, hrest, hfinjob⟩ := runSpecJobs_after only spec a be ae prev fin dd ah hafter
    refine ⟨g2, h2, hidle, hjob, htrace, hfinjob, ?_⟩
    intro c3 hu
    rw [series_user_next only (fuel + 1) _ _ dd g2 ah c3 hjob (by rw [hah]; decide) hu,
      series_restoreStack only fuel _ _ dd c3.g prev hrest]
  · intro n key ch g0 gN hn hjob hnb hnested hflag
    obtain ⟨g3, h3, hidle, _, _⟩ :=
      bailed_reaches_after only spec a be ae prev fin dd fuel
        { gN with globalTimeout := none } (n + 1) ah (by omega)
        (by simpa [State.isBailed] using hflag) hafter
    refine ⟨g3, ?_, hidle.1, hidle.2.1, hidle.2.2.1⟩
    rw [series_child only _ _ _ dd g0 key ch a be ae dd hjob hnb, hnested]
    simp only
    rw [Nat.add_assoc]
    exact h3

/-- C4 at `hookedSpec`: the hypotheses hold; with the flag set, the two test wrappers are
passed and the series is at the `after` hook (index 2) with its globals unchanged. -/
theorem C4_bail_skips_children_witness :
    ∃ g2, series [] (5 + 2 + 2) (runSpecJobs [] hookedSpec 0 [failingHook] [] none Job.report
            (Delay.ms 200)) 0 (Delay.ms 200) bailedOut
        = series [] (5 + 2) (runSpecJobs [] hookedSpec 0 [failingHook] [] none Job.report
            (Delay.ms 200)) 2 (Delay.ms 200) g2
      ∧ Idle bailedOut g2 := by
  obtain ⟨_, _, ⟨g2, h1, h2, _⟩, _⟩ :=
    C4_bail_skips_children [] hookedSpec 0 [failingHook] [] none Job.report (Delay.ms 200) 5
      bailedOut 0 afterHook [Job.user plainTest] (Job.user plainTest) none
      (enter plainTest (start active (Delay.ms 200) 0)) plainTest "" rfl rfl rfl
      (by decide) (Nat.zero_le _) rfl rfl rfl
  exact ⟨g2, h1, h2⟩

/-- C5, as stated, fails when an exception at definition time has left `globalDepth` one
too high.  After `skewedCalls` the root group is current again (the path is empty) with
`globalDepth` 2, so the `beforeEach` hook registered there has depth 2, which is the depth of
the root test "t" registered before.  In the run the hook fails, the scan does not pass the
test, whose depth is not greater, and the body of "t" is called after the failed hook. -/
theorem C5_test_runs_after_failed_hook :
    (define skewedCalls).path = [] ∧ (define skewedCalls).globalDepth = 2
    ∧ (define skewedCalls).rootSpec.beforeEach.map (fun u => (u.fn.id, u.hookName, u.depth))
        = [(3, some HookName.beforeEach, 2)]
    ∧ (define skewedCalls).rootSpec.children.filterMap (fun kv => match kv.2 with
          | .inl t => some (kv.1, t.fn.id, t.depth)
          | .inr _ => none) = [("t", 1, 2)]
    ∧ (match (define skewedCalls).run 30 with
        | .done g => some (calls g.trace, g.results.map (fun r => (r.pass, r.task)),
            g.stats.bailCount)
        | _ => none)
      = some ([(3, "o.beforeEach*( t )"), (1, "t")], [(false, 3)], 1) := by
  refine ⟨rfl, rfl, rfl, rfl, ?_⟩
  decide

/-- C5, amended.  Let a tree be defined by a definition phase in which nothing throws.  The
depths `Task` assigns are graded: every hook has the depth of its group and every test one
level more, the root group having depth 1.  So in the task list `[be, t, ae, pop]` of every
leaf test scheduled from the tree, with `be = pre ++ h :: post`: `h` is a `beforeEach` hook;
the later `beforeEach` hooks `post`, the test `t` and the leading `afterEach` hooks (the ones
deeper than `h`) are deeper than `h`, and the remaining `afterEach` hooks are not.  When `h`
fails (not by a timeout, with a value whose message `finalize` can compute), `finalize`
returns with the cursor on the first task after the deeper `afterEach` hooks (the first
remaining hook, or `pop`), sets only the flag of the installed activation `a` and counts one
bail; in the rest of the series only the remaining `afterEach` hooks are entered.  In the
task list of the bailed activation the remaining wrappers are passed and the body of its
`after` hook is entered. -/
theorem C5_failing_beforeEach (calls : List (Def → Except (String × Def) Def)) (d : Def)
    (only : List Nat) (be ae pre post : List Task) (h t : Task)
    (err : Option Thrown) (text : String) (c : Ctx) (cur : Task) (label : String) (a : Nat)
    (spec : Spec) (be0 ae0 : List Task) (prev : Option Nat) (fin : Job)
    (dd : Delay) (fuel : Nat) (g : State) (i : Nat) (ah : Task)
    (hclean : Clean calls {} d)
    (hleaf : Leaf only d.rootSpec [] [] be t ae) (hsplit : be = pre ++ h :: post)
    (hcursor : c.cursor = pre.length + 1) (hfin : c.u.isFinalized = false)
    (hcur : c.g.globalTestOrHook = some (cur, label))
    (hbail : c.g.globalBail = some a) (ha : a < c.g.bailed.length)
    (herr : errorText err = .ok text)
    (hi : i ≤ (wrappers only spec a be0 ae0 dd).length) (hb : g.isBailed a = true)
    (hafter : spec.after = [ah]) :
    define calls = d
    ∧ Graded 1 d.rootSpec
    ∧ h.hookName = some HookName.beforeEach
    ∧ (∀ u ∈ post ++ [t] ++ ae.takeWhile (fun u => decide (h.depth < u.depth)),
        h.depth < u.depth)
    ∧ (∀ u ∈ ae.dropWhile (fun u => decide (h.depth < u.depth)), u.depth ≤ h.depth)
    ∧ (∃ c', finalize (leafJobs be t ae) (.user h) err true false c = .ok c'
      ∧ c'.cursor = pre.length + 1 + post.length + 1
          + (ae.takeWhile (fun u => decide (h.depth < u.depth))).length
      ∧ (leafJobs be t ae)[c'.cursor]?
          = ((ae.dropWhile (fun u => decide (h.depth < u.depth))).map Job.user ++ [Job.pop])[0]?
      ∧ c'.g.isBailed a = true ∧ (∀ b, a ≠ b → c'.g.isBailed b = c.g.isBailed b)
      ∧ c'.g.stats.bailCount = c.g.stats.bailCount + 1
      ∧ c'.g.trace = c.g.trace
      ∧ ∀ (only : List Nat) (fuel : Nat) (dd : Delay) (g' : State),
          (series only fuel (leafJobs be t ae) c'.cursor dd c'.g).state? = some g' →
          ∃ ts, g'.trace = c'.g.trace ++ ts
            ∧ ∀ e ∈ ts, ∃ u ∈ ae.dropWhile (fun u => decide (h.depth < u.depth)),
                ∃ l, e = Ev.call u.fn.id u.hookName l)
    ∧ ∃ g2, series only (fuel + ((wrappers only spec a be0 ae0 dd).length - i))
          (runSpecJobs only spec a be0 ae0 prev fin dd) (spec.before.length + i) dd g
        = series only fuel (runSpecJobs only spec a be0 ae0 prev fin dd)
            (spec.before.length + (wrappers only spec a be0 ae0 dd).length) dd g2
      ∧ Idle g g2
      ∧ (runSpecJobs only spec a be0 ae0 prev fin dd)[spec.before.length
            + (wrappers only spec a be0 ae0 dd).length]? = some (.user ah)
      ∧ (settled (unit (runSpecJobs only spec a be0 ae0 prev fin dd) ah
            (start g2 dd (spec.before.length + (wrappers only spec a be0 ae0 dd).length)))).g.trace
          = g.trace ++ [Ev.call ah.fn.id ah.hookName (context g.subjects ah)] := by
  obtain ⟨k1, k2, k3⟩ := clean_graded calls {} d hclean
  have hroot : d.rootSpec = d.globalContext := by
    simp only [Def.rootSpec, k1]
    rfl
  have hgr : Graded 1 d.rootSpec := by
    rw [hroot]
    have := k3 (graded_empty _)
    exact this
  obtain ⟨d1, ⟨c1, c2, c3, c4⟩, ht, _⟩ := leaf_chained only _ _ _ _ _ _ hleaf 1 hgr
    ⟨by simp, List.Pairwise.nil, by simp, List.Pairwise.nil⟩
  subst hsplit
  have hh := c1 h (by simp)
  have hpost : ∀ u ∈ post, h.depth < u.depth :=
    (List.pairwise_cons.1 (List.pairwise_append.1 c2).2.1).1
  have htd : h.depth < t.depth := by rw [ht]; exact hh.2
  have hdeep : ∀ u ∈ ae.takeWhile (fun u => decide (h.depth < u.depth)), h.depth < u.depth := by
    intro u hu
    simpa using List.mem_takeWhile_imp hu
  have hshallow := dropWhile_shallow h.depth ae c4
  have hae : ae.takeWhile (fun u => decide (h.depth < u.depth))
      ++ ae.dropWhile (fun u => decide (h.depth < u.depth)) = ae :=
    List.takeWhile_append_dropWhile _ _
  have hland := failing_hook_lands pre post _ _ h t err text c cur label a hh.1 hpost htd hdeep
    hshallow hcursor hfin hcur hbail ha herr
  rw [hae] at hland
  refine ⟨clean_foldl calls {} d hclean, hgr, hh.1, ?_, hshallow, hland,
    bailed_reaches_after only spec a be0 ae0 prev fin dd fuel g i ah hi hb hafter⟩
  intro u hu
  simp only [List.mem_append, List.mem_singleton] at hu
  rcases hu with (hu | rfl) | hu
  · exact hpost u hu
  · exact htd
  · exact hdeep u hu

/-- C5 (amended) at `nestedCalls`: the definition phase builds `nestedTree`; in the list
`[outerBefore, innerBefore, nestedTest, innerAfter, outerAfter, pop]` the failing hook
`outerBefore` (index 0) moves the cursor from 1 to 4, past the deeper hook, the test and the
deeper `afterEach` hook, to the `afterEach` hook of the root group. -/
theorem C5_failing_beforeEach_witness :
    (define nestedCalls).rootSpec = nestedTree
    ∧ ∃ c', finalize (leafJobs [outerBefore, innerBefore] nestedTest [innerAfter, outerAfter])
          (.user outerBefore) (some (Thrown.error "setup failed")) true false
          (enter outerBefore (start active (Delay.ms 200) 0)) = .ok c'
      ∧ c'.cursor = 4
      ∧ (leafJobs [outerBefore, innerBefore] nestedTest [innerAfter, outerAfter])[c'.cursor]?
          = some (Job.user outerAfter) := by
  obtain ⟨_, _, _, _, _, ⟨c', h1, h2, h3, _⟩, _⟩ :=
    C5_failing_beforeEach nestedCalls (define nestedCalls) [] [outerBefore, innerBefore]
      [innerAfter, outerAfter] [] [innerBefore] outerBefore nestedTest
      (some (Thrown.error "setup failed")) "setup failed"
      (enter outerBefore (start active (Delay.ms 200) 0)) outerBefore "o.beforeEach(  )" 0
      hookedSpec [failingHook] [] none Job.report (Delay.ms 200) 5 bailedOut 0 afterHook
      clean_nestedCalls leaf_nestedTree rfl rfl rfl rfl rfl (by decide) rfl
      (Nat.zero_le _) rfl rfl
  exact ⟨rfl, c', h1, h2, h3⟩

/-- C2. For a leaf test `t` nested in the groups of `path` (outermost first), the chains
computed by `runSpec` along the path are the registered `beforeEach` hooks outer to inner
and the registered `afterEach` hooks inner to outer.  When every one of these units passes,
the wrapper of `t`, started in an activation that has not bailed, enters exactly these
bodies, each once and in this order: the `beforeEach` hooks, the body of `t`, the
`afterEach` hooks; then the series goes on at the next task, with `bailCount`, the flags and
the path stack as before.  Every wrapper made by `runSpec` carries the chains extended by
the hooks of its spec. -/
theorem C2_each_hooks_order (only : List Nat) (path : List Spec) (t : Task) (dd d : Delay)
    (g : State) (k : Nat) (tasks : List Job) (cursor : Nat) (key : String) (a : Nat)
    (hp : ∀ u ∈ (chains path).1 ++ [t] ++ (chains path).2, Passes u)
    (hjob : tasks[cursor]? = some (.child key (.inl t) a (chains path).1 (chains path).2 d))
    (hnb : g.isBailed a = false) :
    (chains path).1 = path.flatMap Spec.beforeEach
    ∧ (chains path).2 = path.reverse.flatMap Spec.afterEach
    ∧ (∃ g2, series only (k + 3 + ((chains path).1 ++ [t] ++ (chains path).2).length)
          tasks cursor dd g
        = series only (k + 2 + ((chains path).1 ++ [t] ++ (chains path).2).length)
            tasks (cursor + 1) dd g2
        ∧ g2.trace = g.trace
            ++ (path.flatMap Spec.beforeEach ++ [t] ++ path.reverse.flatMap Spec.afterEach).map
                (callOf (g.subjects ++ [key]))
        ∧ g2.stats.bailCount = g.stats.bailCount ∧ g2.bailed = g.bailed
        ∧ g2.subjects = g.subjects)
    ∧ ∀ (spec : Spec) (be ae : List Task) (fin : Job) (d0 : Delay) (g0 : State),
        (enterSpec only spec be ae fin d0 g0).1
          = spec.before.map Job.user
            ++ wrappers only spec g0.bailed.length (be ++ spec.beforeEach) (spec.afterEach ++ ae)
                (specDelay spec d0)
            ++ spec.after.map Job.user ++ [Job.restoreStack g0.globalBail, fin]
        ∧ ∀ j ∈ wrappers only spec g0.bailed.length (be ++ spec.beforeEach)
              (spec.afterEach ++ ae) (specDelay spec d0),
            ∃ key ch, j = Job.child key ch g0.bailed.length (be ++ spec.beforeEach)
                (spec.afterEach ++ ae) (specDelay spec d0)
              ∧ (key, ch) ∈ spec.children := by
  obtain ⟨h1, h2⟩ := chains_eq path
  obtain ⟨g', r1, r2, r3, r4, r5⟩ := leaf_passing only _ _ t d (pushed g key)
    k hp
  refine ⟨h1, h2, ⟨{ g' with globalTimeout := none }, ?_, ?_, ?_, ?_, ?_⟩, ?_⟩
  · rw [show k + 3 + ((chains path).1 ++ [t] ++ (chains path).2).length
        = (k + 2 + ((chains path).1 ++ [t] ++ (chains path).2).length) + 1 by omega,
      series_child only _ tasks cursor dd g key (.inl t) a _ _ d hjob hnb]
    simp only [nestedRun, r1]
  · simp only [r2, h1, h2, pushed]
  · simpa [pushed] using r3
  · simpa [pushed] using r4
  · simpa [pushed] using r5
  · intro spec be ae fin d0 g0
    refine ⟨rfl, ?_⟩
    intro j hj
    obtain ⟨key, ch, hj, hmem, _⟩ := wrappers_child _ _ _ _ _ _ _ hj
    exact ⟨key, ch, hj, hmem⟩

/-- C2 at `nestedPath` and `plainTest`: every unit passes, and the bodies are entered in the
order outer `beforeEach`, inner `beforeEach`, test, inner `afterEach`, outer `afterEach`. -/
theorem C2_each_hooks_order_witness :
    ∃ g2, series [] (0 + 3 + 5)
          [Job.child "t" (.inl plainTest) 0 (chains nestedPath).1 (chains nestedPath).2
            (Delay.ms 200)] 0 (Delay.ms 200) active
        = series [] (0 + 2 + 5)
          [Job.child "t" (.inl plainTest) 0 (chains nestedPath).1 (chains nestedPath).2
            (Delay.ms 200)] (0 + 1) (Delay.ms 200) g2
      ∧ g2.trace = active.trace
          ++ [quietBefore 30 1, quietBefore 32 2, plainTest, quietAfter 33 2,
              quietAfter 31 1].map (callOf (active.subjects ++ ["t"])) := by
  obtain ⟨_, _, ⟨g2, h1, h2, _⟩, _⟩ :=
    C2_each_hooks_order [] nestedPath plainTest (Delay.ms 200) (Delay.ms 200) active 0
      [Job.child "t" (.inl plainTest) 0 (chains nestedPath).1 (chains nestedPath).2
        (Delay.ms 200)] 0 "t" 0
      (by
        intro u hu
        have : u.fn.acts = [] ∧ u.fn.length = 0 ∧ u.fn.thenable = false := by
          simp only [chains, nestedPath, List.foldl_cons, List.foldl_nil, inherit, Spec.beforeEach,
            Spec.afterEach, List.nil_append, List.append_nil, List.mem_append, List.mem_cons,
            List.mem_singleton, List.not_mem_nil, or_false] at hu
          rcases hu with ((rfl | rfl) | rfl) | rfl | rfl <;> exact ⟨rfl, rfl, rfl⟩
        exact passes_empty u this.1 this.2.1 this.2.2)
      rfl rfl
  exact ⟨g2, h1, h2⟩


/-- C6, as stated, fails: the test "a" is registered with `o` and the test "b" with `o.only`,
both with the same function object; `only` holds that function, and the body of "a" is
entered although "a" was not registered through `o.only`. -/
theorem C6_shared_function_runs :
    sharedFn.only = [7]
      ∧ (sharedFn.run 50).done?.map (fun g => calls g.trace) = some [(7, "a"), (7, "b")] := by
  decide

/-- C6, amended. In a run of a well-formed tree with a non-empty `only`, the body of a test
is entered only if its function is in `only` (is one of the functions given to `o.only`);
a sub-spec always gets its wrapper; with an empty `only` every child gets its wrapper. -/
theorem C6_only_filter (only : List Nat) (spec : Spec) (fuel : Nat) (g' : State) (a : Nat)
    (be ae : List Task) (dd : Delay)
    (hwf : WellFormed spec) (hne : only ≠ [])
    (hrun : (run only fuel spec).state? = some g') :
    (∀ fn label, Ev.call fn none label ∈ g'.trace → fn ∈ only)
    ∧ (∀ s : Spec, selected only (Sum.inr s) = true)
    ∧ wrappers [] spec a be ae dd
        = (objectKeys spec.children).map (fun kv => Job.child kv.1 kv.2 a be ae dd) := by
  refine ⟨?_, ?_, ?_⟩
  · exact series_only only hne fuel _ 0 _ _ g'
      (filtered_enter only hne spec [] [] Job.report (Delay.ms 200) {} hwf (by simp) trivial)
      (by intro fn label h; exact absurd h (List.not_mem_nil _)) hrun
  · intro s; simp [selected]
  · simp only [wrappers, selected, List.length_nil, beq_self_eq_true, Bool.true_or, if_true]
    induction objectKeys spec.children with
    | nil => rfl
    | cons x xs ih => simp [List.filterMap_cons, ih]

/-- C6 (amended) at the tree with the single test "b", whose function (22) is in `only`:
the hypotheses hold and every test body entered is the one of function 22. -/
theorem C6_only_filter_witness :
    [22] ≠ ([] : List Nat)
      ∧ ∀ fn label, Ev.call fn none label
          ∈ ((run [22] 50 oneTest).state?.getD {}).trace → fn ∈ [22] :=
  ⟨by decide,
    (C6_only_filter [22] oneTest 50 ((run [22] 50 oneTest).state?.getD {}) 0 [] []
      (Delay.ms 200)
      (WellFormed.mk _ _ _ _ _ _ (by simp)
        (by
          intro key tk h
          simp only [List.mem_singleton, Prod.mk.injEq, Sum.inl.injEq] at h
          rw [h.2]; rfl)
        (by intro key s h; simp at h))
      (by decide) rfl).1⟩

/-- C12, on the code: `o.spec("A", function() { throw new Error("boom") })` throws a
`TypeError` from its `catch` block, which reads `children["A"]` of the new, empty group; the
statements that restore `globalDepth` and `globalContext` are not reached, so the depth
stays 2 and the new group stays current, and `o("later", f)` called afterwards registers its
test in the group "A", which holds no synthetic test. -/
theorem C12_throwing_group_escapes :
    (match o.spec "A" boom 99 {} with
      | .error (m, d) => some (m, d.globalDepth, d.path.length)
      | .ok _ => none)
      = some ("TypeError: Cannot set properties of undefined (setting 'children')", 2, 1)
    ∧ outline (define [o.spec "A" boom 99, o "later" (syncFn 1 [])]).rootSpec
      = [("A", ["later"])] := by
  decide

/-- C13, as stated, fails: registering `o.before(function(done) {})` in a group without a
`before` hook throws at registration and stores nothing, because `validateDone` rejects a
callback that is never named in the body. -/
theorem C13_unused_callback_rejected :
    (match hook HookName.before unusedDone {} with
      | .error (m, d) => some (m, (d.globalContext.hooks HookName.before).length)
      | .ok _ => none)
      = some ("'done()' should be called at least once", 0) := by
  decide

/-- C13, amended.  Registering a hook of a kind the current group already has throws and
leaves the definition globals (hooks, children, timeout, enclosing groups) as they were.
Registering a hook of a kind the group does not have, before the run and with a function
that `validateDone` accepts, succeeds and stores exactly the task of that function under that
kind, leaving the other kinds, the children and the timeout alone.  A registration that
throws stores nothing, and a successful one keeps every kind at no more than one hook.  So
after any sequence of calls of the definition API (tests, hooks, timeouts, groups whose
definition functions make such calls and may throw, `o.run`), every group of the tree holds
at most one hook of each kind. -/
theorem C13_one_hook_per_kind (name : HookName) (predicate : Fn) (d : Def) :
    ((d.globalContext.hooks name).length > 0 → ∃ m, hook name predicate d = .error (m, d))
    ∧ (d.globalContext.hooks name = [] → d.isRunning = false →
        (∃ r, validateDone predicate true = .ok r) →
        ∃ task d', hook name predicate d = .ok d'
          ∧ d'.globalContext.hooks name = [task]
          ∧ task.fn = predicate ∧ task.hookName = some name ∧ task.depth = d.globalDepth
          ∧ (∀ k, k ≠ name → d'.globalContext.hooks k = d.globalContext.hooks k)
          ∧ d'.globalContext.children = d.globalContext.children
          ∧ d'.globalContext.specTimeout = d.globalContext.specTimeout
          ∧ d'.path = d.path ∧ d'.globalDepth = d.globalDepth ∧ d'.only = d.only)
    ∧ (∀ m d', hook name predicate d = .error (m, d') → d' = d)
    ∧ (∀ d', hook name predicate d = .ok d' →
        ∀ k, (d.globalContext.hooks k).length ≤ 1 → (d'.globalContext.hooks k).length ≤ 1)
    ∧ (∀ calls : List (Def → Except (String × Def) Def), (∀ call ∈ calls, Api call) →
        (define calls).tidy ∧ OneHook (define calls).rootSpec) := by
  obtain ⟨ctx, depth, only, isRunning, path⟩ := d
  obtain ⟨b, be, a, ae, t, children⟩ := ctx
  refine ⟨?_, ?_, ?_, ?_, ?_⟩
  · intro h
    cases name <;> simp only [Spec.hooks, Spec.before, Spec.beforeEach, Spec.after,
      Spec.afterEach] at h <;> simp [hook, h, HookName.text]
  · intro h hrun hv
    obtain ⟨r, hr⟩ := hv
    simp only at hrun
    subst hrun
    cases name <;> simp only [Spec.hooks, Spec.before, Spec.beforeEach, Spec.after,
      Spec.afterEach] at h <;> subst h <;>
      simp [hook, mkTask, hr, Spec.hooks, Spec.before, Spec.beforeEach, Spec.after,
        Spec.afterEach, Spec.children, Spec.specTimeout] <;>
      (intro k hk; cases k <;> simp_all)
  · intro m d' h
    simp only [hook] at h
    split_ifs at h
    · simp only [Except.error.injEq, Prod.mk.injEq] at h; exact h.2.symm
    · split at h
      · simp only [Except.error.injEq, Prod.mk.injEq] at h; exact h.2.symm
      · simp at h
  · intro d' h k hk
    simp only [hook] at h
    split_ifs at h
    split at h
    · simp at h
    · simp only [Except.ok.injEq] at h
      subst h
      cases name <;> cases k <;>
        simp_all [Spec.hooks, Spec.before, Spec.beforeEach, Spec.after, Spec.afterEach]
  · intro calls hcalls
    have ht := tidy_define calls hcalls
    exact ⟨ht, (oneHook_leave _ _ _ ht.1 ht.2).1⟩

/-- C13 at concrete inputs: a second `before` hook in the scenario group is rejected, and a
first one in an empty group is stored. -/
theorem C13_one_hook_per_kind_witness :
    (∃ m, hook HookName.before (syncFn 11 []) scenario = .error (m, scenario))
    ∧ (∃ task d', hook HookName.before (syncFn 10 []) {} = .ok d'
          ∧ d'.globalContext.hooks HookName.before = [task]
          ∧ task.fn = syncFn 10 [] ∧ task.hookName = some HookName.before ∧ task.depth = 1) := by
  have h := C13_one_hook_per_kind HookName.before (syncFn 11 []) scenario
  have h2 := C13_one_hook_per_kind HookName.before (syncFn 10 []) {}
  refine ⟨h.1 (by decide), ?_⟩
  obtain ⟨task, d', e1, e2, e3, e4, e5, _⟩ := h2.2.1 rfl rfl ⟨none, rfl⟩
  exact ⟨task, d', e1, e2, e3, e4, e5⟩

/-- C14. After `o.run()` has returned (`results = []`, so `isRunning()` holds) the groups
are as they were, and `o(name, fn)`, every hook registration, `o.spec`, `o.specTimeout` and
`o.run` each throw and leave the definition globals unchanged. -/
theorem C14_definitions_rejected_while_running (d0 d : Def) (h : o.run d0 = .ok d) :
    d.isRunning = true ∧ d.globalContext = d0.globalContext ∧ d.path = d0.path
    ∧ (∀ subject predicate, ∃ m, o subject predicate d = .error (m, d))
    ∧ (∀ name predicate, ∃ m, hook name predicate d = .error (m, d))
    ∧ (∀ subject predicate bail, ∃ m, o.spec subject predicate bail d = .error (m, d))
    ∧ (∀ t, ∃ m, o.specTimeout t d = .error (m, d))
    ∧ (∃ m, o.run d = .error (m, d)) := by
  simp only [o.run] at h
  split_ifs at h with h1 h2
  simp only [Except.ok.injEq] at h
  subst h
  refine ⟨rfl, rfl, rfl, ?_, ?_, ?_, ?_, ?_⟩
  · intro subject predicate
    simp [o, mkTask]
  · intro name predicate
    simp only [hook, mkTask, if_true]
    split
    split_ifs <;> simp
  · intro subject predicate bail
    simp [o.spec]
  · intro t
    simp [o.specTimeout]
  · simp only [o.run]
    split_ifs
    simp

/-- C14 at a concrete input: after `o.run()` on the scenario, `o("late", f)` and a second
`o.run()` throw and change nothing. -/
theorem C14_definitions_rejected_while_running_witness :
    ∃ d, o.run scenario = .ok d ∧ d.isRunning = true
      ∧ (∃ m, o "late" (syncFn 3 []) d = .error (m, d))
      ∧ (∃ m, o.run d = .error (m, d)) := by
  refine ⟨{ scenario with isRunning := true }, rfl, ?_⟩
  have h := C14_definitions_rejected_while_running scenario { scenario with isRunning := true } rfl
  exact ⟨h.1, h.2.2.2.1 "late" (syncFn 3 []), h.2.2.2.2.2.2.2⟩

/-- C15. For the children of the current group and a name `s`, `unique(s)` is `s` followed
by `k` characters `*`, where every shorter candidate is the name of a child and the result
is not; it is `s` itself when `s` is free, and `k` is positive otherwise.  The loop needs no
more iterations than there are children plus one (a larger bound gives the same result).
Assigning under the returned name appends a property and keeps every existing child; `o`
and `o.spec` register under that name, which depends on the children of the current group
only, whatever the enclosing groups are. -/
theorem C15_unique_name (children : List (String × (Task ⊕ Spec))) (s : String) :
    ∃ k, unique children s = s ++ stars k
      ∧ (∀ j, j < k → hasOwn children (s ++ stars j) = true)
      ∧ hasOwn children (unique children s) = false
      ∧ (hasOwn children s = false → unique children s = s)
      ∧ (hasOwn children s = true → 0 < k)
      ∧ (∀ n, children.length + 1 ≤ n → uniqueLoop children n s = unique children s)
      ∧ (∀ value, setChild children (unique children s) value
          = children ++ [(unique children s, value)])
      ∧ (∀ predicate d d', d.globalContext.children = children → o s predicate d = .ok d' →
          ∃ task, d'.globalContext.children = children ++ [(unique children s, Sum.inl task)]
            ∧ d'.path = d.path)
      ∧ (∀ predicate bail d d2, d.globalContext.children = children → d.isRunning = false →
          predicate { d with
              globalContext := .mk [] [] [] [] none []
              path := (plug d.globalContext (unique children s) (.mk [] [] [] [] none []),
                unique children s) :: d.path
              globalDepth := d.globalDepth + 1 } = .ok d2 →
          d2.path = (plug d.globalContext (unique children s) (.mk [] [] [] [] none []),
                unique children s) :: d.path →
          ∃ d', o.spec s predicate bail d = .ok d'
            ∧ d'.globalContext.children
              = children ++ [(unique children s, Sum.inr d2.globalContext)]
            ∧ d'.path = d.path) := by
  obtain ⟨k, he, hlt, hfree⟩ := unique_spec children s
  refine ⟨k, he, hlt, hfree, ?_, ?_, ?_, ?_, ?_, ?_⟩
  · intro h
    cases k with
    | zero => rw [he, stars_zero]
    | succ k =>
      have := hlt 0 (by omega)
      rw [stars_zero, h] at this
      exact absurd this (by simp)
  · intro h
    cases k with
    | zero =>
      rw [he, stars_zero, h] at hfree
      exact absurd hfree (by simp)
    | succ k => omega
  · intro n hn
    obtain ⟨m, rfl⟩ := Nat.exists_eq_add_of_le hn
    exact uniqueLoop_stable children _ m s hfree
  · intro value
    exact setChild_fresh _ _ _ hfree
  · intro predicate d d' hc h
    obtain ⟨ctx, depth, only, isRunning, path⟩ := d
    obtain ⟨b, be, a, ae, t, ch⟩ := ctx
    simp only [Spec.children] at hc
    subst hc
    simp only [o] at h
    split at h
    · simp at h
    · rename_i task _
      simp only [Except.ok.injEq] at h
      subst h
      exact ⟨task, by simp [Spec.children, setChild_fresh _ _ _ hfree], rfl⟩
  · intro predicate bail d d2 hc hrun hp hpath
    obtain ⟨ctx, depth, only, isRunning, path⟩ := d
    obtain ⟨b, be, a, ae, t, ch⟩ := ctx
    simp only [Spec.children] at hc
    subst hc
    simp only at hrun
    subst hrun
    simp only [Spec.children] at hp hpath
    refine ⟨{ d2 with
      globalDepth := d2.globalDepth - 1
      globalContext := (leave (d2.path.length - path.length) d2.globalContext d2.path).1
      path := (leave (d2.path.length - path.length) d2.globalContext d2.path).2 }, ?_, ?_, ?_⟩
    · simp only [o.spec, Bool.false_eq_true, if_false, Spec.children, hp]
    · simp only [hpath, List.length_cons, Nat.add_sub_cancel_left, leave, plug,
        setChild_fresh _ _ _ hfree, Spec.children, setChild_last _ _ _ _ hfree]
    · simp only [hpath, List.length_cons, Nat.add_sub_cancel_left, leave]

/-- C17, on the code: the failing assertion `o(1).equals(2)` leaves two records, not one:
the record pushed by `new Assertion`, still marked as a passing incomplete assertion because
`plainAssertion` throws without completing or removing it, and the failing record made by
`finalize` for the thrown error. -/
theorem C17_failing_assertion_two_records :
    (failingTest.run 50).done?.map (fun g => g.results.map (fun r => (r.pass, r.message, r.task)))
      = some [(true, "Incomplete assertion in the test definition starting at...", 1),
              (false, "1\n  should equal\n2", 1)] := by
  decide

/-- C18, on the code: the flag is computed as `globalTimedOutAndPendingResolution === 0`.
In a run where no unit times out the record of `o(1).equals(1)` has `timeoutLimbo` true, and
an assertion made while the timed-out unit of `slowTask` is pending (counter 1) gets
`timeoutLimbo` false, with the `??? ` prefix in its label. -/
theorem C18_flag_is_inverted :
    (passingTest.run 50).done?.map (fun g => g.results.map (fun r => (r.pass, r.timeoutLimbo)))
      = some [(true, true)]
    ∧ timedOut.g.globalTimedOutAndPendingResolution = 1
    ∧ (match Assertion timedOut.g with
        | .ok (_, g) => g.results.getLast?.map (fun r => (r.timeoutLimbo, r.context))
        | .error _ => none) = some (false, "??? ") := by
  decide

/-- C19, on the code: in the group "g" with `o.specTimeout(0)` the test that never completes
is timed out after the inherited 200 ms, not after 0 ms: `if (spec.specTimeout)` takes the
number 0 for an absent timeout. -/
theorem C19_zero_timeout_ignored :
    specDelay (Spec.mk [] [] [] [] (some (Delay.ms 0)) []) (Delay.ms 200) = Delay.ms 200
    ∧ outline zeroTimeout.rootSpec = [("g", ["t"])]
    ∧ (zeroTimeout.run 50).done?.map (fun g => g.results.map (fun r => (r.pass, r.message)))
      = some [(false, "async test timed out after 200ms\nWarning: assertions starting with `???` may not be properly labelled")] := by
  decide

/-- C20, on the code: after the run of `doneTwice`, in which `Multiple finalization` leaves
`next`, the assignment `globalTimeout = noTimeoutRightNow` has been skipped: the setter of
the unit is still installed, and `o.timeout(5)` called from outside any body returns without
the usage error. -/
theorem C20_stale_setter_after_escape :
    (match doneTwice.run 50 with
      | .escaped _ g =>
        some (g.globalTimeout,
          match timeout (some (Delay.ms 5)) (outsider g) with
          | .ok _ => true
          | .error _ => false)
      | _ => none) = some (some 1, true) := by
  decide

/-- C15 at a concrete input: with the children "a" and "a*", `unique("a")` is "a" followed
by stars and is free. -/
theorem C15_unique_name_witness :
    ∃ k, unique [("a", Sum.inl plainTest), ("a*", Sum.inl plainTest)] "a" = "a" ++ stars k
      ∧ hasOwn [("a", Sum.inl plainTest), ("a*", Sum.inl plainTest)]
          (unique [("a", Sum.inl plainTest), ("a*", Sum.inl plainTest)] "a") = false := by
  obtain ⟨k, h1, _, h3, _⟩ :=
    C15_unique_name [("a", Sum.inl plainTest), ("a*", Sum.inl plainTest)] "a"
  exact ⟨k, h1, h3⟩

/-- C16. When the wrapper of a group `G` starts `runSpec`, the activation gets a new `bailed`
variable, false, and its closure becomes `globalBail`.  A failure (not a timeout) sets the
variable of the installed closure, unless the conversion of the thrown value to a message
throws and `finalize` raises that exception with the flags unchanged; no failure changes
another variable.  Whatever the run of `G` does, the `bailed`
variables of the activations that existed before keep their values, also when an exception
ends the run.  When the run of `G` has reached its end, the `globalBail` installed before is
installed again, the series of the parent goes on at the next task, the parent's flag still
false, and a wrapper found there (a later child of the parent, test or group) starts its
nested run instead of being passed. -/
theorem C16_bail_flag_scope (only : List Nat) (fuel : Nat) (key : String) (G : Spec) (a : Nat)
    (be ae : List Task) (d dd : Delay) (g g2 : State) (tasks : List Job) (cursor : Nat)
    (hjob : tasks[cursor]? = some (.child key (.inr G) a be ae d))
    (ha : a < g.bailed.length) (hnb : g.isBailed a = false)
    (hrun : (nestedRun only fuel (.inr G) be ae d (pushed g key)).state? = some g2) :
    (enterSpec only G be ae Job.pop d (pushed g key)).2.2.globalBail = some g.bailed.length
    ∧ (enterSpec only G be ae Job.pop d (pushed g key)).2.2.isBailed g.bailed.length = false
    ∧ (∀ (tasks' : List Job) (task : Job) (err : Option Thrown) (c : Ctx) (cur : Task)
        (label : String) (b : Nat), c.u.isFinalized = false →
        c.g.globalTestOrHook = some (cur, label) → c.g.globalBail = some b →
        b < c.g.bailed.length →
        ((settled (finalize tasks' task err true false c)).g.isBailed b = true
            ∨ ∃ m c', errorText err = .error m
                ∧ finalize tasks' task err true false c = .error (m, c')
                ∧ c'.g.bailed = c.g.bailed ∧ c'.g.stats = c.g.stats)
          ∧ ∀ b', b' ≠ b →
            (settled (finalize tasks' task err true false c)).g.isBailed b' = c.g.isBailed b')
    ∧ (∀ b, b < g.bailed.length → g2.isBailed b = g.isBailed b)
    ∧ (nestedRun only fuel (.inr G) be ae d (pushed g key) = .done g2 →
        g2.globalBail = g.globalBail
        ∧ series only (fuel + 1) tasks cursor dd g
            = series only fuel tasks (cursor + 1) dd { g2 with globalTimeout := none }
        ∧ g2.isBailed a = false
        ∧ ∀ (k : Nat) (key' : String) (ch' : Task ⊕ Spec) (be' ae' : List Task) (d' : Delay),
            tasks[cursor + 1]? = some (.child key' ch' a be' ae' d') →
            series only (k + 1) tasks (cursor + 1) dd { g2 with globalTimeout := none }
              = match nestedRun only k ch' be' ae' d'
                    (pushed { g2 with globalTimeout := none } key') with
                | .fuel => .fuel
                | .escaped m ge => .escaped m ge
                | .done g3 =>
                  series only k tasks (cursor + 1 + 1) dd { g3 with globalTimeout := none }) := by
  have hscope : (∀ b, b < g.bailed.length → g2.isBailed b = g.isBailed b)
      ∧ (nestedRun only fuel (.inr G) be ae d (pushed g key) = .done g2 →
          g2.globalBail = g.globalBail) := by
    simp only [nestedRun, runSpec, enterSpec] at hrun ⊢
    rw [(runSpecJobs_body _ _ _ _ _ _ _ _).1] at hrun ⊢
    obtain ⟨r1, _, r3⟩ := series_scope only g.bailed.length fuel _ _
      (some (pushed g key).bailed.length) (pushed g key).globalBail 0 _ _ g2
      (runSpecJobs_body only G _ _ _ (pushed g key).globalBail Job.pop _).2
      (Closing.spec _ _) (Nat.zero_le _) rfl ⟨_, rfl, by simp [pushed]⟩
      (by simp only [List.length_append]; simp only [pushed]; omega) hrun
    refine ⟨fun b hb => ?_, fun hh => ?_⟩
    · rw [r1 b hb, isBailed_snoc]
      simp [pushed, State.isBailed]
    · rw [r3 hh]
      simp [pushed]
  refine ⟨by simp [enterSpec, pushed], ?_, ?_, hscope.1, ?_⟩
  · simp [enterSpec, pushed, State.isBailed]
  · intro tasks' task err c cur label b hfin hcur hgb hb
    refine ⟨(finalize_cases tasks' task err c cur label b hfin hcur hgb hb).imp
      (fun h => h.1) id, ?_⟩
    intro b' hne
    exact (finalize_frame tasks' task err true false c).other b'
      (by rw [hgb]; intro h; exact hne (Option.some.inj h).symm)
  · intro hdone
    have hflag : g2.isBailed a = false := by rw [hscope.1 a ha]; exact hnb
    refine ⟨hscope.2 hdone, ?_, hflag, ?_⟩
    · rw [series_child _ _ _ _ _ _ _ _ _ _ _ _ hjob hnb, hdone]
    · intro k key' ch' be' ae' d' hnext
      exact series_child _ _ _ _ _ _ _ _ _ _ _ _ hnext (by simpa [State.isBailed] using hflag)

/-- C16 at `groupThenTest`: the test of the group "G" throws; when the run of "G" has ended
the flag of the root activation is still false, the flag of "G" is set, and the closure of
the root activation is installed again. -/
theorem C16_bail_flag_scope_witness :
    ∃ g2, nestedRun [] 20 (.inr failingGroup) [] [] (Delay.ms 200) (pushed active "G") = .done g2
      ∧ g2.isBailed 0 = false ∧ g2.globalBail = some 0 := by
  have hd : (nestedRun [] 20 (.inr failingGroup) [] [] (Delay.ms 200)
      (pushed active "G")).done?.map (fun g => g.isBailed 1) = some true := by decide
  cases hres : nestedRun [] 20 (.inr failingGroup) [] [] (Delay.ms 200) (pushed active "G") with
  | done g2 =>
    obtain ⟨_, _, _, h4, h5⟩ := C16_bail_flag_scope [] 20 "G" failingGroup 0 [] [] (Delay.ms 200)
      (Delay.ms 200) active g2
      (runSpecJobs [] groupThenTest 0 [] [] none Job.report (Delay.ms 200)) 0
      rfl (by decide) (by decide) (by rw [hres]; rfl)
    exact ⟨g2, rfl, h4 0 (by decide), (h5 hres).1⟩
  | escaped m ge => rw [hres] at hd; simp [Res.done?] at hd
  | fuel => rw [hres] at hd; simp [Res.done?] at hd

/-- C11, as stated, fails for a body that throws a value that cannot be converted to a
string, such as `throw Object.create(null)`.  The body of the test "x" declares no parameter
and returns no thenable, so it completes synchronously; in `finalize` the incomplete record
is pushed and `String(err)` throws; the TypeError leaves the scheduler with that record
still passing, the test "b" is not started, and whatever the fuel the run does not reach
its end, so the consumer is never called. -/
theorem C11_unprintable_throw_escapes :
    bareThrow.fn.length = 0 ∧ bareThrow.fn.thenable = false
    ∧ (match run [] 30 bareTree with
        | .escaped m g => some (m, g.trace, g.results.map (fun r => (r.pass, r.message)))
        | _ => none)
      = some ("TypeError: Cannot convert object to primitive value", [Ev.call 60 none "x"],
          [(true, "Incomplete assertion in the test definition starting at...")])
    ∧ ∀ fuel g, run [] fuel bareTree ≠ .done g := by
  refine ⟨rfl, rfl, by decide, ?_⟩
  intro fuel g
  cases fuel with
  | zero => intro h; cases h
  | succ f =>
    cases f with
    | zero => intro h; cases h
    | succ f => intro h; cases h

/-- C11, amended. For every spec tree whose hook and test bodies complete synchronously
(they declare no parameter and return no thenable; their statements return or throw a value
whose message `finalize` can compute: an `Error`, or a value for which `String(err)`
returns), whatever the `only` list, the run started by `o.run()` reaches the end of its task
list: with enough fuel the result is `done`, and more fuel does not change it.  The last event of the run is
the call of the results consumer, with the `results` and `stats` of the final state, and no
other call of the consumer precedes it. -/
theorem C11_synchronous_run_completes (only : List Nat) (rootSpec : Spec)
    (hs : Synchronous rootSpec) :
    ∃ fuel g tr, run only fuel rootSpec = .done g
      ∧ (∀ k, run only (fuel + k) rootSpec = .done g)
      ∧ g.trace = tr ++ [Ev.report g.results g.stats]
      ∧ ∀ r s, Ev.report r s ∉ tr := by
  cases hs with
  | mk b be0 a0 ae0 t children hhooks htests hspecs =>
    have hbody := runSpec_runs only b be0 a0 ae0 t children 0
      (inherit ([], []) (Spec.mk b be0 a0 ae0 t children)).1
      (inherit ([], []) (Spec.mk b be0 a0 ae0 t children)).2
      (specDelay (Spec.mk b be0 a0 ae0 t children) (Delay.ms 200)) hhooks htests
      (fun key s hm => spec_total only s (hspecs key s hm))
      (inherit_sync b be0 a0 ae0 t children [] [] hhooks (by simp))
    obtain ⟨g1, _, h2, h3⟩ := body_total only _ [Job.restoreStack none, Job.report]
      (some 0) none
      (specDelay (Spec.mk b be0 a0 ae0 t children) (Delay.ms 200)) hbody (Closing.root _ _) rfl
      _ 0 { bailed := [false], globalBail := some 0 }
      (Nat.le_refl _) (Nat.zero_le _) rfl (by intro r s hm; simp at hm)
    obtain ⟨g', hc1, hc2, _, _⟩ := closing_root only
      ((Spec.mk b be0 a0 ae0 t children).before.map Job.user
        ++ wrappers only (Spec.mk b be0 a0 ae0 t children) 0
            (inherit ([], []) (Spec.mk b be0 a0 ae0 t children)).1
            (inherit ([], []) (Spec.mk b be0 a0 ae0 t children)).2
            (specDelay (Spec.mk b be0 a0 ae0 t children) (Delay.ms 200))
        ++ (Spec.mk b be0 a0 ae0 t children).after.map Job.user)
      none (specDelay (Spec.mk b be0 a0 ae0 t children) (Delay.ms 200)) g1
    obtain ⟨fuel, hfu⟩ := h3 3 g' hc1
    have hrun : ∀ k, run only (fuel + k) (Spec.mk b be0 a0 ae0 t children) = .done g' := by
      intro k
      simp only [run, runSpec, enterSpec]
      rw [(runSpecJobs_body _ _ _ _ _ _ _ _).1]
      exact series_mono only fuel k _ _ _ _ _ hfu
    refine ⟨fuel, g', g1.trace ++ [Ev.restore], hrun 0, hrun, hc2, ?_⟩
    intro r s hm
    simp only [List.mem_append, List.mem_singleton] at hm
    rcases hm with hm | hm
    · exact h2 r s hm
    · cases hm

/-- C11 (amended) at `groupThenTest`, where the test of the group "G" throws an `Error`: the
run ends with the call of the consumer. -/
theorem C11_synchronous_run_completes_witness :
    ∃ fuel g tr, run [] fuel groupThenTest = .done g
      ∧ g.trace = tr ++ [Ev.report g.results g.stats] := by
  obtain ⟨fuel, g, tr, h1, _, h3, _⟩ :=
    C11_synchronous_run_completes [] groupThenTest synchronous_groupThenTest
  exact ⟨fuel, g, tr, h1, h3⟩

/-- C21, as stated, fails: with no outcome at all and `stats.bailCount` 1, `o.report` returns
`-1 + 1`, that is 0, although `bailCount` is not zero. -/
theorem C21_bail_without_failure :
    o.report [] (some { asyncSuccesses := 0, bailCount := 1 }) = 0 := by
  decide

/-- C21, amended.  `o.report(results, stats)` returns the number of outcomes that do not
pass, whatever `stats` is (also when it is missing): the number is not 0 exactly when some
outcome has `pass = false`, and 0 when every outcome passes.  The task that ends a run
without a custom consumer exits with code 1 exactly when there is a process and this number
is not 0, and does not exit otherwise; with a custom consumer it never exits.  In a run,
`bailCount` never exceeds the number of failing outcomes, so for the `results` and `stats`
the consumer is called with, the number is not 0 whenever an outcome failed or a bail
happened. -/
theorem C21_report_counts_failures (results : List Result) (stats : Stats)
    (hasProcess : Bool) :
    o.report results (some stats) = failures results
    ∧ o.report results none = failures results
    ∧ (o.report results (some stats) ≠ 0 ↔ ∃ r ∈ results, r.pass = false)
    ∧ ((∀ r ∈ results, r.pass = true) → o.report results (some stats) = 0)
    ∧ (o.run.finalize hasProcess false results stats = some 1
        ↔ hasProcess = true ∧ o.report results (some stats) ≠ 0)
    ∧ (o.run.finalize hasProcess false results stats ≠ some 1
        → o.run.finalize hasProcess false results stats = none)
    ∧ o.run.finalize hasProcess true results stats = none
    ∧ (∀ (only : List Nat) (fuel : Nat) (rootSpec : Spec) (g : State),
        (run only fuel rootSpec).state? = some g → Ev.report results stats ∈ g.trace →
        stats.bailCount ≤ failures results
          ∧ ((stats.bailCount ≠ 0 ∨ ∃ r ∈ results, r.pass = false) →
              o.report results (some stats) ≠ 0)) := by
  have hpos : o.report results (some stats) ≠ 0 ↔ ∃ r ∈ results, r.pass = false := by
    rw [report_eq, ← failures_pos]
    omega
  refine ⟨report_eq _ _, report_eq _ _, hpos, ?_, ?_, ?_, ?_, ?_⟩
  · intro hall
    by_contra hne
    obtain ⟨r, hm, hp⟩ := hpos.1 hne
    rw [hall r hm] at hp
    exact absurd hp (by simp)
  · simp only [o.run.finalize, Bool.false_eq_true, if_false]
    constructor
    · intro h
      split_ifs at h with hc
      simp only [Bool.and_eq_true, bne_iff_ne, ne_eq] at hc
      exact hc
    · intro h
      rw [if_pos (by simp only [Bool.and_eq_true, bne_iff_ne, ne_eq]; exact h)]
  · intro h
    simp only [o.run.finalize, Bool.false_eq_true, if_false] at h ⊢
    split_ifs at h ⊢ with hc
    · exact absurd rfl h
    · rfl
  · simp [o.run.finalize]
  · intro only fuel rootSpec g hrun hmem
    have hinv := series_paid only fuel _ 0 _
      (enterSpec only rootSpec [] [] Job.report (Delay.ms 200) {}).2.2 g
      (by simp [enterSpec, failures]) hrun
    have hb := hinv.2 results stats hmem
    refine ⟨hb, ?_⟩
    intro hor
    rw [report_eq]
    rcases hor with h | h
    · omega
    · have := (failures_pos results).2 h
      omega

/-- C21 at a concrete input: one failing outcome and one bail give the number 1, and a run in
a process without a custom consumer exits with code 1. -/
theorem C21_report_counts_failures_witness :
    o.report [failingRecord] (some { asyncSuccesses := 0, bailCount := 1 }) ≠ 0
    ∧ o.run.finalize true false [failingRecord] { asyncSuccesses := 0, bailCount := 1 }
        = some 1 := by
  have h := C21_report_counts_failures [failingRecord] { asyncSuccesses := 0, bailCount := 1 }
    true
  have hne := h.2.2.1.2 ⟨failingRecord, by simp, rfl⟩
  exact ⟨hne, h.2.2.2.2.1.2 ⟨rfl, hne⟩⟩

/-- C23. In the task list `[beforeEach..., test, afterEach..., popSubjects]` of a leaf test
the last task is the internal unit `popSubjects`, at index `|beforeEach| + 1 + |afterEach|`;
in the list of `runSpec` the internal unit `restoreStack` follows the hooks and wrappers.
From every position up to that internal unit the skip-forward scan returns an index (it never
reads past the end of the list), which is a valid index and not behind the internal unit.
So `finalize` of a failing hook, `beforeEach` or not, returns with the cursor at or before
`popSubjects`, unless the conversion of the thrown value to a message throws, which happens
before the scan and leaves the cursor where it was; every run of the list that reaches its end has gone through `popSubjects`;
and when the hooks and the test complete synchronously the list is run to its end from every
position up to `popSubjects`. -/
theorem C23_scan_stops_at_pop (be ae : List Task) (t : Task) (cursor : Nat)
    (hcursor : cursor ≤ be.length + 1 + ae.length) :
    (leafJobs be t ae)[be.length + 1 + ae.length]? = some Job.pop
    ∧ (leafJobs be t ae).length = be.length + 1 + ae.length + 1
    ∧ Job.pop.error = false
    ∧ (∀ depth, ∃ k, skipForward depth ((leafJobs be t ae).drop cursor) cursor = some k
        ∧ cursor ≤ k ∧ k ≤ be.length + 1 + ae.length ∧ k < (leafJobs be t ae).length)
    ∧ (∀ (h : Task) (err : Option Thrown) (threw isTimeout : Bool) (c : Ctx) (cur : Task)
        (label : String) (b : Nat),
        c.cursor = cursor → c.u.isFinalized = false →
        c.g.globalTestOrHook = some (cur, label) → c.g.globalBail = some b →
        (∃ c', finalize (leafJobs be t ae) (.user h) err threw isTimeout c = .ok c'
          ∧ cursor ≤ c'.cursor ∧ c'.cursor ≤ be.length + 1 + ae.length)
        ∨ (threw = true ∧ ∃ m c', errorText err = .error m
            ∧ finalize (leafJobs be t ae) (.user h) err threw isTimeout c = .error (m, c')
            ∧ c'.cursor = cursor))
    ∧ (∀ (only : List Nat) (fuel : Nat) (dd : Delay) (g g' : State),
        series only fuel (leafJobs be t ae) cursor dd g = .done g' →
        ∃ fuel' g1, series only (fuel' + 2) (leafJobs be t ae) (be.length + 1 + ae.length) dd g1
            = .done g'
          ∧ g' = { g1 with units := g1.units + 1, subjects := g1.subjects.dropLast,
                           globalTimeout := none })
    ∧ (∀ (only : List Nat) (dd : Delay) (g : State),
        t.sync → (∀ h ∈ be ++ ae, h.sync) → g.globalBail.isSome = true → Quiet g →
        ∃ fuel g', series only fuel (leafJobs be t ae) cursor dd g = .done g')
    ∧ (∀ (only : List Nat) (spec : Spec) (a : Nat) (be2 ae2 : List Task) (prev : Option Nat)
        (fin : Job) (dd : Delay) (depth i : Nat),
        fin = Job.pop ∨ fin = Job.report →
        i ≤ (spec.before.map Job.user ++ wrappers only spec a be2 ae2 dd
              ++ spec.after.map Job.user).length →
        (runSpecJobs only spec a be2 ae2 prev fin dd)[(spec.before.map Job.user
            ++ wrappers only spec a be2 ae2 dd ++ spec.after.map Job.user).length]?
          = some (Job.restoreStack prev)
        ∧ ∃ k, skipForward depth ((runSpecJobs only spec a be2 ae2 prev fin dd).drop i) i = some k
          ∧ i ≤ k
          ∧ k ≤ (spec.before.map Job.user ++ wrappers only spec a be2 ae2 dd
                  ++ spec.after.map Job.user).length
          ∧ k < (runSpecJobs only spec a be2 ae2 prev fin dd).length) := by
  obtain ⟨hsplit, hbody⟩ := leafJobs_body be ae t
  have hlen : (be.map Job.user ++ [Job.user t] ++ ae.map Job.user).length
      = be.length + 1 + ae.length := by simp; omega
  have hpop : (leafJobs be t ae)[be.length + 1 + ae.length]? = some Job.pop := by
    rw [hsplit, ← hlen]; exact getElem?_append_head _ _ _
  refine ⟨hpop, by simp [leafJobs]; omega, rfl, ?_, ?_, ?_, ?_, ?_⟩
  · intro depth
    have := skipForward_closing (be.map Job.user ++ [Job.user t] ++ ae.map Job.user) [Job.pop]
      none none (Closing.leaf _) depth cursor (by rw [hlen]; exact hcursor)
    rw [hlen, ← hsplit] at this
    exact this
  · intro h err threw isTimeout c cur label b hc hfin hcur hb
    by_cases herr : threw = true → ∃ text, errorText err = .ok text
    swap
    · right
      simp only [not_forall, not_exists] at herr
      obtain ⟨htr, hno⟩ := herr
      subst htr
      cases hE : errorText err with
      | ok text => exact absurd hE (hno text)
      | error m =>
        obtain ⟨c', h1, _, _, h4, _⟩ :=
          finalize_unprintable (leafJobs be t ae) (.user h) err isTimeout c cur label m hfin hcur hE
        exact ⟨rfl, m, c', rfl, h1, by rw [h4, hc]⟩
    left
    obtain ⟨c', hc'⟩ := finalize_total (leafJobs be t ae) (.user h) err threw isTimeout c cur
      label b hfin hcur hb ⟨_, _, hpop, rfl, by omega⟩ herr
    have hfr := finalize_frame (leafJobs be t ae) (.user h) err threw isTimeout c
    have hbl := finalize_below (leafJobs be t ae) (.user h) err threw isTimeout c _ _ hpop rfl
      (by omega)
    rw [hc'] at hfr hbl
    simp only [settled] at hfr hbl
    exact ⟨c', hc', by rw [← hc]; exact hfr.cursor, hbl⟩
  · intro only fuel dd g g' hrun
    rw [hsplit] at hrun ⊢
    obtain ⟨fuel', g1, h1⟩ := series_reaches only fuel _ [Job.pop] none none cursor dd g g'
      hbody (Closing.leaf _) (by rw [hlen]; exact hcursor) hrun
    rw [hlen] at h1
    cases fuel' with
    | zero => simp [series] at h1
    | succ f =>
      rw [series_pop _ _ _ _ _ _ (by rw [← hlen]; exact getElem?_append_head _ _ _)] at h1
      cases f with
      | zero => simp [series] at h1
      | succ f =>
        have hl : be.length + 1 + ae.length + 1
            = (be.map Job.user ++ [Job.user t] ++ ae.map Job.user ++ [Job.pop]).length := by
          simp; omega
        have h2 := h1
        rw [hl, series_end] at h2
        simp only [Res.done.injEq] at h2
        refine ⟨f, g1, ?_, h2.symm⟩
        rw [series_pop _ _ _ _ _ _ (by rw [← hlen]; exact getElem?_append_head _ _ _)]
        exact h1
  · intro only dd g ht hch hg hq
    have hruns : ∀ j ∈ be.map Job.user ++ [Job.user t] ++ ae.map Job.user,
        j.isBody = true ∧ Runs only j := by
      intro j hj
      refine ⟨hbody j hj, ?_⟩
      simp only [List.mem_append, List.mem_map, List.mem_singleton] at hj
      rcases hj with (⟨u, hu, rfl⟩ | rfl) | ⟨u, hu, rfl⟩
      · exact hch u (List.mem_append_left _ hu)
      · exact ht
      · exact hch u (List.mem_append_right _ hu)
    obtain ⟨g1, _, _, h3⟩ := body_total only _ [Job.pop] g.globalBail g.globalBail dd hruns
      (Closing.leaf _) hg _ cursor g (Nat.le_refl _) (by rw [hlen]; exact hcursor) rfl hq
    obtain ⟨g', hc1, _⟩ := closing_leaf only
      (be.map Job.user ++ [Job.user t] ++ ae.map Job.user) dd g1
    obtain ⟨fuel, hfu⟩ := h3 2 g' hc1
    exact ⟨fuel, g', by rw [hsplit]; exact hfu⟩
  · intro only spec a be2 ae2 prev fin dd depth i hfin hi
    obtain ⟨hs, _⟩ := runSpecJobs_body only spec a be2 ae2 prev fin dd
    have hcl : Closing [Job.restoreStack prev, fin] none prev := by
      rcases hfin with rfl | rfl
      · exact Closing.spec _ _
      · exact Closing.root _ _
    rw [hs]
    exact ⟨getElem?_append_head _ _ _, skipForward_closing _ _ none prev hcl depth i hi⟩

/-- C23 at the list `[failingHook, plainTest, pop]`: from the position after the hook the
scan returns an index, `pop` is the task at index 2, and the `finalize` of the failing hook
leaves the cursor at 2 at most. -/
theorem C23_scan_stops_at_pop_witness :
    (leafJobs [failingHook] plainTest [])[2]? = some Job.pop
    ∧ (∃ k, skipForward failingHook.depth ((leafJobs [failingHook] plainTest []).drop 1) 1
          = some k ∧ 1 ≤ k ∧ k ≤ 2 ∧ k < 3)
    ∧ ∃ c', finalize (leafJobs [failingHook] plainTest []) (.user failingHook)
          (some (Thrown.error "setup failed")) true false
          (enter failingHook (start active (Delay.ms 200) 0)) = .ok c'
        ∧ 1 ≤ c'.cursor ∧ c'.cursor ≤ 2 := by
  obtain ⟨h1, _, _, h4, h5, _⟩ := C23_scan_stops_at_pop [failingHook] [] plainTest 1 (by decide)
  rcases h5 failingHook (some (Thrown.error "setup failed")) true false
      (enter failingHook (start active (Delay.ms 200) 0)) failingHook "o.beforeEach(  )" 0
      rfl rfl rfl rfl with h | ⟨_, m, c', he, _⟩
  · exact ⟨h1, h4 failingHook.depth, h⟩
  · simp [errorText, Thrown.text] at he

/-- C24, on the code: `deepEqual({}, {toString: 1})` returns true although the second object
has a property the first has not, and with the arguments swapped it returns false: the loops
of the plain-object branch test `i in b` and `i in a`, which see the properties inherited
from `Object.prototype`.  Two equal objects `{constructor: 1}` compare unequal, and
`deepEqual([], {valueOf: 1})` throws a `TypeError` instead of returning. -/
theorem C24_inherited_key_is_found :
    deepEqual (.obj []) (.obj [("toString", .num 1)]) = .ok true
    ∧ deepEqual (.obj [("toString", .num 1)]) (.obj []) = .ok false
    ∧ deepEqual (.obj [("constructor", .num 1)]) (.obj [("constructor", .num 1)]) = .ok false
    ∧ deepEqual (.arr []) (.obj [("valueOf", .num 1)])
        = .error "TypeError: b.valueOf is not a function" := by
  refine ⟨rfl, rfl, rfl, rfl⟩

/-- C22. In every run, finished or left by an exception, each call of a body recorded in the
trace is the call of a task at one of its places in the root spec, labelled with the names
pushed at that place: for a test of a well-formed tree, the names of the groups from the
root down to the test followed by its own name, joined by `" > "`; for a hook, `o.<kind>`,
`depth - 1` characters `*`, and the same path in `( ... )`.  The label is assigned by
`next` before the body is called (`enter`), it is the label of `globalTestOrHook` while the
unit runs, a record made by an assertion at the start of the body carries it, and the unit
leaves the path stack alone.  The name pushed by the wrapper of a child is popped when the
nested run reaches its end, and a call of the consumer is recorded only in a run that
reached its end, with the path stack empty. -/
theorem C22_context_labels (only : List Nat) (rootSpec : Spec) (fuel : Nat) (g' : State)
    (hrun : (run only fuel rootSpec).state? = some g') :
    (∀ fn hk label, Ev.call fn hk label ∈ g'.trace →
        ∃ q u, Site rootSpec [] [] q u ∧ fn = u.fn.id ∧ hk = u.hookName ∧ label = context q u)
    ∧ (WellFormed rootSpec → ∀ fn label, Ev.call fn none label ∈ g'.trace →
        ∃ q t, TestAt rootSpec q t ∧ fn = t.fn.id ∧ t.hookName = none
          ∧ label = " > ".intercalate q)
    ∧ (∀ (q : List String) (t : Task), t.hookName = none → context q t = " > ".intercalate q)
    ∧ (∀ (q : List String) (h : Task) (k : HookName), h.hookName = some k →
        context q h
          = "o." ++ k.text ++ stars (h.depth - 1) ++ "( " ++ " > ".intercalate q ++ " )")
    ∧ (∀ (tasks : List Job) (t : Task) (c : Ctx),
        (enter t c).g.globalTestOrHook = some (t, context c.g.subjects t)
        ∧ (settled (unit tasks t c)).g.globalTestOrHook = some (t, context c.g.subjects t)
        ∧ (settled (unit tasks t c)).g.subjects = c.g.subjects
        ∧ ∀ i g1, Assertion (enter t c).g = .ok (i, g1) →
            ∃ r, g1.results = c.g.results ++ [r]
              ∧ (r.context = context c.g.subjects t
                  ∨ r.context = "??? " ++ context c.g.subjects t))
    ∧ (∀ (fuel2 : Nat) (key : String) (ch : Task ⊕ Spec) (be ae : List Task) (d : Delay)
        (g g2 : State),
        nestedRun only fuel2 ch be ae d (pushed g key) = .done g2 → g2.subjects = g.subjects)
    ∧ (∀ results stats, Ev.report results stats ∈ g'.trace →
        g'.subjects = [] ∧ run only fuel rootSpec = .done g')
    ∧ (run only fuel rootSpec = .done g' →
        g'.subjects = [] ∧ Ev.report g'.results g'.stats ∈ g'.trace) := by
  obtain ⟨ts, hts, hc⟩ := run_labels only fuel rootSpec g' hrun
  have hcall : ∀ fn hk label, Ev.call fn hk label ∈ g'.trace →
      ∃ q u, Site rootSpec [] [] q u ∧ fn = u.fn.id ∧ hk = u.hookName
        ∧ label = context q u := by
    intro fn hk label hm
    have hin : Ev.call fn hk label ∈ ts := by
      rcases hc with ⟨_, htr⟩ | ⟨_, _, htr⟩
      · rw [htr] at hm; exact hm
      · rw [htr] at hm
        simp only [List.mem_append, List.mem_cons, List.mem_singleton] at hm
        rcases hm with hm | hm | hm | hm
        · exact hm
        · cases hm
        · cases hm
        · cases hm
    rcases hts _ hin with h | ⟨q, u, hs, he⟩
    · cases h
    · simp only [callOf, Ev.call.injEq] at he
      exact ⟨q, u, hs, he.1, he.2.1, he.2.2⟩
  refine ⟨hcall, ?_, ?_, ?_, ?_, ?_, ?_, ?_⟩
  · intro hw fn label hm
    obtain ⟨q, u, hs, h1, h2, h3⟩ := hcall fn none label hm
    refine ⟨q, u, site_test rootSpec [] [] q u hs hw (by simp) h2.symm, h1, h2.symm, ?_⟩
    rw [h3]
    simp only [context, ← h2]
  · intro q t ht
    simp only [context, ht]
  · intro q h k hk
    simp only [context, hk, stars]
  · intro tasks t c
    have hf := unit_frame tasks t c
    refine ⟨rfl, by rw [hf.current]; rfl, by rw [hf.subjects]; rfl, ?_⟩
    intro i g1 ha
    simp only [Assertion, enter, Except.ok.injEq, Prod.mk.injEq] at ha
    obtain ⟨_, rfl⟩ := ha
    refine ⟨_, rfl, ?_⟩
    by_cases hz : c.g.globalTimedOutAndPendingResolution = 0
    · left; simp [hz]
    · right; simp [hz]
  · intro fuel2 key ch be ae d g g2 h
    exact nested_subjects only fuel2 key ch be ae d g g2 h
  · intro results stats hm
    rcases hc with ⟨_, htr⟩ | ⟨hd, hs, _⟩
    · rw [htr] at hm
      rcases hts _ hm with h | ⟨q, u, _, he⟩
      · cases h
      · simp [callOf] at he
    · exact ⟨hs, hd⟩
  · intro hd
    rcases hc with ⟨⟨m, hm⟩, _⟩ | ⟨_, hs, htr⟩
    · rw [hd] at hm; cases hm
    · exact ⟨hs, by rw [htr]; simp⟩

/-- C22 at `labelledTree`, where the test "t" of the group "G" throws, its sibling "u" is
skipped and the test "b" of the root runs: the run reaches its end, the bodies called are
labelled `G > t` and `b`, every call is the call of a task at its place, and the path stack
is empty at the end. -/
theorem C22_context_labels_witness :
    ∃ g', run [] 30 labelledTree = .done g'
      ∧ g'.trace.filterMap (fun e => match e with
          | .call _ _ label => some label
          | _ => none) = ["G > t", "b"]
      ∧ g'.subjects = []
      ∧ ∀ fn hk label, Ev.call fn hk label ∈ g'.trace →
          ∃ q u, Site labelledTree [] [] q u ∧ fn = u.fn.id ∧ hk = u.hookName
            ∧ label = context q u := by
  have hd : ((run [] 30 labelledTree).done?.map (fun g => g.trace.filterMap (fun e =>
      match e with
      | .call _ _ label => some label
      | _ => none))) = some ["G > t", "b"] := by decide
  cases hr : run [] 30 labelledTree with
  | fuel => rw [hr] at hd; simp [Res.done?] at hd
  | escaped m g => rw [hr] at hd; simp [Res.done?] at hd
  | done g' =>
    rw [hr] at hd
    simp only [Res.done?, Option.map_some', Option.some.injEq] at hd
    obtain ⟨h1, _, _, _, _, _, _, h8⟩ :=
      C22_context_labels [] labelledTree 30 g' (by rw [hr]; rfl)
    exact ⟨g', rfl, hd, (h8 hr).1, h1⟩

end Ospec
